import Mathlib

/-!
Verification development for the Swedish Anki deck cleaner
(`anki_deck_fixer/anki_deck_cleaner.py`, class `CardCleaner`).

The transformation engine is embedded shallowly: Python strings become
`List Char`, each method of `CardCleaner` becomes a Lean function of the
same name (camel-cased), and each regular-expression operation of the
source is implemented by a dedicated scanner that realises exactly the
leftmost / greedy / lazy semantics of the Python pattern it stands for
(the pattern is quoted in the doc comment of the scanner).

Modelling conventions, stated once:
* the Python character classes `\s`, `\w`, `\d` and the string methods
  `strip` / `lower` operate on full Unicode; the model restricts them to
  the ASCII range plus the Latin-1 letters (which covers Swedish text,
  the repository's entire domain); exotic Unicode whitespace or letters
  outside Latin-1 are treated as ordinary characters;
* the anchor `$` is modelled as end-of-string (Python would also match
  just before one final newline);
* `html.unescape` is modelled with the structure of CPython's
  implementation (the `_charref` regular expression and longest-name
  fallback) over the named entities that occur in this repository's data
  (`amp`, `lt`, `gt`, `quot`, `nbsp`, `shy`, `apos`) and the numeric
  forms, without the WHATWG cp1252 override table.
-/

/-- Strings of the model: Python `str` as a list of characters. -/
abbrev Str := List Char

/-- Coerce a Lean string literal into the model. -/
def sl (s : String) : Str := s.data

/-- Python `\s` (restricted to ASCII): space, tab, newline, carriage
return, vertical tab, form feed. -/
def isSpaceC (c : Char) : Bool :=
  c = ' ' || c = '\t' || c = '\n' || c = '\r' || c = '\x0b' || c = '\x0c'

/-- Python `\d`: an ASCII decimal digit. -/
def isDigitC (c : Char) : Bool := '0' ≤ c && c ≤ '9'

/-- Latin-1 letter (`À`–`ÿ` except the multiplication and division
signs); together with ASCII letters this covers Swedish. -/
def isLatin1Letter (c : Char) : Bool :=
  (0xC0 ≤ c.toNat && c.toNat ≤ 0xFF && c.toNat ≠ 0xD7 && c.toNat ≠ 0xF7)

/-- Python `\w` (restricted): ASCII alphanumerics, underscore, Latin-1
letters. -/
def isWordC (c : Char) : Bool :=
  (('a' ≤ c && c ≤ 'z') || ('A' ≤ c && c ≤ 'Z') || isDigitC c || c = '_'
    || isLatin1Letter c)

/-- Python `str.lower` (restricted): ASCII `A`–`Z` and the Latin-1
uppercase range `À`–`Þ` (except `×`) map down by 32. -/
def lowerC (c : Char) : Char :=
  if 'A' ≤ c && c ≤ 'Z' then Char.ofNat (c.toNat + 32)
  else if 0xC0 ≤ c.toNat && c.toNat ≤ 0xDE && c.toNat ≠ 0xD7 then
    Char.ofNat (c.toNat + 32)
  else c

/-- Case-insensitive character comparison, as under `re.IGNORECASE`. -/
def ciEq (a b : Char) : Bool := lowerC a = lowerC b

/-- Python `str.lower` over a whole string. -/
def lowerS (s : Str) : Str := s.map lowerC

/-- Python `str.lstrip()` (ASCII whitespace). -/
def trimL (s : Str) : Str := s.dropWhile (fun c => isSpaceC c)

/-- Python `str.rstrip()` (ASCII whitespace). -/
def trimR (s : Str) : Str := (trimL s.reverse).reverse

/-- Python `str.strip()` (ASCII whitespace). -/
def trim (s : Str) : Str := trimR (trimL s)

/-- Exact prefix test: does `s` start with `pat`? -/
def startsWithL (pat s : Str) : Bool :=
  match pat, s with
  | [], _ => true
  | _ :: _, [] => false
  | p :: ps, c :: cs => p = c && startsWithL ps cs

/-- Case-insensitive prefix test (`re.IGNORECASE` literals,
`str.lower().startswith`). -/
def startsWithCI (pat s : Str) : Bool :=
  match pat, s with
  | [], _ => true
  | _ :: _, [] => false
  | p :: ps, c :: cs => ciEq p c && startsWithCI ps cs

/-- Exact suffix test: does `s` end with `pat`? -/
def endsWithL (pat s : Str) : Bool := startsWithL pat.reverse s.reverse

/-- Case-insensitive consume: if `s` starts with `pat` (ignoring case),
return the rest of `s`. -/
def eatCI (pat s : Str) : Option Str :=
  match pat, s with
  | [], _ => some s
  | _ :: _, [] => none
  | p :: ps, c :: cs => if ciEq p c then eatCI ps cs else none

/-- Exact consume: if `s` starts with `pat`, return the rest. -/
def eatL (pat s : Str) : Option Str :=
  match pat, s with
  | [], _ => some s
  | _ :: _, [] => none
  | p :: ps, c :: cs => if p = c then eatL ps cs else none

/-- Consuming a pattern shortens the string by the pattern length. -/
theorem eatL_length (pat s r : Str) (h : eatL pat s = some r) :
    r.length + pat.length = s.length := by
  induction pat generalizing s with
  | nil =>
    simp only [eatL, Option.some.injEq] at h
    simp [← h]
  | cons p ps ih =>
    cases s with
    | nil => simp [eatL] at h
    | cons c cs =>
      simp only [eatL] at h
      split at h
      · have := ih cs h
        simp only [List.length_cons]
        omega
      · exact absurd h (by simp)

/-- Case-insensitive consuming shortens the string likewise. -/
theorem eatCI_length (pat s r : Str) (h : eatCI pat s = some r) :
    r.length + pat.length = s.length := by
  induction pat generalizing s with
  | nil =>
    simp only [eatCI, Option.some.injEq] at h
    simp [← h]
  | cons p ps ih =>
    cases s with
    | nil => simp [eatCI] at h
    | cons c cs =>
      simp only [eatCI] at h
      split at h
      · have := ih cs h
        simp only [List.length_cons]
        omega
      · exact absurd h (by simp)

/-- Substring test, Python `pat in s`. -/
def containsSub (pat s : Str) : Bool :=
  match s with
  | [] => startsWithL pat []
  | _ :: cs => startsWithL pat s || containsSub pat cs

/-- Worker of `splitOnSub`: accumulates the current piece reversed. -/
def splitOnSubGo (p : Char) (ps : Str) : Nat → Str → Str → List Str
  | _, [], acc => [acc.reverse]
  | 0, _, acc => [acc.reverse]
  | Nat.succ f, c :: cs, acc =>
    match eatL (p :: ps) (c :: cs) with
    | some rest => acc.reverse :: splitOnSubGo p ps f rest []
    | none => splitOnSubGo p ps f cs (c :: acc)

/-- Python `str.split(sep)` for a non-empty literal separator: cut at
every non-overlapping leftmost occurrence of `sep`. -/
def splitOnSub (sep : Str) (s : Str) : List Str :=
  match sep with
  | [] => [s]
  | p :: ps => splitOnSubGo p ps s.length s []

/-- Python `str.replace(a, b)` for single characters. -/
def replaceChar (a b : Char) (s : Str) : Str :=
  s.map (fun c => if c = a then b else c)

/-- Generic modelling of `re.sub(pattern, repl, s)`: the matcher,
attempted at every position, returns the replacement text together with
the number of characters the match consumed.  None of the modelled
patterns can match the empty string, so the scanner always advances by
at least one character (`max k 1`; every matcher in this file returns
`k ≥ 1`, so the `max` never changes anything). -/
def scanSubF (m : Str → Option (Str × Nat)) : Nat → Str → Str
  | _, [] => []
  | 0, _ => []
  | Nat.succ f, c :: cs =>
    match m (c :: cs) with
    | some (o, k) => o ++ scanSubF m f (cs.drop (k - 1))
    | none => c :: scanSubF m f cs

/-- Entry point of the substitution scan (the fuel, one unit per
consumed character, is the input length, which every scan respects). -/
def scanSub (m : Str → Option (Str × Nat)) (s : Str) : Str :=
  scanSubF m s.length s

/-- Generic modelling of `re.split` with one capturing group in the
pattern: the matcher returns the captured piece and the consumed count;
the result interleaves the runs between matches (tagged `false`) with
the captured groups (tagged `true`).  With no capturing matcher output
used, `captured = none` models a group-free `re.split`. -/
def scanSplitF (m : Str → Option (Option Str × Str)) :
    Nat → Str → Str → List (Bool × Str)
  | _, [], acc => [(false, acc.reverse)]
  | 0, _, acc => [(false, acc.reverse)]
  | Nat.succ f, c :: cs, acc =>
    match m (c :: cs) with
    | some (g, rem) =>
      (false, acc.reverse) ::
        (match g with | some gp => [(true, gp)] | none => []) ++
          scanSplitF m f rem []
    | none => scanSplitF m f cs (c :: acc)

/-- Entry point of the split scan (fuelled like `scanSub`; the matcher
returns the optional captured group and the remainder after the match,
which every matcher in this file makes strictly shorter). -/
def scanSplit (m : Str → Option (Option Str × Str)) (s : Str) (acc : Str) :
    List (Bool × Str) :=
  scanSplitF m s.length s acc

/-! ### The entity decoder (`html.unescape`) -/

/-- Named-entity table of the model (see the module comment): each key
as CPython's `html5` dictionary has it, with and without semicolon. -/
def entTable : List (Str × Str) :=
  [ (sl "amp;", sl "&"), (sl "amp", sl "&"),
    (sl "lt;", sl "<"), (sl "lt", sl "<"),
    (sl "gt;", sl ">"), (sl "gt", sl ">"),
    (sl "quot;", sl "\""), (sl "quot", sl "\""),
    (sl "nbsp;", [Char.ofNat 0xA0]), (sl "nbsp", [Char.ofNat 0xA0]),
    (sl "shy;", [Char.ofNat 0xAD]), (sl "shy", [Char.ofNat 0xAD]),
    (sl "apos;", sl "'") ]

/-- Exact lookup in the entity table. -/
def entLookup (g : Str) : Option Str :=
  (entTable.find? (fun e => e.1 = g)).map (·.2)

/-- Characters allowed in a named character reference:
`[^\t\n\f <&#;]` from CPython's `_charref`. -/
def isCharrefNameC (c : Char) : Bool :=
  !(c = '\t' || c = '\n' || c = '\x0c' || c = ' ' || c = '<' || c = '&'
    || c = '#' || c = ';')

/-- Longest-prefix fallback of `html._replace_charref`: try the prefixes
of `g` of length `x`, `x-1`, …, `2` against the table; on a hit return
the value followed by the unmatched tail of `g`. -/
def entFallback (g : Str) : Nat → Option Str
  | 0 => none
  | 1 => none
  | Nat.succ x =>
    match entLookup (g.take (Nat.succ x)) with
    | some v => some (v ++ g.drop (Nat.succ x))
    | none => entFallback g x

/-- Value of a hexadecimal digit. -/
def hexVal (c : Char) : Nat :=
  if isDigitC c then c.toNat - '0'.toNat
  else if 'a' ≤ c && c ≤ 'f' then c.toNat - 'a'.toNat + 10
  else if 'A' ≤ c && c ≤ 'F' then c.toNat - 'A'.toNat + 10
  else 0

/-- Is `c` a hexadecimal digit (`[0-9a-fA-F]`)? -/
def isHexC (c : Char) : Bool :=
  isDigitC c || ('a' ≤ c && c ≤ 'f') || ('A' ≤ c && c ≤ 'F')

/-- Decode a numeric character reference (digits already parsed to
`num`): surrogates and values beyond U+10FFFF give U+FFFD, as in
`html._replace_charref` (the cp1252 override table is not modelled). -/
def numericChar (num : Nat) : Str :=
  if 0xD800 ≤ num && num ≤ 0xDFFF || 0x10FFFF < num then [Char.ofNat 0xFFFD]
  else [Char.ofNat num]

/-- Digits to a number in the given base. -/
def digitsToNat (base : Nat) (ds : Str) : Nat :=
  ds.foldl (fun a c => a * base + hexVal c) 0

/-- Helper consuming an optional semicolon, returning the extra count. -/
def semiCount : Str → Nat
  | ';' :: _ => 1
  | _ => 0

/-- Matcher for CPython's `_charref` pattern
`&(#[0-9]+;?|#[xX][0-9a-fA-F]+;?|[^\t\n\f <&#;]{1,32};?)` at one
position, returning the text `_replace_charref` substitutes and the
consumed length. -/
def matchCharref (s : Str) : Option (Str × Nat) :=
  match s with
  | '&' :: '#' :: x :: r3 =>
    if isDigitC x then
      let ds := (x :: r3).takeWhile isDigitC
      let r4 := (x :: r3).dropWhile isDigitC
      some (numericChar (digitsToNat 10 ds), 2 + ds.length + semiCount r4)
    else if x = 'x' || x = 'X' then
      match r3.takeWhile isHexC with
      | [] => none
      | d :: ds =>
        let r4 := r3.dropWhile isHexC
        some (numericChar (digitsToNat 16 (d :: ds)),
          3 + (d :: ds).length + semiCount r4)
    else none
  | '&' :: rest =>
    match rest.takeWhile isCharrefNameC with
    | [] => none
    | n :: ns =>
      let nm := (n :: ns).take 32
      let r2 := rest.drop nm.length
      let g := match r2 with
        | ';' :: _ => nm ++ [';']
        | _ => nm
      let k := 1 + g.length
      match entLookup g with
      | some v => some (v, k)
      | none =>
        match entFallback g (g.length - 1) with
        | some v => some (v, k)
        | none => some ('&' :: g, k)
  | _ => none

/-- The model of `html.unescape` (the source decodes entities with it in
`clean_card`, step 1). -/
def unescape (s : Str) : Str :=
  if containsSub (sl "&") s then scanSub matchCharref s else s

/-! ### Deriving the italic terms from the front field
(`CardCleaner._set_italic_terms_from_front`) -/

/-- Matcher for `\s*\[sound:[^\]]+\]\s*` (replaced by a single space,
`re.IGNORECASE`): leading whitespace, the literal `[sound:`, at least
one character other than `]`, the closing `]`, trailing whitespace. -/
def matchSound (s : Str) : Option (Str × Nat) :=
  let sp := s.takeWhile isSpaceC
  match eatCI (sl "[sound:") (s.dropWhile isSpaceC) with
  | none => none
  | some r2 =>
    match r2.takeWhile (fun c => c ≠ ']') with
    | [] => none
    | b :: bs =>
      match r2.dropWhile (fun c => c ≠ ']') with
      | ']' :: r4 =>
        some (sl " ",
          sp.length + 7 + (b :: bs).length + 1 + (r4.takeWhile isSpaceC).length)
      | _ => none

/-- Removal of `\s*\(\d+\)\s*$` (used on the front text when deriving
italic terms): whitespace, a parenthesised digit run, whitespace, all at
the very end of the string. -/
def stripCountSpAtEnd (s : Str) : Str :=
  match (s.reverse.dropWhile isSpaceC) with
  | ')' :: r2 =>
    match r2.takeWhile isDigitC, r2.dropWhile isDigitC with
    | _ :: _, '(' :: r3 => (r3.dropWhile isSpaceC).reverse
    | _, _ => s
  | _ => s

/-- Removal of `\s*\(\d+\)$` (used on the front field in `clean_card`
step 5 before appending the fresh definition count). -/
def stripCountAtEnd (s : Str) : Str :=
  match s.reverse with
  | ')' :: r2 =>
    match r2.takeWhile isDigitC, r2.dropWhile isDigitC with
    | _ :: _, '(' :: r3 => (r3.dropWhile isSpaceC).reverse
    | _, _ => s
  | _ => s

/-- Does an alternative of `^(en|ett|att)\s+` match here: the word
case-insensitively followed by at least one whitespace character? -/
def artOk (a : String) (s : Str) : Bool :=
  match eatCI (sl a) s with
  | some (c :: _) => isSpaceC c
  | _ => false

/-- Group 1 of `re.match(r'^(en|ett|att)\s+', text, re.IGNORECASE)`,
lowercased, trying the alternatives in the pattern's order. -/
def matchArticle (s : Str) : Option Str :=
  if artOk "en" s then some (sl "en")
  else if artOk "ett" s then some (sl "ett")
  else if artOk "att" s then some (sl "att")
  else none

/-- Removal of `^(?:en|ett|att)\s+` (`re.IGNORECASE`): the article and
every following whitespace character (`\s+` is greedy). -/
def dropArticle (s : Str) : Str :=
  if artOk "en" s then (s.drop 2).dropWhile isSpaceC
  else if artOk "ett" s then (s.drop 3).dropWhile isSpaceC
  else if artOk "att" s then (s.drop 3).dropWhile isSpaceC
  else s

/-- The per-card italicisation context: the candidate terms (each with
its suffix-tolerance flag) and the detected article, mirroring the
fields `_italic_terms` and `_italic_article`. -/
structure ItalicCtx where
  terms : List (Str × Bool)
  article : Option Str

/-- Stable insertion for the descending-length sort below. -/
def insertDescLen (x : Str × Bool) : List (Str × Bool) → List (Str × Bool)
  | [] => [x]
  | y :: ys =>
    if y.1.length ≤ x.1.length then x :: y :: ys else y :: insertDescLen x ys

/-- Python's stable `list.sort(key=len, reverse=True)`. -/
def sortLenDesc : List (Str × Bool) → List (Str × Bool)
  | [] => []
  | x :: xs => insertDescLen x (sortLenDesc xs)

/-- `CardCleaner._set_italic_terms_from_front`: strip the audio marker
and a trailing definition count, detect and remove a leading article or
infinitive marker, then build the candidate list (the base form, plus a
suffix-tolerant stem for a long single word ending in `a`), sorted
longest first. -/
def setItalicTermsFromFront (front : Str) : ItalicCtx :=
  let text0 := scanSub matchSound front
  let text1 := trim (stripCountSpAtEnd text0)
  let art := matchArticle text1
  let text2 := trim (dropArticle text1)
  if text2 = [] then ⟨[], art⟩
  else
    let baseAllow := !(text2.any (fun c => c = ' ')) && decide (4 ≤ text2.length)
    let terms0 := [(text2, baseAllow)]
    let terms1 :=
      if !(text2.any (fun c => c = ' ')) && decide (5 ≤ text2.length)
          && endsWithL (sl "a") (lowerS text2) then
        let stem := text2.take (text2.length - 1)
        if stem ≠ [] then terms0 ++ [(stem, true)] else terms0
      else terms0
    ⟨sortLenDesc terms1, art⟩

/-! ### Segment extraction (`CardCleaner._extract_definitions`) -/

/-- Matcher for the split pattern `<br><br>(?=\d+\.\s)` (case
sensitive): a double line break whose lookahead sees a digit run, a dot
and a whitespace character; only the `<br><br>` is consumed. -/
def matchNumBreak (s : Str) : Option (Option Str × Str) :=
  match eatL (sl "<br><br>") s with
  | none => none
  | some r =>
    match r.takeWhile isDigitC with
    | [] => none
    | _ :: _ =>
      match r.dropWhile isDigitC with
      | '.' :: c :: _ => if isSpaceC c then some (none, r) else none
      | _ => none

/-- Matcher for the split pattern `<br>\s*Or,\s*` (`re.IGNORECASE`). -/
def matchOrSep (s : Str) : Option (Option Str × Str) :=
  match eatCI (sl "<br>") s with
  | none => none
  | some r =>
    match eatCI (sl "or,") (r.dropWhile isSpaceC) with
    | none => none
    | some r2 => some (none, r2.dropWhile isSpaceC)

/-- Removal of `^\d+\.\s*`: a numbering prefix at the start of a
segment. -/
def stripNumDot (s : Str) : Str :=
  match s.takeWhile isDigitC with
  | [] => s
  | _ :: _ =>
    match s.dropWhile isDigitC with
    | '.' :: r => r.dropWhile isSpaceC
    | _ => s

/-- The accumulation loop over numbered parts (source lines 414–418):
strip each part, remove its numbering prefix, keep it if non-empty. -/
def edNumLoop : List Str → List Str
  | [] => []
  | p :: ps =>
    let p2 := stripNumDot (trim p)
    if p2 ≠ [] then p2 :: edNumLoop ps else edNumLoop ps

/-- The comprehension over `Or,`-separated parts (source line 423):
strip each part, keep it if non-empty. -/
def edOrLoop : List Str → List Str
  | [] => []
  | p :: ps => if trim p ≠ [] then trim p :: edOrLoop ps else edOrLoop ps

/-- `CardCleaner._extract_definitions`: split on numbered boundaries
first, otherwise on the legacy `Or,` separator, otherwise the whole
(stripped) text is the single definition. -/
def extractDefinitions (back : Str) : List Str :=
  let parts := (scanSplit matchNumBreak back []).map (·.2)
  if 1 < parts.length then edNumLoop parts
  else
    let parts2 := (scanSplit matchOrSep back []).map (·.2)
    if 1 < parts2.length then edOrLoop parts2
    else [trim back]

/-! ### Gray-span style canonicalisation
(`CardCleaner._normalize_gray_span_styles` and friends) -/

/-- Consume `rgb(\s*194\s*,\s*194\s*,\s*194\s*\)` (`re.IGNORECASE`),
returning the rest. -/
def eatRgb194 (s : Str) : Option Str :=
  match eatCI (sl "rgb(") s with
  | none => none
  | some r1 =>
    match eatL (sl "194") (r1.dropWhile isSpaceC) with
    | none => none
    | some r2 =>
      match (r2.dropWhile isSpaceC) with
      | ',' :: r3 =>
        match eatL (sl "194") (r3.dropWhile isSpaceC) with
        | none => none
        | some r4 =>
          match (r4.dropWhile isSpaceC) with
          | ',' :: r5 =>
            match eatL (sl "194") (r5.dropWhile isSpaceC) with
            | none => none
            | some r6 =>
              match (r6.dropWhile isSpaceC) with
              | ')' :: r7 => some r7
              | _ => none
          | _ => none
      | _ => none

/-- `is_gray_value` of the source: the stripped value fully matches
`#c2c2c2` or `rgb\(\s*194\s*,\s*194\s*,\s*194\s*\)\s*;?`, ignoring
case. -/
def isGrayValue (v : Str) : Bool :=
  let t := trim v
  if t = [] then false
  else if lowerS t = sl "#c2c2c2" then true
  else
    match eatRgb194 t with
    | some r =>
      match r.dropWhile isSpaceC with
      | [] => true
      | [';'] => true
      | _ => false
    | none => false

/-- Attempt `color\s*:\s*([^;]+)` at one position, returning group 1
(the greedy run of non-semicolon characters). -/
def matchColorVal (s : Str) : Option Str :=
  match eatCI (sl "color") s with
  | none => none
  | some r =>
    match r.dropWhile isSpaceC with
    | ':' :: r2 =>
      match (r2.dropWhile isSpaceC).takeWhile (fun c => c ≠ ';') with
      | [] => none
      | v => some v
    | _ => none

/-- `re.search(r'color\s*:\s*([^;]+)\s*;?', style)`: group 1 of the
leftmost match. -/
def searchColorValue : Str → Option Str
  | [] => none
  | c :: cs =>
    match matchColorVal (c :: cs) with
    | some v => some v
    | none => searchColorValue cs

/-- Matcher for `re.sub(r'color\s*:\s*[^;]+\s*;?', '', style)`:
delete every colour declaration. -/
def matchColorDecl (s : Str) : Option (Str × Nat) :=
  match eatCI (sl "color") s with
  | none => none
  | some r =>
    let sp1 := r.takeWhile isSpaceC
    match r.dropWhile isSpaceC with
    | ':' :: r2 =>
      let sp2 := r2.takeWhile isSpaceC
      let r3 := r2.dropWhile isSpaceC
      match r3.takeWhile (fun c => c ≠ ';') with
      | [] => none
      | v => some ([], 5 + sp1.length + 1 + sp2.length + v.length
          + semiCount (r3.dropWhile (fun c => c ≠ ';')))
    | _ => none

/-- Matcher for `re.sub(r';\s*;', ';', s)`. -/
def matchSemiSemi : Str → Option (Str × Nat)
  | ';' :: r =>
    match r.dropWhile isSpaceC with
    | ';' :: _ => some (sl ";", 2 + (r.takeWhile isSpaceC).length)
    | _ => none
  | _ => none

/-- Python `str.strip(' ;')`. -/
def stripSpaceSemi (s : Str) : Str :=
  let p := fun (c : Char) => c = ' ' || c = ';'
  ((s.dropWhile p).reverse.dropWhile p).reverse

/-- `normalize_style` of the source: keep a style whose (first) colour
value is already gray, otherwise delete every colour declaration and
prepend the canonical gray one. -/
def normalizeStyle (style : Str) : Str :=
  match searchColorValue style with
  | none => style
  | some v =>
    if isGrayValue v then style
    else
      let wc0 := trim (scanSub matchColorDecl style)
      let wc1 := stripSpaceSemi (scanSub matchSemiSemi wc0)
      if wc1 ≠ [] then sl "color: rgb(194, 194, 194); " ++ wc1
      else sl "color: rgb(194, 194, 194)"

/-- Parse `style=qVqA>` (`style` case-insensitive, `q` the quote
character, `V` free of `q`, `A` free of `>`), returning the style
value, the after-part and the consumed length. -/
def parseStyleTail (q : Char) (s : Str) : Option (Str × Str × Nat) :=
  match eatCI (sl "style") s with
  | none => none
  | some ('=' :: r2) =>
    match r2 with
    | c :: r3 =>
      if c = q then
        let v := r3.takeWhile (fun x => x ≠ q)
        match r3.dropWhile (fun x => x ≠ q) with
        | _ :: r4 =>
          let a := r4.takeWhile (fun x => x ≠ '>')
          match r4.dropWhile (fun x => x ≠ '>') with
          | '>' :: _ => some (v, a, 7 + v.length + 1 + a.length + 1)
          | _ => none
        | [] => none
      else none
    | [] => none
  | some _ => none

/-- Lazy search for the split point of the group `([^>]*?)` in the span
pattern: extend the group one character at a time (never over `>`), and
at every boundary whose last group character is a non-word character try
to parse the `style` attribute there. -/
def g1go (q : Char) : Str → Nat → Option (Str × Str × Nat × Nat)
  | [], _ => none
  | c :: cs, k0 =>
    if c = '>' then none
    else if !isWordC c then
      match parseStyleTail q cs with
      | some (v, a, t) => some (v, a, k0 + 1, t)
      | none => g1go q cs (k0 + 1)
    else g1go q cs (k0 + 1)

/-- Matcher for one span-style rewrite of `_normalize_gray_span_styles`:
the pattern `<span\b([^>]*?)\bstyle=q([^q]*)q([^>]*)>` (`re.IGNORECASE`)
with `q` the quote character, replaced by
`<span\1style=q{normalize_style(\2)}q\3>`. -/
def matchSpanStyle (q : Char) (s : Str) : Option (Str × Nat) :=
  match eatCI (sl "<span") s with
  | none => none
  | some [] => none
  | some (c0 :: r) =>
    if isWordC c0 then none
    else
      match g1go q (c0 :: r) 0 with
      | some (v, a, k1, t) =>
        some (sl "<span" ++ (c0 :: r).take k1 ++ sl "style=" ++ [q]
            ++ normalizeStyle v ++ [q] ++ a ++ sl ">",
          5 + k1 + t)
      | none => none

/-- `CardCleaner._normalize_gray_span_styles`: rewrite the `style`
attribute of every span open tag, double-quoted attributes first, then
single-quoted ones. -/
def normalizeGraySpanStyles (text : Str) : Str :=
  scanSub (matchSpanStyle '\'') (scanSub (matchSpanStyle '"') text)

/-- Index of the first occurrence of a character (Python `str.find`). -/
def idxOf (c : Char) : Str → Option Nat
  | [] => none
  | x :: xs => if x = c then some 0 else (idxOf c xs).map (fun n => n + 1)

/-- Attempt `color\s*:\s*#c2c2c2\b` at one position (`re.IGNORECASE`). -/
def matchHexGray (s : Str) : Bool :=
  match eatCI (sl "color") s with
  | none => false
  | some r =>
    match r.dropWhile isSpaceC with
    | ':' :: r2 =>
      match eatCI (sl "#c2c2c2") (r2.dropWhile isSpaceC) with
      | some [] => true
      | some (c :: _) => !isWordC c
      | none => false
    | _ => false

/-- Attempt `color\s*:\s*rgb\(\s*194\s*,\s*194\s*,\s*194\s*\)\s*;?` at
one position (the optional tail never decides a search). -/
def matchRgbGrayDecl (s : Str) : Bool :=
  match eatCI (sl "color") s with
  | none => false
  | some r =>
    match r.dropWhile isSpaceC with
    | ':' :: r2 =>
      match eatRgb194 (r2.dropWhile isSpaceC) with
      | some _ => true
      | none => false
    | _ => false

/-- `re.search` of a boolean position matcher. -/
def searchPos (m : Str → Bool) : Str → Bool
  | [] => m []
  | c :: cs => m (c :: cs) || searchPos m cs

/-- `CardCleaner._gray_span_open_tag`: the open tag of a span whose
style carries a muted-gray colour declaration, if the text begins with
one. -/
def graySpanOpenTag (spanHtml : Str) : Option Str :=
  match idxOf '>' spanHtml with
  | none => none
  | some 0 => none
  | some (Nat.succ g) =>
    let openTag := spanHtml.take (g + 2)
    if !startsWithCI (sl "<span") openTag then none
    else if searchPos matchHexGray openTag then some openTag
    else if searchPos matchRgbGrayDecl openTag then some openTag
    else none

/-- `CardCleaner._wrap_gray_span`. -/
def wrapGraySpan (inner : Str) : Str :=
  sl "<span style=\"color: rgb(194, 194, 194)\">" ++ inner ++ sl "</span>"

/-- Python `s.split(sep, 1)`: cut at the first occurrence only. -/
def splitOnceAt (sep : Str) : Str → Option (Str × Str)
  | [] => none
  | c :: cs =>
    match eatL sep (c :: cs) with
    | some rest => some ([], rest)
    | none =>
      match splitOnceAt sep cs with
      | some (l, r) => some (c :: l, r)
      | none => none

/-- `CardCleaner._maybe_split_gray_span_on_double_break`: split a gray
span whose inner text has a double line break followed by a
parenthesised block into two gray spans. -/
def maybeSplitGraySpan (spanHtml : Str) (allowSplit : Bool) : Str :=
  if !allowSplit then spanHtml
  else
    match graySpanOpenTag spanHtml with
    | none => spanHtml
    | some openTag =>
      if !endsWithL (sl "</span>") spanHtml then spanHtml
      else
        let inner := (spanHtml.drop openTag.length).take
          (spanHtml.length - openTag.length - 7)
        match splitOnceAt (sl "<br><br>") inner with
        | none => spanHtml
        | some (left, right) =>
          if !startsWithL (sl "(") (trim right) then spanHtml
          else
            openTag ++ trim left ++ sl "</span>" ++ sl "<br><br>"
              ++ openTag ++ trim right ++ sl "</span>"

/-! ### Headword italicisation (`CardCleaner._italicize_current_terms`) -/

/-- A word boundary `\b` between an optional left and right character:
exactly one side is a word character. -/
def boundaryB (l r : Option Char) : Bool :=
  (match l with | some c => isWordC c | none => false)
    != (match r with | some c => isWordC c | none => false)

/-- Does `\b<w>\s` (ignoring case) match ending at the current position,
`prevRev` being the already-scanned text reversed?  Used for the
negative lookbehinds `(?<!\ben\s)`, `(?<!\bett\s)`, `(?<!\batt\s)`. -/
def lbWordSp (w : Str) (prevRev : Str) : Bool :=
  match prevRev with
  | sp :: r1 =>
    if !isSpaceC sp then false
    else
      match eatCI w.reverse r1 with
      | none => false
      | some [] => true
      | some (c :: _) => !isWordC c
  | [] => false

/-- The compiled shape of one term's pattern (source lines 249–262). -/
inductive TermPat where
  | phrase (t : Str)
  | word (t : Str) (allowSuffix : Bool) (art : Option Str)

/-- Greedy `\w{0,3}\b` after the term: try three, two, one, zero extra
word characters, accepting the first count that ends on a boundary. -/
def trySuffix (lastT : Char) (rest1 : Str) : Nat → Option Nat
  | 0 => if boundaryB (some lastT) rest1.head? then some 0 else none
  | Nat.succ j =>
    let k := Nat.succ j
    if decide ((rest1.take k).length = k) && (rest1.take k).all isWordC
        && boundaryB (rest1.get? (k - 1)) (rest1.drop k).head? then
      some k
    else trySuffix lastT rest1 j

/-- Attempt a term pattern at the current position; on success return
the matched text (in its original case) and its length. -/
def tryTermMatch (p : TermPat) (prevRev s : Str) : Option (Str × Nat) :=
  match p with
  | .phrase t =>
    if (match prevRev with | c :: _ => isWordC c | [] => false) then none
    else
      match eatCI t s with
      | none => none
      | some rest1 =>
        if (match rest1 with | c :: _ => isWordC c | [] => false) then none
        else some (s.take t.length, t.length)
  | .word t allowSuffix art =>
    if art = some (sl "att")
        && (lbWordSp (sl "en") prevRev || lbWordSp (sl "ett") prevRev) then
      none
    else if (art = some (sl "en") || art = some (sl "ett"))
        && lbWordSp (sl "att") prevRev then
      none
    else if !boundaryB prevRev.head? s.head? then none
    else
      match eatCI t s with
      | none => none
      | some rest1 =>
        let lastT := (s.take t.length).get? (t.length - 1)
        match lastT with
        | none => none
        | some lc =>
          if allowSuffix then
            match trySuffix lc rest1 3 with
            | some j => some (s.take (t.length + j), t.length + j)
            | none => none
          else
            if boundaryB (some lc) rest1.head? then some (s.take t.length, t.length)
            else none

/-- Worker of `re.sub(pattern, lambda m: f'<i>{m.group(0)}</i>', s)`:
scan left to right, wrapping every leftmost match. -/
def resubWrapGo (p : TermPat) : Nat → Str → Str → Str
  | _, _, [] => []
  | 0, _, _ => []
  | Nat.succ f, prevRev, c :: cs =>
    match tryTermMatch p prevRev (c :: cs) with
    | some (mtext, k) =>
      sl "<i>" ++ mtext ++ sl "</i>"
        ++ resubWrapGo p f (mtext.reverse ++ prevRev) (cs.drop (k - 1))
    | none => c :: resubWrapGo p f (c :: prevRev) cs

/-- One wrapping pass over a plain chunk (fresh left context, as Python
applies `re.sub` to each chunk string separately; fuelled like
`scanSub`). -/
def resubWrap (p : TermPat) (s : Str) : Str := resubWrapGo p s.length [] s

/-- Matcher for the split pattern `(\(\s*på\b[^)]*\))`
(`re.IGNORECASE`): a parenthesised group starting with `på` at a word
boundary. -/
def matchPaParen (s : Str) : Option (Option Str × Str) :=
  match s with
  | '(' :: r =>
    let sp := r.takeWhile isSpaceC
    match r.dropWhile isSpaceC with
    | p1 :: p2 :: r2 =>
      if ciEq p1 'p' && ciEq p2 'å' then
        if (match r2 with | c :: _ => isWordC c | [] => false) then none
        else
          let b := r2.takeWhile (fun c => c ≠ ')')
          match r2.dropWhile (fun c => c ≠ ')') with
          | ')' :: tail =>
            some (some ('(' :: sp ++ p1 :: p2 :: (b ++ [')'])), tail)
          | _ => none
      else none
    | _ => none
  | _ => none

/-- `do_sub` of the source: split off `(på …)` groups, leave them
untouched, and run the wrapping substitution on everything else. -/
def doSub (p : TermPat) (s : Str) : Str :=
  let chunks := scanSplit matchPaParen s []
  match chunks with
  | [(false, whole)] => resubWrap p whole
  | _ =>
    (chunks.map (fun cpair =>
      if cpair.2 = [] then []
      else if cpair.1 then cpair.2
      else resubWrap p cpair.2)).flatten

/-- `apply_inside_quotes` of the source: walk the characters tracking an
open quote (double or single); the function is applied to each
quote-delimited buffer and to a trailing unterminated one. -/
def applyInsideQuotes (fn : Str → Str) : Str → Option Char → Str → Str
  | [], none, buf => buf
  | [], some _, buf => fn buf
  | ch :: rest, quote, buf =>
    if ch = '"' || ch = '\'' then
      match quote with
      | none => buf ++ [ch] ++ applyInsideQuotes fn rest (some ch) []
      | some q =>
        if ch = q then fn buf ++ [ch] ++ applyInsideQuotes fn rest none []
        else applyInsideQuotes fn rest quote (buf ++ [ch])
    else applyInsideQuotes fn rest quote (buf ++ [ch])

/-- The common tail of an italic-tag match: the `i`, the word boundary,
`[^>]*` and the closing `>`; `pre` is the already-matched `<` or `</`. -/
def itagFinish (pre : Str) (r1 : Str) : Option (Option Str × Str) :=
  match r1 with
  | i :: r2 =>
    if ciEq i 'i' then
      if (match r2 with | c :: _ => isWordC c | [] => false) then none
      else
        let b := r2.takeWhile (fun c => c ≠ '>')
        match r2.dropWhile (fun c => c ≠ '>') with
        | '>' :: tail => some (some (pre ++ i :: (b ++ ['>'])), tail)
        | _ => none
    else none
  | [] => none

/-- Matcher for the split pattern `(<\/?i\b[^>]*>)` (`re.IGNORECASE`):
an italic open or close tag (built on `itagFinish`, which handles
everything after the optional slash). -/
def matchITag (s : Str) : Option (Option Str × Str) :=
  match s with
  | '<' :: '/' :: rest => itagFinish (sl "</") rest
  | '<' :: rest => itagFinish (sl "<") rest
  | _ => none

/-- Worker of `apply_outside_i`: walk the italic-tag split parts,
tracking the local emphasis state. -/
def aoGo (onlyQ : Bool) (p : TermPat) : List (Bool × Str) → Bool → Str
  | [], _ => []
  | (isTag, sub) :: rest, inI =>
    if sub = [] then aoGo onlyQ p rest inI
    else if isTag then
      let inI' := if startsWithCI (sl "<i") sub then true
        else if startsWithCI (sl "</i") sub then false
        else inI
      sub ++ aoGo onlyQ p rest inI'
    else if inI then sub ++ aoGo onlyQ p rest inI
    else
      (if onlyQ then applyInsideQuotes (doSub p) sub none []
        else doSub p sub) ++ aoGo onlyQ p rest inI

/-- `apply_outside_i` of the source. -/
def applyOutsideI (onlyQ : Bool) (p : TermPat) (source : Str) : Str :=
  aoGo onlyQ p (scanSplit matchITag source []) false

/-- Compilation of the pattern for one term (source lines 245–262). -/
def termPatOf (art : Option Str) (term : Str) (allowSuffix : Bool) : TermPat :=
  if term.any (fun c => c = ' ') then .phrase term
  else .word term allowSuffix art

/-- The per-text-part loop over the candidate terms. -/
def applyTermsTo (ctx : ItalicCtx) (textPart : Str) : Str :=
  ctx.terms.foldl (fun tp t =>
    if t.1 = [] then tp
    else
      applyOutsideI (ctx.article = some (sl "att"))
        (termPatOf ctx.article t.1 t.2) tp) textPart

/-- Matcher for the outer split pattern `(<[^>]+>)`: any complete
tag-shaped run. -/
def matchTag (s : Str) : Option (Option Str × Str) :=
  match s with
  | '<' :: r =>
    match r.takeWhile (fun c => c ≠ '>') with
    | [] => none
    | b =>
      match r.dropWhile (fun c => c ≠ '>') with
      | '>' :: tail => some (some ('<' :: (b ++ ['>'])), tail)
      | _ => none
  | _ => none

/-- Worker of `_italicize_current_terms`: walk the tag split parts,
tracking the emphasis state, italicising the plain runs. -/
def itGo (ctx : ItalicCtx) : List (Bool × Str) → Bool → Str
  | [], _ => []
  | (isTag, part) :: rest, inI =>
    if part = [] then itGo ctx rest inI
    else if isTag then
      let inI' := if startsWithCI (sl "<i") part then true
        else if startsWithCI (sl "</i") part then false
        else inI
      part ++ itGo ctx rest inI'
    else if inI then part ++ itGo ctx rest inI
    else applyTermsTo ctx part ++ itGo ctx rest inI

/-- `CardCleaner._italicize_current_terms`. -/
def italicizeCurrentTerms (ctx : ItalicCtx) (htmlText : Str) : Str :=
  if ctx.terms.isEmpty then htmlText
  else itGo ctx (scanSplit matchTag htmlText []) false

/-! ### Line-level normalisation and classification -/

/-- `CardCleaner._remove_wrapping_parentheses`: the pattern
`^\(([^)]+)\)$` — a parenthesis pair wrapping the whole line with no
inner closing parenthesis. -/
def removeWrappingParens (line : Str) : Str :=
  match line with
  | '(' :: r =>
    match r.takeWhile (fun c => c ≠ ')') with
    | [] => line
    | b =>
      match r.dropWhile (fun c => c ≠ ')') with
      | [')'] => b
      | _ => line
  | _ => line

/-- Removal of the end-anchored `q\s*m\s*$` (for quote `q` and middle
character `m`, i.e. the patterns `"\s*,\s*$`, `"\s*\)\s*$` and their
single-quote twins), replaced by the bare quote. -/
def subQCEnd (q mid : Char) (s : Str) : Str :=
  match s.reverse.dropWhile isSpaceC with
  | m :: r2 =>
    if m = mid then
      match r2.dropWhile isSpaceC with
      | c :: r3 => if c = q then (q :: r3).reverse else s
      | [] => s
    else s
  | [] => s

/-- Matcher for `q\s*,\s*q` replaced by `q<br>q` (the patterns
`"\s*,\s*"` and `'\s*,\s*'`). -/
def matchQCQ (q : Char) (s : Str) : Option (Str × Nat) :=
  match s with
  | c :: r =>
    if c = q then
      let sp1 := r.takeWhile isSpaceC
      match r.dropWhile isSpaceC with
      | ',' :: r2 =>
        let sp2 := r2.takeWhile isSpaceC
        match r2.dropWhile isSpaceC with
        | c2 :: _ =>
          if c2 = q then
            some ([q] ++ sl "<br>" ++ [q], 1 + sp1.length + 1 + sp2.length + 1)
          else none
        | [] => none
      | _ => none
    else none
  | [] => none

/-- Does the string start with a double or single quote? -/
def headIsQuote (s : Str) : Bool :=
  match s with
  | c :: _ => c = '"' || c = '\''
  | [] => false

/-- Per-line worker of `_normalize_quoted_example_lines`. -/
def nqelPart (part : Str) : Str :=
  let stripped := trim part
  if stripped = [] then part
  else
    let normalized :=
      if startsWithL (sl "(") stripped && endsWithL (sl ")") stripped then
        let unwrapped := removeWrappingParens stripped
        if headIsQuote (trim unwrapped) then unwrapped else part
      else part
    if headIsQuote (trim normalized) then
      let n1 := subQCEnd '"' ',' normalized
      let n2 := subQCEnd '\'' ',' n1
      let n3 := subQCEnd '"' ')' n2
      let n4 := subQCEnd '\'' ')' n3
      let n5 := scanSub (matchQCQ '"') n4
      scanSub (matchQCQ '\'') n5
    else normalized

/-- `CardCleaner._normalize_quoted_example_lines`: per `<br>`-separated
part, unwrap a parenthesised quote, trim trailing separators after a
closing quote, and break quote-comma-quote sequences onto their own
lines. -/
def normalizeQuotedExampleLines (t : Str) : Str :=
  List.intercalate (sl "<br>") ((splitOnSub (sl "<br>") t).map nqelPart)

/-- Search for `mid` before any closing parenthesis (backtracking
residue of the patterns `^\(en [^)]+:` and friends). -/
def midBeforeParen (mid : Char) : Str → Bool
  | [] => false
  | c :: cs => if c = mid then true else if c = ')' then false else midBeforeParen mid cs

/-- Attempt `^\(<word>[^)]+<mid>` (ignoring case), `word` carrying the
opening parenthesis and trailing space, e.g. `(en `. -/
def matchParenArt (word : String) (mid : Char) (line : Str) : Bool :=
  match eatCI (sl word) line with
  | none => false
  | some [] => false
  | some (c0 :: rest) =>
    if c0 = ')' then false else midBeforeParen mid rest

/-- `CardCleaner._is_synonym_or_extra`: the fixed list of parenthetical
lexical cues, tried in the source's order. -/
def isSynonymOrExtra (line : Str) : Bool :=
  startsWithCI (sl "(syn:") line ||
  startsWithCI (sl "(best:") line ||
  startsWithCI (sl "(pl:") line ||
  startsWithCI (sl "(på") line ||
  matchParenArt "(en " ':' line ||
  matchParenArt "(ett " ':' line ||
  matchParenArt "(ett " ')' line ||
  matchParenArt "(en " ')' line

/-- `CardCleaner._apply_color_styling`: definition lines pass through
unchanged; example/note lines are normalised, italicised and wrapped in
(or kept inside) a gray span. -/
def applyColorStyling (ctx : ItalicCtx) (line : Str) (isGray : Bool) : Str :=
  if !isGray then line
  else
    if startsWithL (sl "<span") line && endsWithL (sl "</span>") line then
      match graySpanOpenTag line with
      | some openTag =>
        let inner := (line.drop openTag.length).take
          (line.length - openTag.length - 7)
        openTag ++ italicizeCurrentTerms ctx (normalizeQuotedExampleLines inner)
          ++ sl "</span>"
      | none =>
        wrapGraySpan (italicizeCurrentTerms ctx (normalizeQuotedExampleLines line))
    else
      wrapGraySpan (italicizeCurrentTerms ctx (normalizeQuotedExampleLines line))

/-- `CardCleaner._process_line`: classify a single line and style it. -/
def processLine (ctx : ItalicCtx) (line : Str) (_isMain : Bool) : Str :=
  if startsWithL (sl "<span") line && endsWithL (sl "</span>") line
      && (graySpanOpenTag line).isSome then
    applyColorStyling ctx line true
  else if startsWithL (sl "\"") line then
    applyColorStyling ctx (normalizeQuotedExampleLines line) true
  else
    let mu := removeWrappingParens line
    if mu ≠ line && startsWithL (sl "\"") (trim mu) then
      applyColorStyling ctx (normalizeQuotedExampleLines mu) true
    else if isSynonymOrExtra line then applyColorStyling ctx line true
    else applyColorStyling ctx line false

/-! ### Plain-content processing
(`CardCleaner._process_content_outside_spans`) -/

/-- After an opening parenthesis: the residue of `\s*(["\t'].*)` — skip
whitespace greedily, backtracking onto a tab when the character after
the run is not one of `"`, tab, `'`; return group 2. -/
def quoteAfterParen (r : Str) : Option Str :=
  let sp := r.takeWhile isSpaceC
  let rest := r.dropWhile isSpaceC
  match rest with
  | c :: _ =>
    if c = '"' || c = '\'' then some rest
    else
      match (sp.reverse.takeWhile (fun x => x ≠ '\t')), sp.reverse.dropWhile (fun x => x ≠ '\t') with
      | after, '\t' :: _ => some ('\t' :: after.reverse ++ rest)
      | _, _ => none
  | [] =>
    match (sp.reverse.takeWhile (fun x => x ≠ '\t')), sp.reverse.dropWhile (fun x => x ≠ '\t') with
    | after, '\t' :: _ => some ('\t' :: after.reverse)
    | _, _ => none

/-- Descending list of the indices of `(` in the line. -/
def parenIdxRev (line : Str) : List Nat :=
  ((line.enum.filter (fun p => p.2 = '(')).map (fun p => p.1)).reverse

/-- Try the candidate split points for the greedy group of
`^(.*)\(\s*(["\t'].*)$`, rightmost parenthesis first. -/
def mdqTry (line : Str) : List Nat → Option (Str × Str)
  | [] => none
  | i :: is =>
    match quoteAfterParen (line.drop (i + 1)) with
    | some g2 => some (line.take i, g2)
    | none => mdqTry line is

/-- `re.match(r'^(.*)\(\s*(["\t\'].*)$', line)` (`.` excludes the
newline): groups 1 and 2 of the match, if any. -/
def matchDefQuote (line : Str) : Option (Str × Str) :=
  if line.any (fun c => c = '\n') then none
  else mdqTry line (parenIdxRev line)

/-- The absorption loop for quote-continuation lines (source lines
492–503): stripped non-empty quote-led lines are absorbed, stopping
after one that ends in a closing parenthesis; returns the absorbed
stripped lines and the number of lines consumed. -/
def collectQuoteLines : List Str → List Str × Nat
  | [] => ([], 0)
  | l :: ls =>
    let nxt := trim l
    if nxt = [] then ([], 0)
    else if headIsQuote nxt then
      if endsWithL (sl ")") (trimR nxt) then ([nxt], 1)
      else
        let (a, n) := collectQuoteLines ls
        (nxt :: a, n + 1)
    else ([], 0)

/-- Matcher for the split pattern `\(t\.ex\.\s*"([^"]*)"\)`
(`re.IGNORECASE`), capturing the quoted text. -/
def matchTexParen (s : Str) : Option (Option Str × Str) :=
  match eatCI (sl "(t.ex.") s with
  | none => none
  | some r =>
    match r.dropWhile isSpaceC with
    | '"' :: r2 =>
      let g := r2.takeWhile (fun c => c ≠ '"')
      match r2.dropWhile (fun c => c ≠ '"') with
      | '"' :: ')' :: tail => some (some g, tail)
      | _ => none
    | _ => none

/-- Lazy search for the closing parenthesis of
`(.*?)\)\s*$`: the earliest `)` whose tail is all whitespace, the group
collected on the way (failing on a newline, which `.` cannot match). -/
def m2FindClose (acc : Str) : Str → Option Str
  | [] => none
  | c :: cs =>
    if c = ')' && cs.all isSpaceC then some acc.reverse
    else if c = '\n' then none
    else m2FindClose (c :: acc) cs

/-- Lazy search for the opening parenthesis of
`(.*?)\(\s*t\.ex\.\s*(.*?)\)\s*$` (`re.IGNORECASE`): earliest `(`
followed by `t.ex.` whose own close-search succeeds. -/
def m2go (pre : Str) : Str → Option (Str × Str)
  | [] => none
  | c :: cs =>
    if c = '(' then
      match eatCI (sl "t.ex.") (cs.dropWhile isSpaceC) with
      | some r2 =>
        match m2FindClose [] (r2.dropWhile isSpaceC) with
        | some g2 => some (pre.reverse, g2)
        | none => m2go (c :: pre) cs
      | none => m2go (c :: pre) cs
    else if c = '\n' then none
    else m2go (c :: pre) cs

/-- `re.match(r'^\s*(.*?)\(\s*t\.ex\.\s*(.*?)\)\s*$', line,
re.IGNORECASE)`: groups 1 and 2. -/
def matchM2 (line : Str) : Option (Str × Str) :=
  m2go [] (line.dropWhile isSpaceC)

/-- Matcher for `re.sub(r'\(t\.ex\.\s*"', '"', line, re.IGNORECASE)`. -/
def matchTexQuote (s : Str) : Option (Str × Nat) :=
  match eatCI (sl "(t.ex.") s with
  | none => none
  | some r =>
    let sp := r.takeWhile isSpaceC
    match r.dropWhile isSpaceC with
    | '"' :: _ => some (sl "\"", 6 + sp.length + 1)
    | _ => none

/-- `re.sub(r'\)$', '', line)`. -/
def subCloseParenEnd (s : Str) : Str :=
  if endsWithL (sl ")") s then s.take (s.length - 1) else s

/-- `re.match(r'^ordet\s+anv\w*\b', next_line, re.IGNORECASE)`: the
trailing `\w*\b` always succeeds after `anv`, so the test reduces to
the prefix `ordet`, whitespace, `anv`. -/
def matchOrdetAnv (s : Str) : Bool :=
  match eatCI (sl "ordet") s with
  | none => false
  | some r =>
    decide ((r.takeWhile isSpaceC) ≠ []) &&
      (eatCI (sl "anv") (r.dropWhile isSpaceC)).isSome



/-- The `t.ex.` / quote-lookahead branches of the
`_process_content_outside_spans` loop (everything after the
definition-with-attached-quote branch): the emitted pieces and the
number of lookahead lines consumed. -/
def pcosStepTex (ctx : ItalicCtx) (isMain : Bool) (line : Str) (rest : List Str) :
    List Str × Nat :=
  if containsSub (sl "(t.ex. \"") (lowerS line) then
    match scanSplit matchTexParen line [] with
    | (_, p0) :: (_, g1cap) :: restParts =>
      let defPart := trim p0
      let defOut := if defPart ≠ [] then [applyColorStyling ctx defPart false] else []
      let exampleInner := '"' :: g1cap ++ ['"']
      let nextLine := match rest with | nl :: _ => trim nl | [] => []
      if nextLine ≠ [] && isSynonymOrExtra nextLine then
        (defOut ++ [applyColorStyling ctx (exampleInner ++ sl "<br>" ++ nextLine) true], 1)
      else
        let remOut := match restParts with
          | (_, p2) :: _ =>
            let remaining := trim p2
            if remaining ≠ [] then [applyColorStyling ctx remaining true] else []
          | [] => []
        (defOut ++ [applyColorStyling ctx exampleInner true] ++ remOut, 0)
    | _ =>
      match matchM2 line with
      | some (g1, g2) =>
        let defPart := trim g1
        let examplePart := trim g2
        let defOut := if defPart ≠ [] then [applyColorStyling ctx defPart false] else []
        let nextLine := match rest with | nl :: _ => trim nl | [] => []
        if nextLine ≠ [] && isSynonymOrExtra nextLine then
          (defOut ++ [applyColorStyling ctx (examplePart ++ sl "<br>" ++ nextLine) true], 1)
        else
          (defOut ++ [applyColorStyling ctx examplePart true], 0)
      | none =>
        let line2 := subCloseParenEnd (scanSub matchTexQuote line)
        ([processLine ctx line2 isMain], 0)
  else if startsWithCI (sl "t.ex. ") line && startsWithL (sl "\"") (line.drop 6) then
    ([applyColorStyling ctx (trim (line.drop 6)) true], 0)
  else if startsWithL (sl "t.ex. ") line && startsWithL (sl "\"") (line.drop 6) then
    ([applyColorStyling ctx (trim (line.drop 6)) true], 0)
  else if startsWithL (sl "\"") line then
    let nextLine := match rest with | nl :: _ => trim nl | [] => []
    if nextLine ≠ [] && matchOrdetAnv nextLine then
      ([applyColorStyling ctx
          (removeWrappingParens line ++ sl "<br>" ++ nextLine) true], 1)
    else ([processLine ctx line isMain], 0)
  else ([processLine ctx line isMain], 0)

/-- One step of the `_process_content_outside_spans` loop on a
non-empty stripped line: the emitted pieces and the number of lookahead
lines consumed. -/
def pcosStep (ctx : ItalicCtx) (isMain : Bool) (line : Str) (rest : List Str) :
    List Str × Nat :=
  match matchDefQuote line with
  | some (g1, g2) =>
    let defPart := trimR g1
    let exStart := trim g2
    if defPart ≠ [] && headIsQuote exStart then
      let (extra, n) := collectQuoteLines rest
      let examples0 := trim (List.intercalate (sl "<br>") (exStart :: extra))
      let examples1 :=
        if startsWithL (sl "(") examples0 then trimL (examples0.drop 1) else examples0
      let examples2 :=
        if endsWithL (sl ")") (trimR examples1) then
          trimR ((trimR examples1).take ((trimR examples1).length - 1))
        else examples1
      ([applyColorStyling ctx defPart false,
        applyColorStyling ctx (normalizeQuotedExampleLines examples2) true], n)
    else pcosStepTex ctx isMain line rest
  | none => pcosStepTex ctx isMain line rest

/-- Worker of `_process_content_outside_spans`: walk the
`<br>`-separated lines. -/
def pcosGoF (ctx : ItalicCtx) (isMain : Bool) : Nat → List Str → List Str
  | _, [] => []
  | 0, _ => []
  | Nat.succ f, l0 :: rest =>
    let line := trim l0
    if line = [] then line :: pcosGoF ctx isMain f rest
    else
      match pcosStep ctx isMain line rest with
      | (outs, n) => outs ++ pcosGoF ctx isMain f (rest.drop n)

/-- Worker entry (fuelled: one unit per consumed line). -/
def pcosGo (ctx : ItalicCtx) (isMain : Bool) (lines : List Str) : List Str :=
  pcosGoF ctx isMain lines.length lines

/-- `CardCleaner._process_content_outside_spans`. -/
def processContentOutsideSpans (ctx : ItalicCtx) (content : Str) (isMain : Bool) : Str :=
  List.intercalate (sl "<br>") (pcosGo ctx isMain (splitOnSub (sl "<br>") content))

/-! ### Definition cleaning (`CardCleaner._clean_definition`) and the
card transform (`CardCleaner.clean_card`) -/

/-- Matcher for the substitution
`(<span\b[^>]*>)\s*t\.ex\.\s*("([^"]*)")\s*</span>` → `\1\2</span>`
(`re.IGNORECASE`): drop a `t.ex.` marker that sits alone with a quoted
sentence inside a span. -/
def matchTexInSpan (s : Str) : Option (Str × Nat) :=
  match eatCI (sl "<span") s with
  | none => none
  | some [] => none
  | some (c0 :: r) =>
    if isWordC c0 then none
    else
      let b := (c0 :: r).takeWhile (fun c => c ≠ '>')
      match (c0 :: r).dropWhile (fun c => c ≠ '>') with
      | '>' :: r2 =>
        let openTag := s.take (5 + b.length + 1)
        let sp1 := r2.takeWhile isSpaceC
        match eatCI (sl "t.ex.") (r2.dropWhile isSpaceC) with
        | none => none
        | some r3 =>
          let sp2 := r3.takeWhile isSpaceC
          match r3.dropWhile isSpaceC with
          | '"' :: r4 =>
            let q := r4.takeWhile (fun c => c ≠ '"')
            match r4.dropWhile (fun c => c ≠ '"') with
            | '"' :: r5 =>
              let sp3 := r5.takeWhile isSpaceC
              match eatCI (sl "</span>") (r5.dropWhile isSpaceC) with
              | some _ =>
                some (openTag ++ '"' :: q ++ sl "\"</span>",
                  5 + b.length + 1 + sp1.length + 5 + sp2.length
                    + 1 + q.length + 1 + sp3.length + 7)
              | none => none
            | _ => none
          | _ => none
      | _ => none

/-- Case-insensitive search: index of the leftmost occurrence of `pat`
in `s`. -/
def findCISub (pat : Str) : Str → Option Nat
  | [] => if pat = [] then some 0 else none
  | c :: cs =>
    if (eatCI pat (c :: cs)).isSome then some 0
    else (findCISub pat cs).map (fun n => n + 1)

/-- Matcher for the split pattern `(<span\b[^>]*>.*?</span>)`
(`re.IGNORECASE | re.DOTALL`): a span open tag and the lazily closest
close tag, captured whole. -/
def matchSpanToken (s : Str) : Option (Option Str × Str) :=
  match eatCI (sl "<span") s with
  | none => none
  | some [] => none
  | some (c0 :: r) =>
    if isWordC c0 then none
    else
      let b := (c0 :: r).takeWhile (fun c => c ≠ '>')
      match (c0 :: r).dropWhile (fun c => c ≠ '>') with
      | '>' :: r2 =>
        match findCISub (sl "</span>") r2 with
        | some i =>
          let k := 5 + b.length + 1 + i + 7
          some (some (s.take k), s.drop k)
        | none => none
      | _ => none

/-- Dropping a while-prefix never lengthens a list. -/
theorem dropWhile_length_le (p : Char → Bool) (l : Str) :
    (l.dropWhile p).length ≤ l.length := by
  induction l with
  | nil => simp
  | cons c cs ih =>
    simp only [List.dropWhile]
    split
    · exact le_trans ih (by simp)
    · simp

/-- Matcher for `re.sub(r'(?:<br>)+', '', prefix)`: the length of a
maximal run of `<br>` markers. -/
def brRunLenF : Nat → Str → Nat
  | 0, _ => 0
  | Nat.succ f, s =>
    match eatL (sl "<br>") s with
    | some r => 4 + brRunLenF f r
    | none => 0

/-- Fuelled entry of the `<br>`-run measurement. -/
def brRunLen (s : Str) : Nat := brRunLenF s.length s

/-- Matcher form of `brRunLen` for `scanSub`. -/
def matchBrRun (s : Str) : Option (Str × Nat) :=
  match brRunLen s with
  | 0 => none
  | n => some ([], n)

/-- Worker of `_clean_definition`: walk the span/non-span tokens with
the accumulated output (used for the split-permission test). -/
def cdGo (ctx : ItalicCtx) (isMain : Bool) : List (Bool × Str) → Str → Str
  | [], acc => acc
  | (isSpan, token) :: rest, acc =>
    if token = [] then cdGo ctx isMain rest acc
    else if isSpan then
      let s1 := normalizeGraySpanStyles token
      let s2 :=
        match graySpanOpenTag s1 with
        | some openTag =>
          if endsWithL (sl "</span>") s1 then
            let inner := (s1.drop openTag.length).take
              (s1.length - openTag.length - 7)
            openTag ++ italicizeCurrentTerms ctx (normalizeQuotedExampleLines inner)
              ++ sl "</span>"
          else s1
        | none => s1
      let prefixText := trim (scanSub matchBrRun acc)
      let s3 := maybeSplitGraySpan s2 (prefixText ≠ [])
      cdGo ctx isMain rest (acc ++ s3)
    else cdGo ctx isMain rest (acc ++ processContentOutsideSpans ctx token isMain)

/-- `CardCleaner._clean_definition`. -/
def cleanDefinition (ctx : ItalicCtx) (definition : Str) (isMain : Bool) : Str :=
  let d1 := normalizeGraySpanStyles definition
  let d2 := scanSub matchTexInSpan d1
  let d3 := normalizeGraySpanStyles d2
  cdGo ctx isMain (scanSplit matchSpanToken d3 []) []

/-- The text of a decimal number, as Python's `f"{i}"`. -/
def natStr (n : Nat) : Str := sl (toString n)

/-- Step 1 of `clean_card` on one field: entity decoding, then
replacing non-breaking spaces and soft hyphens by plain spaces. -/
def normalizeField (s : Str) : Str :=
  replaceChar (Char.ofNat 0xAD) ' ' (replaceChar (Char.ofNat 0xA0) ' ' (unescape s))

/-- `CardCleaner.clean_card`: the public transform over one card. -/
def cleanCard (front back : Str) : Str × Str × Bool :=
  let back1 := normalizeField back
  let front1 := normalizeField front
  let ctx := setItalicTermsFromFront front1
  let definitions := extractDefinitions back1
  let defCount := definitions.length
  let cleaned := definitions.enum.map
    (fun p => cleanDefinition ctx p.2 (p.1 = 0))
  let back2 :=
    if 1 < defCount then
      List.intercalate (sl "<br><br>")
        (cleaned.enum.map (fun p => natStr (p.1 + 1) ++ sl ". " ++ p.2))
    else
      match cleaned with
      | c :: _ => c
      | [] => back1
  let front2 :=
    if 1 < defCount then
      stripCountAtEnd front1 ++ sl " (" ++ natStr defCount ++ sl ")"
    else front1
  (front2, back2, decide (front2 ≠ front) || decide (back2 ≠ back))

/-! ### The repeated-quoted-word heuristic
(`CardCleaner._italicize_repeated_quoted_word`) -/

/-- `re.findall(r'"([^"]+)"', text)`: the captured contents of the
non-overlapping quoted runs. -/
def findQuotedF : Nat → Str → List Str
  | _, [] => []
  | 0, _ => []
  | Nat.succ f, '"' :: r =>
    match r.takeWhile (fun c => c ≠ '"') with
    | [] => findQuotedF f r
    | inner =>
      match r.dropWhile (fun c => c ≠ '"') with
      | '"' :: r2 => inner :: findQuotedF f r2
      | _ => []
  | Nat.succ f, _ :: r => findQuotedF f r

/-- Fuelled entry of the quotation finder. -/
def findQuoted (s : Str) : List Str := findQuotedF s.length s

/-- The letter class `[A-Za-zÀ-ÖØ-öø-ÿ]` of the word pattern in
`_italicize_repeated_quoted_word`. -/
def isWordLetter (c : Char) : Bool :=
  ('a' ≤ c && c ≤ 'z') || ('A' ≤ c && c ≤ 'Z')
    || (0xC0 ≤ c.toNat && c.toNat ≤ 0xD6)
    || (0xD8 ≤ c.toNat && c.toNat ≤ 0xF6)
    || (0xF8 ≤ c.toNat && c.toNat ≤ 0xFF)

/-- `re.findall` of the word pattern: the maximal letter runs. -/
def findWordRunsF : Nat → Str → List Str
  | _, [] => []
  | 0, _ => []
  | Nat.succ f, c :: cs =>
    if isWordLetter c then
      ((c :: cs).takeWhile isWordLetter)
        :: findWordRunsF f ((c :: cs).dropWhile isWordLetter)
    else findWordRunsF f cs

/-- Fuelled entry of the letter-run finder. -/
def findWordRuns (s : Str) : List Str := findWordRunsF s.length s

/-- Remove every occurrence of a word from a list. -/
def removeAll (w : Str) : List Str → List Str
  | [] => []
  | x :: xs => if x = w then removeAll w xs else x :: removeAll w xs

/-- Removal never lengthens the list. -/
theorem removeAll_length_le (w : Str) (l : List Str) :
    (removeAll w l).length ≤ l.length := by
  induction l with
  | nil => simp [removeAll]
  | cons x xs ih =>
    simp only [removeAll]
    split
    · exact le_trans ih (by simp)
    · simp only [List.length_cons]
      omega

/-- First-occurrence deduplication (the model's fixed iteration order
for the Python set of lowercased words; the repository's claims are
settled on inputs where the order is immaterial). -/
def dedupeF : Nat → List Str → List Str
  | _, [] => []
  | 0, _ => []
  | Nat.succ f, w :: ws => w :: dedupeF f (removeAll w ws)

/-- Fuelled entry of the deduplication. -/
def dedupe (l : List Str) : List Str := dedupeF l.length l

/-- The lowercased word set of one quotation. -/
def quoteWords (q : Str) : List Str :=
  dedupe ((findWordRuns q).map lowerS)

/-- Bump a word's count in an insertion-ordered association list. -/
def bumpCount (w : Str) : List (Str × Nat) → List (Str × Nat)
  | [] => [(w, 1)]
  | (k, n) :: rest => if k = w then (k, n + 1) :: rest else (k, n) :: bumpCount w rest

/-- Worker of `wrap_outside_i` (the variant local to
`_italicize_repeated_quoted_word`): wrap whole-word matches outside
emphasis regions. -/
def wrapOiGo (w : Str) : List (Bool × Str) → Bool → Str
  | [], _ => []
  | (isTag, part) :: rest, inI =>
    if part = [] then wrapOiGo w rest inI
    else if isTag then
      let inI' := if startsWithCI (sl "<i") part then true
        else if startsWithCI (sl "</i") part then false
        else inI
      part ++ wrapOiGo w rest inI'
    else if inI then part ++ wrapOiGo w rest inI
    else resubWrap (.word w false none) part ++ wrapOiGo w rest inI

/-- `wrap_outside_i` of the source: the word pattern
`\b<word>\b` (`re.IGNORECASE`) applied outside `<i>` regions. -/
def wrapOutsideIWord (w : Str) (source : Str) : Str :=
  wrapOiGo w (scanSplit matchITag source []) false

/-- `CardCleaner._italicize_repeated_quoted_word`: italicise the
longest word that appears in at least two distinct quotations. -/
def italicizeRepeatedQuotedWord (text : Str) : Str :=
  let quoted := findQuoted text
  if quoted.length < 2 then text
  else
    let perQuote := quoted.map quoteWords
    let counts := perQuote.foldl (fun acc ws => ws.foldl (fun a w => bumpCount w a) acc) []
    let candidates := (counts.filter
      (fun p => 2 ≤ p.2 && 4 ≤ p.1.length)).map (fun p => p.1)
    if candidates = [] then text
    else
      let maxLen := (candidates.map List.length).foldl max 0
      let cands2 := candidates.filter (fun w => w.length = maxLen)
      cands2.foldl (fun t w => wrapOutsideIWord w t) text

/-! ### Claim-level notions -/

/-- The Markup Normalizer stage as the specification delimits it:
entity decoding and whitespace replacement (`clean_card`, source lines
358–366) followed by the gray-span colour canonicalisation
(`_normalize_gray_span_styles`). -/
def markupNormalize (s : Str) : Str :=
  normalizeGraySpanStyles (normalizeField s)

/-- The nested-emphasis scan of claim C6: walking left to right, an
emphasis open tag `<i>` found while the previous `<i>` has not yet been
closed by `</i>`. -/
def hasNestedIGo : Str → Bool → Bool
  | [], _ => false
  | c :: cs, inI =>
    if startsWithL (sl "<i>") (c :: cs) && inI then true
    else
      let inI' := if startsWithL (sl "<i>") (c :: cs) then true
        else if startsWithL (sl "</i>") (c :: cs) then false
        else inI
      hasNestedIGo cs inI'

/-- Does the text contain an emphasis open tag inside an already-open
emphasis region? -/
def hasNestedI (s : Str) : Bool := hasNestedIGo s false

/-! ### Claim C10 -/

/-- C10: the pair of empty fields is a fixed point of the public
interface — `clean_card("", "")` returns exactly `("", "", false)`. -/
theorem C10_empty_card_fixed_point :
    cleanCard (sl "") (sl "") = (sl "", sl "", false) := by decide

/-! ### Claim C1 -/

/-- C1: the transform is not idempotent.  At `front = "&amp;amp;"`,
`back = ""` the first application yields front `"&amp;"`; feeding that
output back in decodes it further to `"&"` and reports
`changed = true`, contradicting the idempotence property (the entity
decoder of step 1 runs on every application). -/
theorem C1_idempotence_fails_at_double_escaped_entity :
    cleanCard (sl "&amp;amp;") (sl "") = (sl "&amp;", sl "", true) ∧
    cleanCard (sl "&amp;") (sl "") = (sl "&", sl "", true) := by decide

/-! ### Claim C3 -/

/-- C3: the Markup Normalizer is not safe to apply twice.  On
`"&amp;amp;"` the first application yields `"&amp;"` and the second
decodes it again to `"&"`, so re-running the normaliser on its own
output is not a no-op. -/
theorem C3_normalizer_not_idempotent_at_double_escaped_entity :
    markupNormalize (sl "&amp;amp;") = sl "&amp;" ∧
    markupNormalize (markupNormalize (sl "&amp;amp;")) = sl "&" ∧
    markupNormalize (markupNormalize (sl "&amp;amp;"))
      ≠ markupNormalize (sl "&amp;amp;") := by decide

/-! ### Claim C8 -/

/-- C8: the repeated-quoted-word heuristic is never invoked by the
transform.  On a card whose back field repeats the word `stora` in two
distinct quoted examples (and whose front provides no headword
candidate), `clean_card` emits no emphasis markup at all, while the
helper `_italicize_repeated_quoted_word` — defined in the source but
called from nowhere — would wrap both occurrences. -/
theorem C8_repeated_word_heuristic_unreachable :
    cleanCard (sl "") (sl "\"stora hus\"<br>\"stora bilar\"")
      = (sl "",
        sl "<span style=\"color: rgb(194, 194, 194)\">\"stora hus\"</span><br><span style=\"color: rgb(194, 194, 194)\">\"stora bilar\"</span>",
        true) ∧
    containsSub (sl "<i>")
      (cleanCard (sl "") (sl "\"stora hus\"<br>\"stora bilar\"")).2.1 = false ∧
    italicizeRepeatedQuotedWord (sl "\"stora hus\"<br>\"stora bilar\"")
      = sl "\"<i>stora</i> hus\"<br>\"<i>stora</i> bilar\"" := by decide

/-! ### Claim C6, counterexample -/

/-- C6 fails as stated: a back field that already carries nested
emphasis passes through `clean_card` verbatim, so the output contains a
second `<i>` before the previous `<i>` was closed. -/
theorem C6_counterexample_nested_input_passes_through :
    cleanCard (sl "") (sl "<i><i>hej</i></i>")
      = (sl "", sl "<i><i>hej</i></i>", false) ∧
    hasNestedI (cleanCard (sl "") (sl "<i><i>hej</i></i>")).2.1 = true := by decide

/-! ### Claim C2, counterexample -/

/-- C2 fails as stated: a styled span whose colour is the muted-gray
hex value `#c2c2c2` is left completely unchanged — it is not rewritten
into the canonical `color: rgb(194, 194, 194)` declaration — while a
span carrying the non-gray colour `red` is not left untouched. -/
theorem C2_counterexample_gray_normalisation_inverted :
    normalizeGraySpanStyles (sl "<span style=\"color: #c2c2c2\">x</span>")
      = sl "<span style=\"color: #c2c2c2\">x</span>" ∧
    sl "<span style=\"color: #c2c2c2\">x</span>"
      ≠ sl "<span style=\"color: rgb(194, 194, 194)\">x</span>" ∧
    normalizeGraySpanStyles (sl "<span style=\"color: red\">x</span>")
      = sl "<span style=\"color: rgb(194, 194, 194)\">x</span>" := by decide

/-! ### Claim C4 -/

/-- Segment extraction as claim C4 words it: first split on a double
line break immediately preceding a numeric-dot prefix; if that yields
more than one part, those parts with their numbering prefixes stripped
are the segments; otherwise split on the legacy separator (`Or,`
following a line break); if that yields more than one part, those are
the segments; otherwise the entire text is one segment.  Empty parts
produced by either split are dropped, order is preserved.  (The code
strips surrounding whitespace from every part; the claim is silent on
whitespace, so this definition mirrors the stripping.) -/
def specSegments (back : Str) : List Str :=
  let numbered := (scanSplit matchNumBreak back []).map (fun p => p.2)
  if 1 < numbered.length then
    (numbered.map (fun p => stripNumDot (trim p))).filter (fun p => p ≠ [])
  else
    let legacy := (scanSplit matchOrSep back []).map (fun p => p.2)
    if 1 < legacy.length then
      (legacy.map trim).filter (fun p => p ≠ [])
    else [trim back]

/-- The numbered-branch loop is the map-then-drop-empties of the
claim. -/
theorem edNumLoop_eq_filter (ps : List Str) :
    edNumLoop ps = (ps.map (fun p => stripNumDot (trim p))).filter (fun p => p ≠ []) := by
  induction ps with
  | nil => simp [edNumLoop]
  | cons p ps ih =>
    simp only [edNumLoop, List.map, List.filter]
    split
    · simp_all
    · simp_all

/-- The legacy-branch comprehension is the map-then-drop-empties of the
claim. -/
theorem edOrLoop_eq_filter (ps : List Str) :
    edOrLoop ps = (ps.map trim).filter (fun p => p ≠ []) := by
  induction ps with
  | nil => simp [edOrLoop]
  | cons p ps ih =>
    simp only [edOrLoop, List.map, List.filter]
    split
    · simp_all
    · simp_all

/-- C4: `_extract_definitions` realises exactly the segmentation
algorithm of the claim — numbered split first, legacy `Or,` split
second, whole text third, empty parts dropped, order preserved. -/
theorem C4_segment_extraction_follows_spec (back : Str) :
    extractDefinitions back = specSegments back := by
  unfold extractDefinitions specSegments
  simp only [edNumLoop_eq_filter, edOrLoop_eq_filter]

/-! ### Claim C5 -/

/-- A list starts with itself, whatever follows. -/
theorem startsWithL_self_append (p r : Str) : startsWithL p (p ++ r) = true := by
  induction p with
  | nil => simp [startsWithL]
  | cons c cs ih => simp [startsWithL, ih]

/-- A list ends with any suffix appended to it. -/
theorem endsWithL_append (a p : Str) : endsWithL p (a ++ p) = true := by
  unfold endsWithL
  rw [List.reverse_append]
  exact startsWithL_self_append p.reverse a.reverse

/-- C5: when segment extraction yields more than one segment, the front
field returned by `clean_card` is the decoded front with any prior
trailing `(k)` count removed and ` (N)` appended — in particular it
ends with `(N)`; with exactly one segment the front field is returned
by that step untouched (only the decoding of step 1 applies). -/
theorem C5_front_count_suffix (front back : Str) :
    (1 < (extractDefinitions (normalizeField back)).length →
      (cleanCard front back).1
        = stripCountAtEnd (normalizeField front) ++ sl " ("
            ++ natStr (extractDefinitions (normalizeField back)).length ++ sl ")" ∧
      endsWithL
        (sl "(" ++ natStr (extractDefinitions (normalizeField back)).length ++ sl ")")
        (cleanCard front back).1 = true) ∧
    ((extractDefinitions (normalizeField back)).length = 1 →
      (cleanCard front back).1 = normalizeField front) := by
  simp only [cleanCard]
  constructor
  · intro h
    simp only [if_pos h]
    constructor
    · trivial
    · have hs : stripCountAtEnd (normalizeField front) ++ sl " ("
          ++ natStr (extractDefinitions (normalizeField back)).length ++ sl ")"
          = (stripCountAtEnd (normalizeField front) ++ [' '])
            ++ (sl "(" ++ natStr (extractDefinitions (normalizeField back)).length
                ++ sl ")") := by
        simp [sl, List.append_assoc]
      rw [hs]
      exact endsWithL_append _ _
  · intro h
    have h2 : ¬ (1 < (extractDefinitions (normalizeField back)).length) := by omega
    simp only [if_neg h2]

/-- Witness for C5 at concrete cards with two segments and with one. -/
theorem C5_front_count_suffix_witness :
    endsWithL (sl "(2)") (cleanCard (sl "x (3)") (sl "a<br>Or, b")).1 = true ∧
    (cleanCard (sl "y") (sl "plain")).1 = normalizeField (sl "y") := by
  constructor
  · exact ((C5_front_count_suffix (sl "x (3)") (sl "a<br>Or, b")).1 (by decide)).2
  · exact (C5_front_count_suffix (sl "y") (sl "plain")).2 (by decide)

/-! ### Claim C9 -/

/-- C9: `clean_card` is total — it returns a `(front, back, changed)`
triple for every input — and on inputs with an unmatched emphasis or
styled-span open tag it raises nothing: the unmatched tag survives as
plain text (the unclosed `<i>` line and the unclosed span line are kept
as ordinary lines) and the remainder of the field is still processed
(the following quoted line is styled as an example in both cases). -/
theorem C9_total_and_lenient_on_unmatched_tags :
    (∀ front back : Str, ∃ f b ch, cleanCard front back = (f, b, ch)) ∧
    cleanCard (sl "") (sl "<i>abc<br>\"hej\"")
      = (sl "",
        sl "<i>abc<br><span style=\"color: rgb(194, 194, 194)\">\"hej\"</span>",
        true) ∧
    cleanCard (sl "") (sl "<span style=\"color: red\">abc<br>\"hej\"")
      = (sl "",
        sl "<span style=\"color: rgb(194, 194, 194)\">abc<br><span style=\"color: rgb(194, 194, 194)\">\"hej\"</span>",
        true) := by
  refine ⟨fun front back => ⟨_, _, _, rfl⟩, by decide, by decide⟩

/-! ### Partition properties of the split scans -/

/-- Lengths of the takeWhile/dropWhile decomposition. -/
theorem tw_dw_length (p : Char → Bool) (l : Str) :
    (l.takeWhile p).length + (l.dropWhile p).length = l.length := by
  rw [← List.length_append, List.takeWhile_append_dropWhile]

/-- A successful tag match captures exactly the consumed text: the
captured group followed by the remainder reassembles the input, and the
remainder is strictly shorter. -/
def CapturesExactly (m : Str → Option (Option Str × Str)) : Prop :=
  ∀ s g rem, m s = some (g, rem) →
    ∃ gp, g = some gp ∧ gp ++ rem = s ∧ rem.length < s.length

/-- The generic tag matcher captures exactly what it consumes. -/
theorem matchTag_captures : CapturesExactly matchTag := by
  intro s g rem h
  unfold matchTag at h
  split at h
  case h_2 => simp at h
  rename_i r
  split at h
  case h_1 => simp at h
  split at h
  case h_2 => simp at h
  rename_i tail hd
  simp only [Option.some.injEq, Prod.mk.injEq] at h
  obtain ⟨hg, hr⟩ := h
  subst hr
  have hcat := List.takeWhile_append_dropWhile (p := fun c => decide (c ≠ '>')) (l := r)
  rw [hd] at hcat
  have hlen := tw_dw_length (fun c => decide (c ≠ '>')) r
  rw [hd] at hlen
  refine ⟨_, hg.symm, ?_, ?_⟩
  · calc '<' :: (r.takeWhile (fun c => decide (c ≠ '>')) ++ ['>']) ++ tail
        = '<' :: (r.takeWhile (fun c => decide (c ≠ '>')) ++ ('>' :: tail)) := by
          simp [List.append_assoc]
      _ = '<' :: r := by rw [hcat]
  · simp only [List.length_cons] at *
    omega

/-- The italic-tag tail parser captures what it consumes relative to
its prefix. -/
theorem itagFinish_captures (pre r1 : Str) (g : Option Str) (rem : Str)
    (h : itagFinish pre r1 = some (g, rem)) :
    ∃ gp, g = some gp ∧ gp ++ rem = pre ++ r1 ∧ rem.length ≤ r1.length := by
  unfold itagFinish at h
  split at h
  case h_2 => simp at h
  rename_i i r2
  split at h
  case isFalse => simp at h
  split at h
  case isTrue => simp at h
  split at h
  case h_2 => simp at h
  rename_i tail hd
  simp only [Option.some.injEq, Prod.mk.injEq] at h
  obtain ⟨hg, hr⟩ := h
  subst hr
  have hcat := List.takeWhile_append_dropWhile (p := fun c => decide (c ≠ '>')) (l := r2)
  rw [hd] at hcat
  have hlen := tw_dw_length (fun c => decide (c ≠ '>')) r2
  rw [hd] at hlen
  refine ⟨_, hg.symm, ?_, ?_⟩
  · calc pre ++ i :: (r2.takeWhile (fun c => decide (c ≠ '>')) ++ ['>']) ++ tail
        = pre ++ i :: (r2.takeWhile (fun c => decide (c ≠ '>')) ++ ('>' :: tail)) := by
          simp [List.append_assoc]
      _ = pre ++ i :: r2 := by rw [hcat]
  · simp only [List.length_cons] at *
    omega

/-- The italic-tag matcher captures exactly what it consumes. -/
theorem matchITag_captures : CapturesExactly matchITag := by
  intro s g rem h
  unfold matchITag at h
  split at h
  · obtain ⟨gp, hg, hcat, hle⟩ := itagFinish_captures _ _ _ _ h
    refine ⟨gp, hg, by simpa [sl] using hcat, ?_⟩
    rename_i rest
    simp only [List.length_cons]
    omega
  · obtain ⟨gp, hg, hcat, hle⟩ := itagFinish_captures _ _ _ _ h
    refine ⟨gp, hg, by simpa [sl] using hcat, ?_⟩
    rename_i rest hne
    simp only [List.length_cons]
    omega
  · simp at h

/-- Joining the pieces of a split scan (for an exactly-capturing
matcher) reassembles the input. -/
theorem scanSplitF_join (m : Str → Option (Option Str × Str))
    (hm : CapturesExactly m) :
    ∀ f s acc, s.length ≤ f →
      ((scanSplitF m f s acc).map Prod.snd).flatten = acc.reverse ++ s := by
  intro f
  induction f with
  | zero =>
    intro s acc hle
    have hs : s = [] := List.eq_nil_of_length_eq_zero (by omega)
    subst hs
    simp [scanSplitF]
  | succ f ih =>
    intro s acc hle
    match s with
    | [] => simp [scanSplitF]
    | c :: cs =>
      simp only [scanSplitF]
      cases hm' : m (c :: cs) with
      | some pr =>
        obtain ⟨g, rem⟩ := pr
        obtain ⟨gp, hg, hcat, hlen⟩ := hm _ _ _ hm'
        subst hg
        simp only [List.map_cons, List.map_append, List.flatten_cons,
          List.flatten_append, List.map, List.flatten, List.nil_append,
          List.append_nil, List.append_eq]
        rw [ih rem [] (by simp only [List.length_cons] at hle hlen ⊢; omega)]
        simp only [List.reverse_nil, List.nil_append]
        rw [hcat]
      | none =>
        rw [ih cs (c :: acc) (by simp only [List.length_cons] at hle ⊢; omega)]
        simp

/-- Joining the pieces of a completed split reassembles the input. -/
theorem scanSplit_join (m : Str → Option (Option Str × Str))
    (hm : CapturesExactly m) (s : Str) :
    ((scanSplit m s []).map Prod.snd).flatten = s := by
  have := scanSplitF_join m hm s.length s [] le_rfl
  simpa [scanSplit] using this

/-- Every piece of a split draws its characters from the input. -/
theorem scanSplit_piece_subset (m : Str → Option (Option Str × Str))
    (hm : CapturesExactly m) (s : Str) (pr : Bool × Str)
    (hpr : pr ∈ scanSplit m s []) : ∀ c, c ∈ pr.2 → c ∈ s := by
  intro c hc
  have hj := scanSplit_join m hm s
  rw [← hj]
  exact List.mem_flatten.mpr ⟨pr.2, List.mem_map.mpr ⟨pr, hpr, rfl⟩, hc⟩

/-! ### Claim C7 -/

/-- On quote-free text the quote walker applies its function to nothing:
every character is buffered and flushed unchanged. -/
theorem aiq_append (fn : Str → Str) (s : Str) :
    ∀ buf, (∀ c ∈ s, ¬(c = '"' ∨ c = '\'')) →
      applyInsideQuotes fn s none buf = buf ++ s := by
  induction s with
  | nil =>
    intro buf _
    simp [applyInsideQuotes]
  | cons ch rest ih =>
    intro buf h
    have hch : ¬(ch = '"' ∨ ch = '\'') := h ch (by simp)
    simp only [applyInsideQuotes]
    rw [if_neg (by simpa using hch)]
    rw [ih (buf ++ [ch]) (fun c hc => h c (by simp [hc]))]
    simp

/-- On quote-free pieces the quote-restricted wrapper changes nothing:
the walk reassembles the pieces. -/
theorem aoGo_qfree_id (p : TermPat) (pieces : List (Bool × Str))
    (h : ∀ pr ∈ pieces, ∀ c ∈ pr.2, ¬(c = '"' ∨ c = '\'')) :
    ∀ inI, aoGo true p pieces inI = (pieces.map Prod.snd).flatten := by
  induction pieces with
  | nil => intro inI; simp [aoGo]
  | cons pr rest ih =>
    intro inI
    obtain ⟨isTag, sub⟩ := pr
    have hrest : ∀ q ∈ rest, ∀ c ∈ q.2, ¬(c = '"' ∨ c = '\'') :=
      fun q hq => h q (by simp [hq])
    have hsub : ∀ c ∈ sub, ¬(c = '"' ∨ c = '\'') := h (isTag, sub) (by simp)
    simp only [aoGo]
    by_cases hemp : sub = []
    · subst hemp
      simp [ih hrest]
    · rw [if_neg hemp]
      by_cases ht : isTag
      · rw [if_pos ht, ih hrest]
        simp
      · rw [if_neg ht]
        by_cases hin : inI
        · rw [if_pos hin, ih hrest]
          simp
        · rw [if_neg hin, ih hrest]
          simp only [if_true]
          rw [aiq_append (doSub p) sub [] hsub]
          simp

/-- On quote-free text the quote-restricted pass of `apply_outside_i`
is the identity. -/
theorem applyOutsideI_qfree_id (p : TermPat) (s : Str)
    (h : ∀ c ∈ s, ¬(c = '"' ∨ c = '\'')) :
    applyOutsideI true p s = s := by
  unfold applyOutsideI
  rw [aoGo_qfree_id p _ (fun pr hpr c hc =>
    h c (scanSplit_piece_subset matchITag matchITag_captures s pr hpr c hc)) false]
  exact scanSplit_join matchITag matchITag_captures s

/-- The whole term loop leaves quote-free text untouched when every
pass is quote-restricted. -/
theorem termsFold_qfree_id (art : Option Str) (ts : List (Str × Bool)) :
    ∀ tp, (∀ c ∈ tp, ¬(c = '"' ∨ c = '\'')) →
      ts.foldl (fun acc t => if t.1 = [] then acc
        else applyOutsideI true (termPatOf art t.1 t.2) acc) tp = tp := by
  induction ts with
  | nil => intro tp _; simp
  | cons t ts ih =>
    intro tp htp
    simp only [List.foldl_cons]
    by_cases hte : t.1 = []
    · rw [if_pos hte]
      exact ih tp htp
    · rw [if_neg hte, applyOutsideI_qfree_id _ tp htp]
      exact ih tp htp

/-- Under the infinitive article the per-part term loop leaves
quote-free text untouched. -/
theorem applyTermsTo_att_qfree_id (ctx : ItalicCtx) (s : Str)
    (hart : ctx.article = some (sl "att"))
    (h : ∀ c ∈ s, ¬(c = '"' ∨ c = '\'')) :
    applyTermsTo ctx s = s := by
  unfold applyTermsTo
  have hd : (decide (ctx.article = some (sl "att"))) = true := by
    rw [hart]
    simp
  rw [hd]
  exact termsFold_qfree_id ctx.article ctx.terms s h

/-- Quote-free pieces pass through the tag walk unchanged under the
infinitive article. -/
theorem itGo_qfree_id (ctx : ItalicCtx) (pieces : List (Bool × Str))
    (hart : ctx.article = some (sl "att"))
    (h : ∀ pr ∈ pieces, ∀ c ∈ pr.2, ¬(c = '"' ∨ c = '\'')) :
    ∀ inI, itGo ctx pieces inI = (pieces.map Prod.snd).flatten := by
  induction pieces with
  | nil => intro inI; simp [itGo]
  | cons pr rest ih =>
    intro inI
    obtain ⟨isTag, part⟩ := pr
    have hrest : ∀ q ∈ rest, ∀ c ∈ q.2, ¬(c = '"' ∨ c = '\'') :=
      fun q hq => h q (by simp [hq])
    have hpart : ∀ c ∈ part, ¬(c = '"' ∨ c = '\'') := h (isTag, part) (by simp)
    simp only [itGo]
    by_cases hemp : part = []
    · subst hemp
      simp [ih hrest]
    · rw [if_neg hemp]
      by_cases ht : isTag
      · rw [if_pos ht, ih hrest]
        simp
      · rw [if_neg ht]
        by_cases hin : inI
        · rw [if_pos hin, ih hrest]
          simp
        · rw [if_neg hin, ih hrest, applyTermsTo_att_qfree_id ctx part hart hpart]
          simp

/-- Under the infinitive article the italiciser leaves quote-free text
untouched. -/
theorem italicize_att_qfree_id (ctx : ItalicCtx) (s : Str)
    (hart : ctx.article = some (sl "att"))
    (h : ∀ c ∈ s, ¬(c = '"' ∨ c = '\'')) :
    italicizeCurrentTerms ctx s = s := by
  unfold italicizeCurrentTerms
  split
  · rfl
  · rw [itGo_qfree_id ctx _ hart (fun pr hpr c hc =>
      h c (scanSplit_piece_subset matchTag matchTag_captures s pr hpr c hc)) false]
    exact scanSplit_join matchTag matchTag_captures s

/-- C7: definition-role lines are never touched by the styling step
(`_apply_color_styling` returns non-gray lines verbatim, so no
emphasis is ever added to them), and with an infinitive-marked headword
(`att`) the italiciser is restricted to quoted spans: text containing
no quotation character at all comes back verbatim. -/
theorem C7_definition_lines_never_italicized (ctx : ItalicCtx) (line s : Str)
    (hart : ctx.article = some (sl "att"))
    (hq : ∀ c ∈ s, ¬(c = '"' ∨ c = '\'')) :
    applyColorStyling ctx line false = line ∧ italicizeCurrentTerms ctx s = s :=
  ⟨rfl, italicize_att_qfree_id ctx s hart hq⟩

/-- Witness for C7: the verb card `att springa` neither italicises the
definition line nor the unquoted inflection `springer`. -/
theorem C7_definition_lines_never_italicized_witness :
    applyColorStyling (setItalicTermsFromFront (sl "att springa"))
      (sl "to run fast") false = sl "to run fast" ∧
    italicizeCurrentTerms (setItalicTermsFromFront (sl "att springa"))
      (sl "han springer fort") = sl "han springer fort" :=
  C7_definition_lines_never_italicized
    (setItalicTermsFromFront (sl "att springa"))
    (sl "to run fast") (sl "han springer fort") (by decide) (by decide)

/-! ### Claim C2, amended -/

/-- takeWhile of "not q" over a q-free prefix takes the whole prefix. -/
theorem tw_noq (q : Char) (S R : Str) (hq : (q ∈ S) → False) :
    (S ++ q :: R).takeWhile (fun x => x ≠ q) = S := by
  induction S with
  | nil => simp
  | cons c cs ih =>
    have hc : c ≠ q := fun hcq => hq (by simp [hcq])
    simp only [List.cons_append, List.takeWhile_cons]
    rw [if_pos (by simpa using hc)]
    rw [ih (fun hm => hq (by simp [hm]))]

/-- dropWhile of "not q" over a q-free prefix drops exactly it. -/
theorem dw_noq (q : Char) (S R : Str) (hq : (q ∈ S) → False) :
    (S ++ q :: R).dropWhile (fun x => x ≠ q) = q :: R := by
  induction S with
  | nil => simp
  | cons c cs ih =>
    have hc : c ≠ q := fun hcq => hq (by simp [hcq])
    simp only [List.cons_append, List.dropWhile_cons]
    rw [if_pos (by simpa using hc)]
    exact ih (fun hm => hq (by simp [hm]))

/-- The style-attribute parser on the canonical double-quoted attribute
shape. -/
theorem parseStyleTail_canonical (S R : Str) (hq : ('"' ∈ S) → False) :
    parseStyleTail '"'
      ('s' :: 't' :: 'y' :: 'l' :: 'e' :: '=' :: '"' :: (S ++ '"' :: '>' :: R))
      = some (S, [], S.length + 9) := by
  have htw := tw_noq '"' S ('>' :: R) hq
  have hdw := dw_noq '"' S ('>' :: R) hq
  simp only [parseStyleTail, eatCI, ciEq]
  simp only [decide_True, if_true, eq_self_iff_true]
  simp only [htw, hdw]
  norm_num
  omega

/-- The lazy group search on the canonical span shape finds the split
after the single space. -/
theorem g1go_canonical (S R : Str) (hq : ('"' ∈ S) → False) :
    g1go '"'
      (' ' :: 's' :: 't' :: 'y' :: 'l' :: 'e' :: '=' :: '"' :: (S ++ '"' :: '>' :: R)) 0
      = some (S, [], 1, S.length + 9) := by
  rw [show g1go '"'
      (' ' :: 's' :: 't' :: 'y' :: 'l' :: 'e' :: '=' :: '"' :: (S ++ '"' :: '>' :: R)) 0
      = (match parseStyleTail '"'
           ('s' :: 't' :: 'y' :: 'l' :: 'e' :: '=' :: '"' :: (S ++ '"' :: '>' :: R)) with
         | some (v, a, t) => some (v, a, 1, t)
         | none => g1go '"'
             ('s' :: 't' :: 'y' :: 'l' :: 'e' :: '=' :: '"' :: (S ++ '"' :: '>' :: R)) 1)
      from rfl]
  rw [parseStyleTail_canonical S R hq]

/-- The span-style matcher on the canonical span shape rewrites the
attribute through `normalize_style` and consumes the whole tag. -/
theorem matchSpanStyle_canonical (S R : Str) (hq : ('"' ∈ S) → False) :
    matchSpanStyle '"'
      ('<' :: 's' :: 'p' :: 'a' :: 'n' :: ' ' :: 's' :: 't' :: 'y' :: 'l' :: 'e'
        :: '=' :: '"' :: (S ++ '"' :: '>' :: R))
      = some (sl "<span style=\"" ++ normalizeStyle S ++ sl "\">", S.length + 15) := by
  rw [show matchSpanStyle '"'
      ('<' :: 's' :: 'p' :: 'a' :: 'n' :: ' ' :: 's' :: 't' :: 'y' :: 'l' :: 'e'
        :: '=' :: '"' :: (S ++ '"' :: '>' :: R))
      = (match g1go '"'
           (' ' :: 's' :: 't' :: 'y' :: 'l' :: 'e' :: '=' :: '"' :: (S ++ '"' :: '>' :: R)) 0 with
         | some (v, a, k1, t) =>
           some (sl "<span"
               ++ (' ' :: 's' :: 't' :: 'y' :: 'l' :: 'e' :: '=' :: '"'
                    :: (S ++ '"' :: '>' :: R)).take k1
               ++ sl "style=" ++ ['"'] ++ normalizeStyle v ++ ['"'] ++ a ++ sl ">",
             5 + k1 + t)
         | none => none)
      from rfl]
  rw [g1go_canonical S R hq]
  simp only [Option.some.injEq, Prod.mk.injEq]
  constructor
  · simp [sl]
  · omega

/-- `scanSubF` with no input left. -/
theorem scanSubF_nil (m : Str → Option (Str × Nat)) (f : Nat) :
    scanSubF m f [] = [] := by
  cases f <;> rfl

/-- One step of `scanSubF` at a matching position. -/
theorem scanSubF_step_some (m : Str → Option (Str × Nat)) (f : Nat) (c : Char)
    (cs o : Str) (k : Nat) (h : m (c :: cs) = some (o, k)) :
    scanSubF m (Nat.succ f) (c :: cs) = o ++ scanSubF m f (cs.drop (k - 1)) := by
  rw [show scanSubF m (Nat.succ f) (c :: cs)
      = (match m (c :: cs) with
         | some (o, k) => o ++ scanSubF m f (cs.drop (k - 1))
         | none => c :: scanSubF m f cs) from rfl, h]

/-- A substitution scan is the identity when the matcher fails at every
position. -/
theorem scanSubF_id (m : Str → Option (Str × Nat)) :
    ∀ (s : Str) (f : Nat), s.length ≤ f →
      (∀ n, m (s.drop n) = none) → scanSubF m f s = s := by
  intro s
  induction s with
  | nil => intro f _ _; exact scanSubF_nil m f
  | cons c cs ih =>
    intro f hf hm
    cases f with
    | zero => simp at hf
    | succ f =>
      rw [show scanSubF m (Nat.succ f) (c :: cs)
          = (match m (c :: cs) with
             | some (o, k) => o ++ scanSubF m f (cs.drop (k - 1))
             | none => c :: scanSubF m f cs) from rfl]
      rw [show m (c :: cs) = none from hm 0]
      rw [ih f (by simp at hf; omega) (fun n => hm (n + 1))]

/-- `re.sub` is the identity when the pattern matches nowhere. -/
theorem scanSub_id (m : Str → Option (Str × Nat)) (s : Str)
    (hm : ∀ n, m (s.drop n) = none) : scanSub m s = s :=
  scanSubF_id m s s.length le_rfl hm

/-- What `eatCI` returns is drawn from the input. -/
theorem eatCI_mem (pat : Str) :
    ∀ (s r : Str), eatCI pat s = some r → ∀ c ∈ r, c ∈ s := by
  induction pat with
  | nil =>
    intro s r h c hc
    simp only [eatCI, Option.some.injEq] at h
    exact h ▸ hc
  | cons p ps ih =>
    intro s r h c hc
    cases s with
    | nil => simp [eatCI] at h
    | cons a as =>
      simp only [eatCI] at h
      split at h
      · exact List.mem_cons_of_mem a (ih as r h c hc)
      · exact absurd h (by simp)

/-- A successful `style=q...q...>` parse means the quote occurs in the
input. -/
theorem parseStyleTail_some_mem (q : Char) (s v a : Str) (t : Nat)
    (h : parseStyleTail q s = some (v, a, t)) : q ∈ s := by
  unfold parseStyleTail at h
  split at h
  · exact absurd h (by simp)
  · rename_i r2 heq
    split at h
    · rename_i c r3
      split at h
      · rename_i hc
        exact eatCI_mem (sl "style") s _ heq q (by simp [hc])
      · exact absurd h (by simp)
    · exact absurd h (by simp)
  · exact absurd h (by simp)

/-- The lazy group search fails when the quote character is absent. -/
theorem g1go_none_of_noq (q : Char) :
    ∀ (s : Str) (k : Nat), ((q ∈ s) → False) → g1go q s k = none := by
  intro s
  induction s with
  | nil => intro k _; rfl
  | cons c cs ih =>
    intro k hq
    have hcs : (q ∈ cs) → False := fun hm => hq (List.mem_cons_of_mem c hm)
    have hpst : parseStyleTail q cs = none := by
      cases hp : parseStyleTail q cs with
      | none => rfl
      | some x =>
        obtain ⟨v, a, t⟩ := x
        exact absurd (parseStyleTail_some_mem q cs v a t hp) hcs
    rw [show g1go q (c :: cs) k
        = (if c = '>' then none
           else if !isWordC c then
             match parseStyleTail q cs with
             | some (v, a, t) => some (v, a, k + 1, t)
             | none => g1go q cs (k + 1)
           else g1go q cs (k + 1)) from rfl]
    rw [hpst, ih (k + 1) hcs]
    simp

/-- The span-style matcher fails when the quote character is absent. -/
theorem matchSpanStyle_none_of_noq (q : Char) (s : Str)
    (hq : (q ∈ s) → False) : matchSpanStyle q s = none := by
  unfold matchSpanStyle
  cases he : eatCI (sl "<span") s with
  | none => rfl
  | some r =>
    cases r with
    | nil => rfl
    | cons c0 r1 =>
      have hq1 : (q ∈ c0 :: r1) → False :=
        fun hm => hq (eatCI_mem (sl "<span") s (c0 :: r1) he q hm)
      simp [g1go_none_of_noq q (c0 :: r1) 0 hq1]

/-- Characters of a substitution scan come from the input or from some
replacement text. -/
theorem scanSubF_mem (m : Str → Option (Str × Nat)) (P : Char → Prop)
    (hrep : ∀ t o k, m t = some (o, k) → ∀ c ∈ o, P c) :
    ∀ (f : Nat) (s : Str), (∀ c ∈ s, P c) → ∀ c ∈ scanSubF m f s, P c := by
  intro f
  induction f with
  | zero =>
    intro s hs c hc
    cases s with
    | nil => simp [scanSubF_nil] at hc
    | cons a as => exact absurd hc (by intro h; exact absurd h (by simp [scanSubF]))
  | succ f ih =>
    intro s hs c hc
    cases s with
    | nil => simp [scanSubF_nil] at hc
    | cons a as =>
      cases hm : m (a :: as) with
      | some ok =>
        obtain ⟨o, k⟩ := ok
        rw [scanSubF_step_some m f a as o k hm] at hc
        rcases List.mem_append.mp hc with h | h
        · exact hrep (a :: as) o k hm c h
        · exact ih (as.drop (k - 1))
            (fun x hx => hs x (List.mem_cons_of_mem a (List.mem_of_mem_drop hx))) c h
      | none =>
        rw [show scanSubF m (Nat.succ f) (a :: as)
            = (match m (a :: as) with
               | some (o, k) => o ++ scanSubF m f (as.drop (k - 1))
               | none => a :: scanSubF m f as) from rfl, hm] at hc
        rcases List.mem_cons.mp hc with h | h
        · exact hs c (h ▸ List.mem_cons_self a as)
        · exact ih as (fun x hx => hs x (List.mem_cons_of_mem a hx)) c h

/-- `trim` keeps only characters of its input. -/
theorem trim_subset (s : Str) (c : Char) (hc : c ∈ trim s) : c ∈ s := by
  unfold trim trimR trimL at hc
  rw [List.mem_reverse] at hc
  have h1 := (List.dropWhile_sublist (l := (s.dropWhile fun c => isSpaceC c).reverse)
      (p := fun c => isSpaceC c)).subset hc
  rw [List.mem_reverse] at h1
  exact (List.dropWhile_sublist (l := s) (p := fun c => isSpaceC c)).subset h1

/-- `strip(' ;')` keeps only characters of its input. -/
theorem stripSpaceSemi_subset (s : Str) (c : Char) (hc : c ∈ stripSpaceSemi s) :
    c ∈ s := by
  unfold stripSpaceSemi at hc
  rw [List.mem_reverse] at hc
  have h1 := (List.dropWhile_sublist
      (l := (s.dropWhile fun c => c = ' ' || c = ';').reverse)
      (p := fun c => c = ' ' || c = ';')).subset hc
  rw [List.mem_reverse] at h1
  exact (List.dropWhile_sublist (l := s)
      (p := fun c => c = ' ' || c = ';')).subset h1

/-- A colour-declaration match replaces with the empty string. -/
theorem matchColorDecl_out (t o : Str) (k : Nat)
    (h : matchColorDecl t = some (o, k)) : o = [] := by
  unfold matchColorDecl at h
  split at h
  · exact absurd h (by simp)
  · rename_i r1 heq1
    split at h
    · rename_i r0 r2 heq2
      have h2 : (match List.takeWhile (fun c => decide (c ≠ ';'))
            (List.dropWhile isSpaceC r2) with
          | [] => none
          | v => some (([] : Str), 5 + (List.takeWhile isSpaceC r1).length + 1
              + (List.takeWhile isSpaceC r2).length + v.length
              + semiCount (List.dropWhile (fun c => decide (c ≠ ';'))
                  (List.dropWhile isSpaceC r2)))) = some (o, k) := h
      split at h2
      · exact absurd h2 (by simp)
      · simp only [Option.some.injEq, Prod.mk.injEq] at h2
        exact h2.1.symm
    · exact absurd h (by simp)

/-- A doubled-semicolon match replaces with a lone semicolon. -/
theorem matchSemiSemi_out (t o : Str) (k : Nat)
    (h : matchSemiSemi t = some (o, k)) : o = sl ";" := by
  unfold matchSemiSemi at h
  split at h
  · split at h
    · simp only [Option.some.injEq, Prod.mk.injEq] at h
      exact h.1.symm
    · exact absurd h (by simp)
  · exact absurd h (by simp)

/-- `normalize_style` introduces no single quote. -/
theorem normalizeStyle_noSq (S : Str) (hsq : ('\'' ∈ S) → False) :
    ('\'' ∈ normalizeStyle S) → False := by
  intro hm
  unfold normalizeStyle at hm
  cases hsv : searchColorValue S with
  | none => rw [hsv] at hm; exact hsq hm
  | some v =>
    simp only [hsv] at hm
    by_cases hg : isGrayValue v = true
    · rw [if_pos hg] at hm; exact hsq hm
    · rw [if_neg hg] at hm
      have hwc0 : ∀ c ∈ trim (scanSub matchColorDecl S), (c = '\'') → False := by
        intro c hc hcq
        refine hsq ?_
        have h1 := trim_subset _ c hc
        have h2 := scanSubF_mem matchColorDecl (fun x => (x = '\'') → False)
          (by
            intro t o k hmk x hx
            rw [matchColorDecl_out t o k hmk] at hx
            simp at hx)
          S.length S (fun x hx hxq => hsq (hxq ▸ hx)) c h1
        exact absurd hcq h2
      have hwc1 : ∀ c ∈ stripSpaceSemi (scanSub matchSemiSemi
          (trim (scanSub matchColorDecl S))), (c = '\'') → False := by
        intro c hc hcq
        have h1 := stripSpaceSemi_subset _ c hc
        have h2 := scanSubF_mem matchSemiSemi (fun x => (x = '\'') → False)
          (by
            intro t o k hmk x hx
            rw [matchSemiSemi_out t o k hmk] at hx
            intro hxq
            rw [hxq] at hx
            simp [sl] at hx)
          (trim (scanSub matchColorDecl S)).length _ hwc0 c h1
        exact absurd hcq h2
      have hm2 : '\'' ∈ (if stripSpaceSemi (scanSub matchSemiSemi
          (trim (scanSub matchColorDecl S))) ≠ [] then
            sl "color: rgb(194, 194, 194); " ++ stripSpaceSemi (scanSub matchSemiSemi
              (trim (scanSub matchColorDecl S)))
          else sl "color: rgb(194, 194, 194)") := hm
      split at hm2
      · rcases List.mem_append.mp hm2 with h | h
        · simp [sl] at h
        · exact hwc1 '\'' h rfl
      · simp [sl] at hm2

/-- `normalize_style` with no colour declaration: unchanged. -/
theorem normalizeStyle_no_color (S : Str) (h : searchColorValue S = none) :
    normalizeStyle S = S := by
  unfold normalizeStyle
  rw [h]

/-- `normalize_style` on an already-gray colour value: unchanged. -/
theorem normalizeStyle_gray (S v : Str) (h : searchColorValue S = some v)
    (hg : isGrayValue v = true) : normalizeStyle S = S := by
  unfold normalizeStyle
  simp only [h]
  rw [if_pos hg]

/-- `normalize_style` on a non-gray colour value: headed by the
canonical gray declaration. -/
theorem normalizeStyle_nongray (S v : Str) (h : searchColorValue S = some v)
    (hg : isGrayValue v = false) :
    startsWithL (sl "color: rgb(194, 194, 194)") (normalizeStyle S) = true := by
  unfold normalizeStyle
  simp only [h]
  rw [if_neg (by simp [hg])]
  show startsWithL (sl "color: rgb(194, 194, 194)")
    (if stripSpaceSemi (scanSub matchSemiSemi (trim (scanSub matchColorDecl S))) ≠ []
     then sl "color: rgb(194, 194, 194); " ++ stripSpaceSemi (scanSub matchSemiSemi
       (trim (scanSub matchColorDecl S)))
     else sl "color: rgb(194, 194, 194)") = true
  split
  · rw [show sl "color: rgb(194, 194, 194); "
        = sl "color: rgb(194, 194, 194)" ++ sl "; " from rfl, List.append_assoc]
    exact startsWithL_self_append _ _
  · decide

/-- The double-quote pass rewrites the one canonical span of the text
through `normalize_style`. -/
theorem pass1_eq (S : Str) (hdq : ('"' ∈ S) → False) :
    scanSub (matchSpanStyle '"') (sl "<span style=\"" ++ S ++ sl "\">")
      = sl "<span style=\"" ++ normalizeStyle S ++ sl "\">" := by
  have hshape : sl "<span style=\"" ++ S ++ sl "\">"
      = '<' :: 's' :: 'p' :: 'a' :: 'n' :: ' ' :: 's' :: 't' :: 'y' :: 'l' :: 'e'
        :: '=' :: '"' :: (S ++ '"' :: '>' :: []) := rfl
  rw [hshape]
  unfold scanSub
  have hlen : ('<' :: 's' :: 'p' :: 'a' :: 'n' :: ' ' :: 's' :: 't' :: 'y' :: 'l'
      :: 'e' :: '=' :: '"' :: (S ++ '"' :: '>' :: ([] : Str))).length
      = Nat.succ (S.length + 14) := by
    simp [List.length_append]
  rw [hlen]
  rw [scanSubF_step_some (matchSpanStyle '"') (S.length + 14) '<' _ _ _
    (matchSpanStyle_canonical S [] hdq)]
  have hdrop : ('s' :: 'p' :: 'a' :: 'n' :: ' ' :: 's' :: 't' :: 'y' :: 'l'
      :: 'e' :: '=' :: '"' :: (S ++ '"' :: '>' :: ([] : Str))).drop
        (S.length + 15 - 1) = [] := by
    apply List.drop_eq_nil_of_le
    simp [List.length_append]
  rw [hdrop, scanSubF_nil, List.append_nil]

/-- The rewritten span contains no single quote. -/
theorem out1_noSq (S : Str) (hsq : ('\'' ∈ S) → False) :
    ('\'' ∈ sl "<span style=\"" ++ normalizeStyle S ++ sl "\">") → False := by
  intro hm
  rcases List.mem_append.mp hm with h | h
  · rcases List.mem_append.mp h with h1 | h1
    · simp [sl] at h1
    · exact normalizeStyle_noSq S hsq h1
  · simp [sl] at h

/-- C2, amended: on a lone styled span the markup normalisation rewrites
the style attribute through `normalize_style`, which keeps a style whose
first colour value is already the muted gray (and keeps a style with no
colour declaration), and otherwise rewrites the style to one headed by
the canonical gray declaration `color: rgb(194, 194, 194)`. -/
theorem C2_amended_gray_spans_kept_others_rewritten (S : Str)
    (hdq : ('"' ∈ S) → False) (hsq : ('\'' ∈ S) → False) :
    normalizeGraySpanStyles (sl "<span style=\"" ++ S ++ sl "\">")
      = sl "<span style=\"" ++ normalizeStyle S ++ sl "\">"
    ∧ (searchColorValue S = none → normalizeStyle S = S)
    ∧ (∀ v, searchColorValue S = some v → isGrayValue v = true →
        normalizeStyle S = S)
    ∧ (∀ v, searchColorValue S = some v → isGrayValue v = false →
        startsWithL (sl "color: rgb(194, 194, 194)") (normalizeStyle S) = true) := by
  refine ⟨?_, normalizeStyle_no_color S,
    fun v h hg => normalizeStyle_gray S v h hg,
    fun v h hg => normalizeStyle_nongray S v h hg⟩
  unfold normalizeGraySpanStyles
  rw [pass1_eq S hdq]
  exact scanSub_id (matchSpanStyle '\'') _
    (fun n => matchSpanStyle_none_of_noq '\'' _
      (fun hm => out1_noSq S hsq (List.mem_of_mem_drop hm)))

/-- Witness for the amended C2 at the non-gray style `color: red`: the
span is rewritten to the canonical gray. -/
theorem C2_amended_witness :
    (('"' ∈ sl "color: red") → False) ∧ (('\'' ∈ sl "color: red") → False) ∧
    (normalizeGraySpanStyles (sl "<span style=\"" ++ sl "color: red" ++ sl "\">")
      = sl "<span style=\"" ++ normalizeStyle (sl "color: red") ++ sl "\">"
    ∧ (searchColorValue (sl "color: red") = none →
        normalizeStyle (sl "color: red") = sl "color: red")
    ∧ (∀ v, searchColorValue (sl "color: red") = some v → isGrayValue v = true →
        normalizeStyle (sl "color: red") = sl "color: red")
    ∧ (∀ v, searchColorValue (sl "color: red") = some v → isGrayValue v = false →
        startsWithL (sl "color: rgb(194, 194, 194)")
          (normalizeStyle (sl "color: red")) = true)) :=
  ⟨by decide, by decide,
    C2_amended_gray_spans_kept_others_rewritten (sl "color: red")
      (by decide) (by decide)⟩

/-! ### Claim C6, amended: infrastructure -/

/-- Markup-free: the string contains no `<` character. -/
abbrev LtF (s : Str) : Prop := ∀ c ∈ s, c ≠ '<'

/-- `Char.ofNat` on a scalar value below the surrogate range. -/
theorem toNat_ofNat_valid (n : Nat) (h : n < 55296) : (Char.ofNat n).toNat = n := by
  have hv : n.isValidChar := Or.inl h
  unfold Char.ofNat
  rw [dif_pos hv]
  unfold Char.ofNatAux Char.toNat
  simp [UInt32.toNat, BitVec.toNat_ofNatLt]

/-- Lower-casing maps only `<` to `<`. -/
theorem lowerC_eq_lt (c : Char) (h : lowerC c = '<') : c = '<' := by
  unfold lowerC at h
  split at h
  · rename_i hc
    exfalso
    simp only [Bool.and_eq_true, decide_eq_true_eq] at hc
    have h1 : ('A' : Char).toNat ≤ c.toNat := hc.1
    have h2 : c.toNat ≤ ('Z' : Char).toNat := hc.2
    have hA : ('A' : Char).toNat = 65 := by decide
    have hZ : ('Z' : Char).toNat = 90 := by decide
    have h3 := congrArg Char.toNat h
    rw [toNat_ofNat_valid (c.toNat + 32) (by omega)] at h3
    have hlt : ('<' : Char).toNat = 60 := by decide
    omega
  · split at h
    · rename_i hc
      exfalso
      simp only [Bool.and_eq_true, decide_eq_true_eq] at hc
      have h3 := congrArg Char.toNat h
      rw [toNat_ofNat_valid (c.toNat + 32) (by omega)] at h3
      have hlt : ('<' : Char).toNat = 60 := by decide
      omega
    · exact h

/-- No character other than `<` compares case-insensitively equal to
`<`. -/
theorem ciEq_lt_false (c : Char) (h : c ≠ '<') : ciEq '<' c = false := by
  unfold ciEq
  simp only [decide_eq_false_iff_not]
  intro hl
  have h0 : lowerC '<' = '<' := by decide
  rw [h0] at hl
  exact h (lowerC_eq_lt c hl.symm)

/-- A prefix test fails when the heads differ. -/
theorem sw_head_false (p : Char) (ps : Str) (c : Char) (s : Str) (h : p ≠ c) :
    startsWithL (p :: ps) (c :: s) = false := by
  simp [startsWithL, h]

/-- The emphasis-open test fails on a non-`<` head. -/
theorem sw_itag_false (c : Char) (s : Str) (h : c ≠ '<') :
    startsWithL (sl "<i>") (c :: s) = false := by
  rw [show sl "<i>" = '<' :: 'i' :: '>' :: [] from rfl]
  exact sw_head_false '<' _ c s (fun he => h he.symm)

/-- The emphasis-close test fails on a non-`<` head. -/
theorem sw_ctag_false (c : Char) (s : Str) (h : c ≠ '<') :
    startsWithL (sl "</i>") (c :: s) = false := by
  rw [show sl "</i>" = '<' :: '/' :: 'i' :: '>' :: [] from rfl]
  exact sw_head_false '<' _ c s (fun he => h he.symm)

/-- A position is emphasis-safe after a `<`: the continuation spells
neither `i>` nor `/i>`. -/
def ltSafe (s : Str) : Bool :=
  !(startsWithL (sl "i>") s || startsWithL (sl "/i>") s)

/-- Grammar of nesting-free markup: plain characters, `<` followed by a
safe continuation, and complete non-nested emphasis groups over
markup-free words. -/
inductive GOk : Str → Prop
  | nil : GOk []
  | ch (c : Char) (s : Str) : c ≠ '<' → GOk s → GOk (c :: s)
  | lt (s : Str) : ltSafe s = true → GOk s → GOk ('<' :: s)
  | itag (w s : Str) : LtF w → GOk s →
      GOk ('<' :: 'i' :: '>' :: (w ++ '<' :: '/' :: 'i' :: '>' :: s))

/-- One step of the nested-emphasis scan. -/
theorem hGo_step (c : Char) (cs : Str) (b : Bool) :
    hasNestedIGo (c :: cs) b
      = (if startsWithL (sl "<i>") (c :: cs) && b then true
         else hasNestedIGo cs
           (if startsWithL (sl "<i>") (c :: cs) then true
            else if startsWithL (sl "</i>") (c :: cs) then false else b)) := rfl

/-- Scanning a markup-free run changes neither the verdict nor the
state. -/
theorem hGo_run (u : Str) (hu : LtF u) (r : Str) (b : Bool) :
    hasNestedIGo (u ++ r) b = hasNestedIGo r b := by
  induction u with
  | nil => rfl
  | cons c cs ih =>
    have hc : c ≠ '<' := hu c (by simp)
    have hcs : LtF cs := fun x hx => hu x (by simp [hx])
    rw [List.cons_append, hGo_step, sw_itag_false c _ hc, sw_ctag_false c _ hc]
    simp only [Bool.false_and, if_false, Bool.false_eq_true]
    exact ih hcs

/-- Strings of the nesting-free grammar pass the nested-emphasis scan. -/
theorem GOk_scan (s : Str) (hs : GOk s) : hasNestedIGo s false = false := by
  induction hs with
  | nil => rfl
  | ch c s' hc _ ih =>
    rw [hGo_step, sw_itag_false c _ hc, sw_ctag_false c _ hc]
    simpa using ih
  | lt s' hsafe _ ih =>
    have h1 : startsWithL (sl "<i>") ('<' :: s') = startsWithL (sl "i>") s' := by
      rw [show sl "<i>" = '<' :: sl "i>" from rfl]
      simp [startsWithL]
    have h2 : startsWithL (sl "</i>") ('<' :: s') = startsWithL (sl "/i>") s' := by
      rw [show sl "</i>" = '<' :: sl "/i>" from rfl]
      simp [startsWithL]
    have hs1 : startsWithL (sl "i>") s' = false := by
      unfold ltSafe at hsafe
      rcases Bool.or_eq_false_iff.mp (by simpa using hsafe) with ⟨ha, _⟩
      exact ha
    have hs2 : startsWithL (sl "/i>") s' = false := by
      unfold ltSafe at hsafe
      rcases Bool.or_eq_false_iff.mp (by simpa using hsafe) with ⟨_, hb⟩
      exact hb
    rw [hGo_step, h1, h2, hs1, hs2]
    simpa using ih
  | itag w s' hw _ ih =>
    have hsw : startsWithL (sl "<i>") ('<' :: 'i' :: '>' :: (w ++ '<' :: '/' :: 'i' :: '>' :: s')) = true := by
      rw [show sl "<i>" = '<' :: 'i' :: '>' :: [] from rfl]
      simp [startsWithL]
    rw [hGo_step, hsw]
    simp only [Bool.and_false, if_false, if_true, Bool.false_eq_true]
    rw [hGo_step, sw_itag_false 'i' _ (by decide), sw_ctag_false 'i' _ (by decide)]
    simp only [Bool.false_and, if_false, Bool.false_eq_true]
    rw [hGo_step, sw_itag_false '>' _ (by decide), sw_ctag_false '>' _ (by decide)]
    simp only [Bool.false_and, if_false, Bool.false_eq_true]
    rw [hGo_run w hw _ true]
    have hswc : startsWithL (sl "</i>") ('<' :: '/' :: 'i' :: '>' :: s') = true := by
      rw [show sl "</i>" = '<' :: '/' :: 'i' :: '>' :: [] from rfl]
      simp [startsWithL]
    have hswo : startsWithL (sl "<i>") ('<' :: '/' :: 'i' :: '>' :: s') = false := by
      rw [show sl "<i>" = '<' :: 'i' :: '>' :: [] from rfl]
      simp [startsWithL]
    rw [hGo_step, hswo, hswc]
    simp only [Bool.false_and, if_false, if_true, Bool.false_eq_true]
    rw [hGo_step, sw_itag_false '/' _ (by decide), sw_ctag_false '/' _ (by decide)]
    simp only [Bool.false_and, if_false, Bool.false_eq_true]
    rw [hGo_step, sw_itag_false 'i' _ (by decide), sw_ctag_false 'i' _ (by decide)]
    simp only [Bool.false_and, if_false, Bool.false_eq_true]
    rw [hGo_step, sw_itag_false '>' _ (by decide), sw_ctag_false '>' _ (by decide)]
    simp only [Bool.false_and, if_false, Bool.false_eq_true]
    exact ih

/-- Markup-freeness restricts along character inclusion. -/
theorem LtF_sub (x y : Str) (hsub : ∀ c ∈ y, c ∈ x) (hx : LtF x) : LtF y :=
  fun c hc => hx c (hsub c hc)

/-- Markup-freeness of a concatenation. -/
theorem LtF_app (a b : Str) (ha : LtF a) (hb : LtF b) : LtF (a ++ b) := by
  intro c hc
  rcases List.mem_append.mp hc with h | h
  · exact ha c h
  · exact hb c h

/-- A markup-free string prepends to any grammar string. -/
theorem GOk_ltf_app (u : Str) (hu : LtF u) (r : Str) (hr : GOk r) :
    GOk (u ++ r) := by
  induction u with
  | nil => exact hr
  | cons c cs ih =>
    exact GOk.ch c _ (hu c (by simp)) (ih (fun x hx => hu x (by simp [hx])))

/-- `ltSafe` holds whenever the head is neither `i` nor `/`. -/
theorem ltSafe_of_head (c : Char) (s : Str) (h1 : c ≠ 'i') (h2 : c ≠ '/') :
    ltSafe (c :: s) = true := by
  unfold ltSafe
  rw [show sl "i>" = 'i' :: '>' :: [] from rfl,
    show sl "/i>" = '/' :: 'i' :: '>' :: [] from rfl]
  rw [sw_head_false 'i' _ c s (fun he => h1 he.symm),
    sw_head_false '/' _ c s (fun he => h2 he.symm)]
  rfl

/-- The empty continuation is emphasis-safe. -/
theorem ltSafe_nil : ltSafe [] = true := by decide

/-- A line-break tag prepends to any grammar string. -/
theorem GOk_br (X : Str) (h : GOk X) : GOk ('<' :: 'b' :: 'r' :: '>' :: X) :=
  GOk.lt _ (ltSafe_of_head 'b' _ (by decide) (by decide))
    (GOk.ch 'b' _ (by decide) (GOk.ch 'r' _ (by decide)
      (GOk.ch '>' _ (by decide) h)))

/-- Grammar of the pre-italic texts: plain characters and literal
`<br>` tags. -/
inductive BrS : Str → Prop
  | nil : BrS []
  | ch (c : Char) (s : Str) : c ≠ '<' → BrS s → BrS (c :: s)
  | br (s : Str) : BrS s → BrS ('<' :: 'b' :: 'r' :: '>' :: s)

/-- A markup-free string is a pre-italic text. -/
theorem BrS_of_LtF (s : Str) (h : LtF s) : BrS s := by
  induction s with
  | nil => exact BrS.nil
  | cons c cs ih => exact BrS.ch c cs (h c (by simp)) (ih (fun x hx => h x (by simp [hx])))

/-- Pre-italic texts concatenate. -/
theorem BrS_app (a b : Str) (ha : BrS a) (hb : BrS b) : BrS (a ++ b) := by
  induction ha with
  | nil => exact hb
  | ch c s hc _ ih => exact BrS.ch c _ hc ih
  | br s _ ih => exact BrS.br _ ih

/-- A pre-italic text prepends to any grammar string. -/
theorem GOk_brs_app (u : Str) (hu : BrS u) (r : Str) (hr : GOk r) :
    GOk (u ++ r) := by
  induction hu with
  | nil => exact hr
  | ch c s hc _ ih => exact GOk.ch c _ hc ih
  | br s _ ih => exact GOk_br _ ih

/-- A pre-italic text lies in the nesting-free grammar. -/
theorem GOk_of_BrS (s : Str) (h : BrS s) : GOk s := by
  have := GOk_brs_app s h [] GOk.nil
  simpa using this

/-- Positional form of the pre-italic grammar: every `<` heads a
literal `<br>`.  Closed under arbitrary suffixes. -/
def BrTail (s : Str) : Prop :=
  ∀ n, (s.drop n).head? = some '<' → startsWithL (sl "<br>") (s.drop n) = true

/-- A pre-italic text satisfies the positional form. -/
theorem BrTail_of_BrS (s : Str) (h : BrS s) : BrTail s := by
  induction h with
  | nil => intro n hn; simp at hn
  | ch c s' hc _ ih =>
    intro n hn
    match n with
    | 0 => simp at hn; exact absurd hn hc
    | Nat.succ n => exact ih n hn
  | br s' _ ih =>
    intro n hn
    match n with
    | 0 =>
      rw [show ('<' :: 'b' :: 'r' :: '>' :: s').drop 0
          = sl "<br>" ++ s' from rfl]
      exact startsWithL_self_append _ _
    | 1 => simp at hn
    | 2 => simp at hn
    | 3 => simp at hn
    | Nat.succ (Nat.succ (Nat.succ (Nat.succ n))) => exact ih n hn

/-- A markup-free text satisfies the positional form. -/
theorem BrTail_of_LtF (s : Str) (h : LtF s) : BrTail s :=
  BrTail_of_BrS s (BrS_of_LtF s h)

/-- The positional form is closed under dropping. -/
theorem BrTail_drop (s : Str) (n : Nat) (h : BrTail s) : BrTail (s.drop n) := by
  intro m
  rw [List.drop_drop]
  rw [Nat.add_comm]
  exact h (m + n)

/-- One step of `scanSubF` at a non-matching position. -/
theorem scanSubF_step_none (m : Str → Option (Str × Nat)) (f : Nat) (c : Char)
    (cs : Str) (h : m (c :: cs) = none) :
    scanSubF m (Nat.succ f) (c :: cs) = c :: scanSubF m f cs := by
  rw [show scanSubF m (Nat.succ f) (c :: cs)
      = (match m (c :: cs) with
         | some (o, k) => o ++ scanSubF m f (cs.drop (k - 1))
         | none => c :: scanSubF m f cs) from rfl, h]

/-- Successful prefix tests expose the head. -/
theorem startsWithL_cons_ex (p : Char) (ps s : Str)
    (h : startsWithL (p :: ps) s = true) :
    ∃ s', s = p :: s' ∧ startsWithL ps s' = true := by
  cases s with
  | nil => simp [startsWithL] at h
  | cons c cs =>
    simp only [startsWithL, Bool.and_eq_true, decide_eq_true_eq] at h
    exact ⟨cs, by rw [h.1], h.2⟩

/-- The quote-comma-quote matcher needs the quote at the head. -/
theorem matchQCQ_none_head (q c : Char) (r : Str) (h : c ≠ q) :
    matchQCQ q (c :: r) = none := by
  simp [matchQCQ, h]

/-- Shape of a quote-comma-quote match: it replaces with
`q<br>q` and consumes at least one character. -/
theorem matchQCQ_out (q : Char) (s o : Str) (k : Nat)
    (h : matchQCQ q s = some (o, k)) :
    o = q :: '<' :: 'b' :: 'r' :: '>' :: q :: [] ∧ 1 ≤ k := by
  unfold matchQCQ at h
  split at h
  · rename_i c r
    split at h
    · split at h
      · rename_i r2
        split at h
        · rename_i c2 r3
          split at h
          · simp only [Option.some.injEq, Prod.mk.injEq] at h
            refine ⟨?_, by omega⟩
            rw [← h.1]
            rfl
          · exact absurd h (by simp)
        · exact absurd h (by simp)
      · exact absurd h (by simp)
    · exact absurd h (by simp)
  · exact absurd h (by simp)

/-- The quote-comma-quote substitution turns a positional pre-italic
text into a pre-italic text. -/
theorem scanSubF_qcq_brs (q : Char) (hq1 : q ≠ '<') (hq2 : q ≠ 'b')
    (hq3 : q ≠ 'r') (hq4 : q ≠ '>') :
    ∀ (f : Nat) (s : Str), BrTail s → s.length ≤ f →
      BrS (scanSubF (matchQCQ q) f s) := by
  intro f
  induction f using Nat.strong_induction_on with
  | _ f ih =>
    intro s hs hf
    match f, s with
    | f, [] => rw [scanSubF_nil]; exact BrS.nil
    | 0, c :: cs => simp at hf
    | Nat.succ f, c :: cs =>
      by_cases hc : c = '<'
      · subst hc
        have hbr := hs 0 (by rfl)
        rw [show ('<' :: cs).drop 0 = '<' :: cs from rfl] at hbr
        rw [show sl "<br>" = '<' :: 'b' :: 'r' :: '>' :: [] from rfl] at hbr
        obtain ⟨s1, hs1, hbr1⟩ := startsWithL_cons_ex _ _ _ hbr
        have hcseq : cs = s1 := by simpa using hs1
        obtain ⟨s2, hs2, hbr2⟩ := startsWithL_cons_ex _ _ _ hbr1
        obtain ⟨s3, hs3, hbr3⟩ := startsWithL_cons_ex _ _ _ hbr2
        obtain ⟨s4, hs4, _⟩ := startsWithL_cons_ex _ _ _ hbr3
        subst hs4; subst hs3; subst hs2; subst hcseq
        have hlen : s4.length + 4 ≤ Nat.succ f := by simpa using hf
        obtain ⟨f1, rfl⟩ : ∃ f1, f = f1 + 3 := ⟨f - 3, by omega⟩
        have hstep : scanSubF (matchQCQ q) (Nat.succ (f1 + 3))
            ('<' :: 'b' :: 'r' :: '>' :: s4)
            = '<' :: 'b' :: 'r' :: '>' :: scanSubF (matchQCQ q) f1 s4 := by
          rw [scanSubF_step_none _ _ _ _ (matchQCQ_none_head q '<' _ (fun he => hq1 he.symm))]
          rw [show f1 + 3 = Nat.succ (f1 + 2) from rfl]
          rw [scanSubF_step_none _ _ _ _ (matchQCQ_none_head q 'b' _ (fun he => hq2 he.symm))]
          rw [show f1 + 2 = Nat.succ (f1 + 1) from rfl]
          rw [scanSubF_step_none _ _ _ _ (matchQCQ_none_head q 'r' _ (fun he => hq3 he.symm))]
          rw [show f1 + 1 = Nat.succ f1 from rfl]
          rw [scanSubF_step_none _ _ _ _ (matchQCQ_none_head q '>' _ (fun he => hq4 he.symm))]
        rw [hstep]
        exact BrS.br _ (ih f1 (by omega) s4 (BrTail_drop _ 4 hs) (by omega))
      · cases hm : matchQCQ q (c :: cs) with
        | some ok =>
          obtain ⟨o, k⟩ := ok
          obtain ⟨ho, hk⟩ := matchQCQ_out q _ o k hm
          rw [scanSubF_step_some _ _ _ _ _ _ hm, ho]
          obtain ⟨j, rfl⟩ : ∃ j, k = j + 1 := ⟨k - 1, by omega⟩
          have hcs : BrTail cs := BrTail_drop (c :: cs) 1 hs
          have htl : BrTail (cs.drop (j + 1 - 1)) := BrTail_drop cs j hcs
          refine BrS.ch q _ hq1 (BrS.br _ (BrS.ch q _ hq1 ?_))
          exact ih f (by omega) _ htl (by rw [List.length_drop]; simp at hf; omega)
        | none =>
          rw [scanSubF_step_none _ _ _ _ hm]
          exact BrS.ch c _ hc (ih f (by omega) cs (BrTail_drop _ 1 hs)
            (by simp at hf; omega))

/-- Right-stripping keeps only characters of the input. -/
theorem trimR_sub (s : Str) (c : Char) (hc : c ∈ trimR s) : c ∈ s := by
  unfold trimR trimL at hc
  rw [List.mem_reverse] at hc
  have h1 := (List.dropWhile_sublist (l := s.reverse)
      (p := fun c => isSpaceC c)).subset hc
  rwa [List.mem_reverse] at h1

/-- Left-stripping keeps only characters of the input. -/
theorem trimL_sub (s : Str) (c : Char) (hc : c ∈ trimL s) : c ∈ s :=
  (List.dropWhile_sublist (l := s) (p := fun c => isSpaceC c)).subset hc

/-- Unwrapping parentheses keeps only characters of the input. -/
theorem rwp_sub (l : Str) (c : Char) (hc : c ∈ removeWrappingParens l) : c ∈ l := by
  unfold removeWrappingParens at hc
  split at hc
  · rename_i r
    split at hc
    · exact hc
    · split at hc
      · have h2 := (List.takeWhile_sublist (l := r)
            (p := fun c => decide (c ≠ ')'))).subset hc
        exact List.mem_cons_of_mem '(' h2
      · exact hc
  · exact hc

/-- The quote-trailing-separator normalisation preserves
markup-freeness. -/
theorem subQCEnd_ltf (q mid : Char) (s : Str) (hq : q ≠ '<') (hs : LtF s) :
    LtF (subQCEnd q mid s) := by
  unfold subQCEnd
  split
  · rename_i m r2 heq
    split
    · split
      · rename_i c r3 heq2
        split
        · intro x hx
          rw [List.mem_reverse] at hx
          rcases List.mem_cons.mp hx with h | h
          · rw [h]; exact hq
          · refine hs x ?_
            have h1 : x ∈ r2.dropWhile isSpaceC := heq2 ▸ List.mem_cons_of_mem c h
            have h2 := (List.dropWhile_sublist (l := r2) (p := isSpaceC)).subset h1
            have h3 : x ∈ s.reverse.dropWhile isSpaceC :=
              heq ▸ List.mem_cons_of_mem m h2
            have h4 := (List.dropWhile_sublist (l := s.reverse)
                (p := isSpaceC)).subset h3
            rwa [List.mem_reverse] at h4
        · exact hs
      · exact hs
    · exact hs
  · exact hs

/-- `eatL` fails on a differing head. -/
theorem eatL_none_head (p : Char) (ps : Str) (c : Char) (cs : Str) (h : p ≠ c) :
    eatL (p :: ps) (c :: cs) = none := by
  simp [eatL, h]

/-- `eatL` consumes its own prefix. -/
theorem eatL_self (p r : Str) : eatL p (p ++ r) = some r := by
  induction p with
  | nil => rfl
  | cons c cs ih => simp [eatL, ih]

/-- Splitting a markup-free string on `<br>` yields the string itself. -/
theorem splitOnSubGo_ltf (f : Nat) (s acc : Str) (hs : LtF s)
    (hf : s.length ≤ f) :
    splitOnSubGo '<' ('b' :: 'r' :: '>' :: []) f s acc = [acc.reverse ++ s] := by
  induction s generalizing f acc with
  | nil => cases f <;> simp [splitOnSubGo]
  | cons c cs ih =>
    cases f with
    | zero => simp at hf
    | succ f =>
      rw [show splitOnSubGo '<' ('b' :: 'r' :: '>' :: []) (Nat.succ f) (c :: cs) acc
          = (match eatL ('<' :: 'b' :: 'r' :: '>' :: []) (c :: cs) with
             | some rest => acc.reverse :: splitOnSubGo '<' ('b' :: 'r' :: '>' :: []) f rest []
             | none => splitOnSubGo '<' ('b' :: 'r' :: '>' :: []) f cs (c :: acc)) from rfl]
      rw [eatL_none_head '<' _ c cs (fun he => hs c (by simp) he.symm)]
      rw [ih f (c :: acc) (fun x hx => hs x (by simp [hx])) (by simp at hf; omega)]
      simp

/-- `str.split('<br>')` of a markup-free string. -/
theorem splitOnSub_ltf (s : Str) (hs : LtF s) :
    splitOnSub (sl "<br>") s = [s] := by
  unfold splitOnSub
  rw [show sl "<br>" = '<' :: 'b' :: 'r' :: '>' :: [] from rfl]
  show splitOnSubGo '<' ('b' :: 'r' :: '>' :: []) s.length s [] = [s]
  rw [splitOnSubGo_ltf s.length s [] hs le_rfl]
  rfl

/-- Every `<br>`-split part of a pre-italic text is markup-free. -/
theorem splitOnSubGo_brs (f : Nat) (t acc : Str) (ht : BrS t) (ha : LtF acc)
    (hf : t.length ≤ f) :
    ∀ p ∈ splitOnSubGo '<' ('b' :: 'r' :: '>' :: []) f t acc, LtF p := by
  induction ht generalizing f acc with
  | nil =>
    intro p hp
    cases f with
    | zero =>
      simp only [splitOnSubGo, List.mem_singleton] at hp
      rw [hp]
      intro x hx
      rw [List.mem_reverse] at hx
      exact ha x hx
    | succ f =>
      simp only [splitOnSubGo, List.mem_singleton] at hp
      rw [hp]
      intro x hx
      rw [List.mem_reverse] at hx
      exact ha x hx
  | ch c s hc _ ih =>
    intro p hp
    cases f with
    | zero => simp at hf
    | succ f =>
      rw [show splitOnSubGo '<' ('b' :: 'r' :: '>' :: []) (Nat.succ f) (c :: s) acc
          = (match eatL ('<' :: 'b' :: 'r' :: '>' :: []) (c :: s) with
             | some rest => acc.reverse :: splitOnSubGo '<' ('b' :: 'r' :: '>' :: []) f rest []
             | none => splitOnSubGo '<' ('b' :: 'r' :: '>' :: []) f s (c :: acc)) from rfl] at hp
      rw [eatL_none_head '<' _ c s (fun he => hc he.symm)] at hp
      exact ih f (c :: acc)
        (fun x hx => by
          rcases List.mem_cons.mp hx with h | h
          · rw [h]; exact hc
          · exact ha x h)
        (by simp at hf; omega) p hp
  | br s _ ih =>
    intro p hp
    cases f with
    | zero => simp at hf
    | succ f =>
      rw [show splitOnSubGo '<' ('b' :: 'r' :: '>' :: []) (Nat.succ f)
            ('<' :: 'b' :: 'r' :: '>' :: s) acc
          = (match eatL ('<' :: 'b' :: 'r' :: '>' :: []) ('<' :: 'b' :: 'r' :: '>' :: s) with
             | some rest => acc.reverse :: splitOnSubGo '<' ('b' :: 'r' :: '>' :: []) f rest []
             | none => splitOnSubGo '<' ('b' :: 'r' :: '>' :: []) f
                 ('b' :: 'r' :: '>' :: s) ('<' :: acc)) from rfl] at hp
      rw [show eatL ('<' :: 'b' :: 'r' :: '>' :: [])
          ('<' :: 'b' :: 'r' :: '>' :: s) = some s from eatL_self _ s] at hp
      rcases List.mem_cons.mp hp with h | h
      · rw [h]
        intro x hx
        rw [List.mem_reverse] at hx
        exact ha x hx
      · exact ih f [] (by intro x hx; simp at hx) (by simp at hf; omega) p h

/-- Every `<br>`-split part of a pre-italic text is markup-free. -/
theorem splitOnSub_brs (t : Str) (ht : BrS t) :
    ∀ p ∈ splitOnSub (sl "<br>") t, LtF p := by
  unfold splitOnSub
  rw [show sl "<br>" = '<' :: 'b' :: 'r' :: '>' :: [] from rfl]
  show ∀ p ∈ splitOnSubGo '<' ('b' :: 'r' :: '>' :: []) t.length t [], LtF p
  exact splitOnSubGo_brs t.length t [] ht (by intro x hx; simp at hx) le_rfl

/-- Joining pre-italic pieces with `<br>` stays pre-italic. -/
theorem BrS_intercalate (l : List Str) (hl : ∀ p ∈ l, BrS p) :
    BrS (List.intercalate (sl "<br>") l) := by
  induction l with
  | nil => rw [show List.intercalate (sl "<br>") [] = [] from rfl]; exact BrS.nil
  | cons a l ih =>
    cases l with
    | nil =>
      rw [show List.intercalate (sl "<br>") [a] = a ++ [] from rfl]
      simpa using hl a (by simp)
    | cons b l2 =>
      rw [show List.intercalate (sl "<br>") (a :: b :: l2)
          = a ++ sl "<br>" ++ List.intercalate (sl "<br>") (b :: l2) by
        simp [List.intercalate, List.intersperse]]
      rw [List.append_assoc]
      refine BrS_app a _ (hl a (by simp)) ?_
      rw [show sl "<br>" = '<' :: 'b' :: 'r' :: '>' :: [] from rfl, List.cons_append,
        List.cons_append, List.cons_append, List.cons_append, List.nil_append]
      exact BrS.br _ (ih (fun p hp => hl p (by simp [hp])))

/-- The quote-normalisation core of `nqelPart` produces a pre-italic
text from a markup-free line. -/
theorem nqelCore_brs (n : Str) (h : LtF n) :
    BrS (if headIsQuote (trim n) then
      scanSub (matchQCQ '\'') (scanSub (matchQCQ '"') (subQCEnd '\'' ')'
        (subQCEnd '"' ')' (subQCEnd '\'' ',' (subQCEnd '"' ',' n)))))
    else n) := by
  split
  · have h1 := subQCEnd_ltf '"' ',' n (by decide) h
    have h2 := subQCEnd_ltf '\'' ',' _ (by decide) h1
    have h3 := subQCEnd_ltf '"' ')' _ (by decide) h2
    have h4 := subQCEnd_ltf '\'' ')' _ (by decide) h3
    have h5 : BrS (scanSub (matchQCQ '"') (subQCEnd '\'' ')'
        (subQCEnd '"' ')' (subQCEnd '\'' ',' (subQCEnd '"' ',' n))))) :=
      scanSubF_qcq_brs '"' (by decide) (by decide) (by decide) (by decide)
        _ _ (BrTail_of_LtF _ h4) le_rfl
    exact scanSubF_qcq_brs '\'' (by decide) (by decide) (by decide) (by decide)
      _ _ (BrTail_of_BrS _ h5) le_rfl
  · exact BrS_of_LtF n h

/-- One line of the quoted-example normalisation produces a pre-italic
text from a markup-free part. -/
theorem nqelPart_brs (part : Str) (hp : LtF part) : BrS (nqelPart part) := by
  unfold nqelPart
  dsimp only
  split
  · exact BrS_of_LtF part hp
  · have hN : LtF (if startsWithL (sl "(") (trim part) && endsWithL (sl ")") (trim part)
        then (if headIsQuote (trim (removeWrappingParens (trim part)))
          then removeWrappingParens (trim part) else part) else part) := by
      split
      · split
        · exact LtF_sub part _ (fun c hc => trim_subset part c (rwp_sub _ c hc)) hp
        · exact hp
      · exact hp
    exact nqelCore_brs _ hN

/-- The quoted-example-line normalisation produces a pre-italic text
from a pre-italic text. -/
theorem nQEL_brs (t : Str) (ht : BrS t) :
    BrS (normalizeQuotedExampleLines t) := by
  unfold normalizeQuotedExampleLines
  refine BrS_intercalate _ ?_
  intro p hp
  rw [List.mem_map] at hp
  obtain ⟨q, hq, rfl⟩ := hp
  exact nqelPart_brs q (splitOnSub_brs t ht q hq)

/-- A split scan with a matcher that never fires returns the whole
input as the single run. -/
theorem scanSplitF_one (m : Str → Option (Option Str × Str)) :
    ∀ (f : Nat) (s acc : Str), s.length ≤ f →
      (∀ n, m (s.drop n) = none) →
      scanSplitF m f s acc = [(false, acc.reverse ++ s)] := by
  intro f
  induction f with
  | zero =>
    intro s acc hf _
    cases s with
    | nil => simp [scanSplitF]
    | cons c cs => simp at hf
  | succ f ih =>
    intro s acc hf hm
    cases s with
    | nil => simp [scanSplitF]
    | cons c cs =>
      rw [show scanSplitF m (Nat.succ f) (c :: cs) acc
          = (match m (c :: cs) with
             | some (g, rem) =>
               (false, acc.reverse) ::
                 (match g with | some gp => [(true, gp)] | none => []) ++
                   scanSplitF m f rem []
             | none => scanSplitF m f cs (c :: acc)) from rfl]
      rw [show m (c :: cs) = none from hm 0]
      rw [ih cs (c :: acc) (by simp at hf; omega) (fun n => hm (n + 1))]
      simp

/-- The italic-tag matcher needs `<` at the head. -/
theorem matchITag_none_head (c : Char) (cs : Str) (h : c ≠ '<') :
    matchITag (c :: cs) = none := by
  unfold matchITag
  split
  · rename_i heq; exact absurd (by simpa using congrArg List.head? heq) h
  · rename_i heq; exact absurd (by simpa using congrArg List.head? heq) h
  · rfl

/-- The tag matcher needs `<` at the head. -/
theorem matchTag_none_head (c : Char) (cs : Str) (h : c ≠ '<') :
    matchTag (c :: cs) = none := by
  unfold matchTag
  split
  · rename_i heq; exact absurd (by simpa using congrArg List.head? heq) h
  · rfl

/-- The tag matcher consumes a literal `<br>` whole. -/
theorem matchTag_br (s : Str) :
    matchTag ('<' :: 'b' :: 'r' :: '>' :: s)
      = some (some ('<' :: 'b' :: 'r' :: '>' :: []), s) := rfl

/-- A term match returns the consumed prefix of the text. -/
theorem tryTermMatch_take (p : TermPat) (prevRev s mtext : Str) (k : Nat)
    (h : tryTermMatch p prevRev s = some (mtext, k)) : mtext = s.take k := by
  unfold tryTermMatch at h
  split at h
  · split at h
    · exact absurd h (by simp)
    · split at h
      · exact absurd h (by simp)
      · split at h
        · exact absurd h (by simp)
        · simp only [Option.some.injEq, Prod.mk.injEq] at h
          rw [← h.2, ← h.1]
  · split at h
    · exact absurd h (by simp)
    · split at h
      · exact absurd h (by simp)
      · split at h
        · exact absurd h (by simp)
        · split at h
          · exact absurd h (by simp)
          · split at h
            · dsimp only at h
              split at h
              · exact absurd h (by simp)
              · split at h
                · simp only [Option.some.injEq, Prod.mk.injEq] at h
                  rw [← h.2, ← h.1]
                · exact absurd h (by simp)
            · dsimp only at h
              split at h
              · exact absurd h (by simp)
              · split at h
                · simp only [Option.some.injEq, Prod.mk.injEq] at h
                  rw [← h.2, ← h.1]
                · exact absurd h (by simp)

/-- Characters of split-scan pieces come from the input whenever the
matcher's groups and remainders do. -/
theorem scanSplitF_mem (m : Str → Option (Option Str × Str)) (P : Char → Prop)
    (hm : ∀ s g rem, m s = some (g, rem) → (∀ c ∈ s, P c) →
      ((∀ c ∈ rem, P c) ∧ ∀ gp, g = some gp → ∀ c ∈ gp, P c)) :
    ∀ (f : Nat) (s acc : Str), (∀ c ∈ s, P c) → (∀ c ∈ acc, P c) →
      ∀ pr ∈ scanSplitF m f s acc, ∀ c ∈ pr.2, P c := by
  intro f
  induction f with
  | zero =>
    intro s acc hs ha pr hpr
    cases s with
    | nil =>
      simp only [scanSplitF, List.mem_singleton] at hpr
      rw [hpr]
      intro c hc
      exact ha c (by rwa [← List.mem_reverse])
    | cons a as =>
      simp only [scanSplitF, List.mem_singleton] at hpr
      rw [hpr]
      intro c hc
      exact ha c (by rwa [← List.mem_reverse])
  | succ f ih =>
    intro s acc hs ha pr hpr
    cases s with
    | nil =>
      simp only [scanSplitF, List.mem_singleton] at hpr
      rw [hpr]
      intro c hc
      exact ha c (by rwa [← List.mem_reverse])
    | cons a as =>
      rw [show scanSplitF m (Nat.succ f) (a :: as) acc
          = (match m (a :: as) with
             | some (g, rem) =>
               (false, acc.reverse) ::
                 (match g with | some gp => [(true, gp)] | none => []) ++
                   scanSplitF m f rem []
             | none => scanSplitF m f as (a :: acc)) from rfl] at hpr
      cases hma : m (a :: as) with
      | some grem =>
        obtain ⟨g, rem⟩ := grem
        rw [hma] at hpr
        obtain ⟨hrem, hgp⟩ := hm (a :: as) g rem hma hs
        rcases List.mem_cons.mp hpr with h | h
        · rw [h]
          intro c hc
          exact ha c (by rwa [← List.mem_reverse])
        · rcases List.mem_append.mp h with h2 | h2
          · cases g with
            | some gp =>
              simp only [List.mem_singleton] at h2
              rw [h2]
              exact hgp gp rfl
            | none => simp at h2
          · exact ih rem [] hrem (by intro c hc; simp at hc) pr h2
      | none =>
        rw [hma] at hpr
        exact ih as (a :: acc) (fun c hc => hs c (by simp [hc]))
          (fun c hc => by
            rcases List.mem_cons.mp hc with h | h
            · rw [h]; exact hs a (by simp)
            · exact ha c h) pr hpr

/-- Grammar of an italicised piece: plain characters and complete,
never nested emphasis groups over markup-free words.  This is the
invariant every substitution pass of the italiciser preserves. -/
inductive WOk : Str → Prop
  | nil : WOk []
  | ch (c : Char) (s : Str) : c ≠ '<' → WOk s → WOk (c :: s)
  | itag (w s : Str) : LtF w → WOk s →
      WOk ('<' :: 'i' :: '>' :: (w ++ '<' :: '/' :: 'i' :: '>' :: s))

/-- A markup-free piece is italicised-piece shaped. -/
theorem WOk_of_LtF (s : Str) (h : LtF s) : WOk s := by
  induction s with
  | nil => exact WOk.nil
  | cons c cs ih =>
    exact WOk.ch c cs (h c (by simp)) (ih (fun x hx => h x (by simp [hx])))

/-- Italicised pieces concatenate. -/
theorem WOk_app (a b : Str) (ha : WOk a) (hb : WOk b) : WOk (a ++ b) := by
  induction ha with
  | nil => exact hb
  | ch c s hc _ ih => exact WOk.ch c _ hc ih
  | itag w s hw _ ih =>
    rw [List.cons_append, List.cons_append, List.cons_append,
      List.append_assoc, List.cons_append]
    exact WOk.itag w _ hw ih

/-- An italicised piece prepends to any nesting-free text. -/
theorem GOk_wok_app (u : Str) (hu : WOk u) (r : Str) (hr : GOk r) :
    GOk (u ++ r) := by
  induction hu with
  | nil => exact hr
  | ch c s hc _ ih => exact GOk.ch c _ hc ih
  | itag w s hw _ ih =>
    rw [List.cons_append, List.cons_append, List.cons_append,
      List.append_assoc, List.cons_append]
    exact GOk.itag w _ hw ih

/-- The wrapping substitution on a markup-free chunk produces an
italicised piece. -/
theorem resubWrapGo_wok (p : TermPat) :
    ∀ (f : Nat) (prevRev s : Str), LtF s → WOk (resubWrapGo p f prevRev s) := by
  intro f
  induction f with
  | zero =>
    intro prevRev s _
    cases s with
    | nil => exact WOk.nil
    | cons c cs => exact WOk.nil
  | succ f ih =>
    intro prevRev s hs
    cases s with
    | nil => exact WOk.nil
    | cons c cs =>
      rw [show resubWrapGo p (Nat.succ f) prevRev (c :: cs)
          = (match tryTermMatch p prevRev (c :: cs) with
             | some (mtext, k) =>
               sl "<i>" ++ mtext ++ sl "</i>"
                 ++ resubWrapGo p f (mtext.reverse ++ prevRev) (cs.drop (k - 1))
             | none => c :: resubWrapGo p f (c :: prevRev) cs) from rfl]
      cases hm : tryTermMatch p prevRev (c :: cs) with
      | some mk =>
        obtain ⟨mtext, k⟩ := mk
        have hmt : mtext = (c :: cs).take k := tryTermMatch_take p _ _ mtext k hm
        have hw : LtF mtext := by
          rw [hmt]
          exact LtF_sub _ _ (fun x hx => List.mem_of_mem_take hx) hs
        have hrec : WOk (resubWrapGo p f (mtext.reverse ++ prevRev)
            (cs.drop (k - 1))) :=
          ih _ _ (LtF_sub _ _ (fun x hx => List.mem_of_mem_drop hx)
            (fun x hx => hs x (by simp [hx])))
        simp only [List.append_assoc]
        exact WOk.itag mtext _ hw hrec
      | none =>
        exact WOk.ch c _ (hs c (by simp))
          (ih (c :: prevRev) cs (fun x hx => hs x (by simp [hx])))

/-- The wrapping substitution entry point. -/
theorem resubWrap_wok (p : TermPat) (s : Str) (hs : LtF s) :
    WOk (resubWrap p s) :=
  resubWrapGo_wok p s.length [] s hs

/-- The characters of a `(på …)` match come from the input. -/
theorem matchPaParen_mem (P : Char → Prop) (s : Str) (g : Option Str) (rem : Str)
    (h : matchPaParen s = some (g, rem)) (hs : ∀ c ∈ s, P c) :
    (∀ c ∈ rem, P c) ∧ ∀ gp, g = some gp → ∀ c ∈ gp, P c := by
  unfold matchPaParen at h
  split at h
  · rename_i r
    dsimp only at h
    split at h
    · rename_i p1 p2 r2 heq2
      have hr : ∀ c ∈ r, P c := fun c hc => hs c (by simp [hc])
      have hr2 : ∀ c ∈ p1 :: p2 :: r2, P c := by
        intro c hc
        rw [← heq2] at hc
        exact hr c ((List.dropWhile_sublist (l := r) (p := isSpaceC)).subset hc)
      split at h
      · split at h
        · exact absurd h (by simp)
        · split at h
          · rename_i tail heq3
            simp only [Option.some.injEq, Prod.mk.injEq] at h
            constructor
            · intro c hc
              rw [← h.2] at hc
              have h3 : c ∈ r2.dropWhile (fun c => decide (c ≠ ')')) := by
                rw [heq3]; exact List.mem_cons_of_mem ')' hc
              have h4 := (List.dropWhile_sublist (l := r2)
                  (p := fun c => decide (c ≠ ')'))).subset h3
              exact hr2 c (by simp [h4])
            · intro gp hgp c hc
              rw [← h.1] at hgp
              injection hgp with hgp
              rw [← hgp] at hc
              rcases List.mem_append.mp hc with h1 | h1
              · rcases List.mem_cons.mp h1 with h2 | h2
                · rw [h2]; exact hs '(' (by simp)
                · exact hr c ((List.takeWhile_sublist (l := r)
                    (p := isSpaceC)).subset h2)
              · rcases List.mem_cons.mp h1 with h2 | h2
                · rw [h2]; exact hr2 p1 (by simp)
                · rcases List.mem_cons.mp h2 with h3 | h3
                  · rw [h3]; exact hr2 p2 (by simp)
                  · rcases List.mem_append.mp h3 with h4 | h4
                    · have h5 := (List.takeWhile_sublist (l := r2)
                          (p := fun c => decide (c ≠ ')'))).subset h4
                      exact hr2 c (by simp [h5])
                    · simp only [List.mem_singleton] at h4
                      rw [h4]
                      have h5 : ')' ∈ r2.dropWhile (fun c => decide (c ≠ ')')) := by
                        rw [heq3]; simp
                      have h6 := (List.dropWhile_sublist (l := r2)
                          (p := fun c => decide (c ≠ ')'))).subset h5
                      exact hr2 ')' (by simp [h6])
          · exact absurd h (by simp)
      · exact absurd h (by simp)
    · exact absurd h (by simp)
  · exact absurd h (by simp)

/-- The per-chunk branch of `do_sub`, folded over the chunk list. -/
theorem doSubChunks_wok (p : TermPat) (l : List (Bool × Str))
    (hl : ∀ pr ∈ l, LtF pr.2) :
    WOk ((l.map (fun cpair =>
      if cpair.2 = [] then []
      else if cpair.1 then cpair.2
      else resubWrap p cpair.2)).flatten) := by
  induction l with
  | nil => exact WOk.nil
  | cons pr rest ih =>
    rw [List.map_cons, List.flatten_cons]
    have hrest := ih (fun x hx => hl x (by simp [hx]))
    refine WOk_app _ _ ?_ hrest
    split
    · exact WOk.nil
    · split
      · exact WOk_of_LtF _ (hl pr (by simp))
      · exact resubWrap_wok p _ (hl pr (by simp))

/-- `do_sub` on a markup-free piece produces an italicised piece. -/
theorem doSub_wok (p : TermPat) (u : Str) (hu : LtF u) : WOk (doSub p u) := by
  unfold doSub
  dsimp only
  have hpieces : ∀ pr ∈ scanSplit matchPaParen u [], LtF pr.2 := by
    intro pr hpr
    exact scanSplitF_mem matchPaParen (fun c => c ≠ '<')
      (matchPaParen_mem (fun c => c ≠ '<'))
      u.length u [] hu (by intro c hc; simp at hc) pr hpr
  split
  · rename_i whole heq
    exact resubWrap_wok p whole (hpieces (false, whole) (by rw [heq]; simp))
  · exact doSubChunks_wok p _ hpieces

/-- Quote-scoped substitution on a markup-free part produces an
italicised piece. -/
theorem applyInsideQuotes_wok (p : TermPat) :
    ∀ (t : Str) (quote : Option Char) (buf : Str), LtF t → LtF buf →
      WOk (applyInsideQuotes (doSub p) t quote buf) := by
  intro t
  induction t with
  | nil =>
    intro quote buf _ hb
    cases quote with
    | none => exact WOk_of_LtF buf hb
    | some q => exact doSub_wok p buf hb
  | cons ch rest ih =>
    intro quote buf ht hb
    have hch : ch ≠ '<' := ht ch (by simp)
    have hrest : LtF rest := fun x hx => ht x (by simp [hx])
    have hbuf1 : LtF (buf ++ [ch]) :=
      LtF_app buf [ch] hb (by intro x hx; simp at hx; rw [hx]; exact hch)
    cases quote with
    | none =>
      rw [show applyInsideQuotes (doSub p) (ch :: rest) none buf
          = (if ch = '"' || ch = '\'' then
              buf ++ [ch] ++ applyInsideQuotes (doSub p) rest (some ch) []
            else applyInsideQuotes (doSub p) rest none (buf ++ [ch])) from rfl]
      split
      · simp only [List.append_assoc]
        refine WOk_app buf _ (WOk_of_LtF buf hb) ?_
        rw [List.cons_append, List.nil_append]
        exact WOk.ch ch _ hch (ih (some ch) [] hrest (by intro x hx; simp at hx))
      · exact ih none (buf ++ [ch]) hrest hbuf1
    | some q =>
      rw [show applyInsideQuotes (doSub p) (ch :: rest) (some q) buf
          = (if ch = '"' || ch = '\'' then
              (if ch = q then
                doSub p buf ++ [ch] ++ applyInsideQuotes (doSub p) rest none []
              else applyInsideQuotes (doSub p) rest (some q) (buf ++ [ch]))
            else applyInsideQuotes (doSub p) rest (some q) (buf ++ [ch])) from rfl]
      split
      · split
        · simp only [List.append_assoc]
          refine WOk_app _ _ (doSub_wok p buf hb) ?_
          rw [List.cons_append, List.nil_append]
          exact WOk.ch ch _ hch (ih none [] hrest (by intro x hx; simp at hx))
        · exact ih (some q) (buf ++ [ch]) hrest hbuf1
      · exact ih (some q) (buf ++ [ch]) hrest hbuf1

/-- The italic-tag matcher consumes a literal `<i>` whole. -/
theorem matchITag_itag (rest : Str) :
    matchITag ('<' :: 'i' :: '>' :: rest)
      = some (some ('<' :: 'i' :: '>' :: []), rest) := rfl

/-- The italic-tag matcher consumes a literal `</i>` whole. -/
theorem matchITag_ctag (rest : Str) :
    matchITag ('<' :: '/' :: 'i' :: '>' :: rest)
      = some (some ('<' :: '/' :: 'i' :: '>' :: []), rest) := rfl

/-- The italic-tag split scan walks a markup-free word and stops at the
closing tag. -/
theorem scanSplitF_wrun (w : Str) (hw : LtF w) :
    ∀ (f : Nat) (acc s : Str), (w ++ '<' :: '/' :: 'i' :: '>' :: s).length ≤ f →
      ∃ f2, s.length ≤ f2 ∧
        scanSplitF matchITag f (w ++ '<' :: '/' :: 'i' :: '>' :: s) acc
          = (false, acc.reverse ++ w) :: (true, '<' :: '/' :: 'i' :: '>' :: []) ::
              scanSplitF matchITag f2 s [] := by
  induction w with
  | nil =>
    intro f acc s hf
    cases f with
    | zero => simp at hf
    | succ f =>
      refine ⟨f, by simp at hf; omega, ?_⟩
      rw [show scanSplitF matchITag (Nat.succ f)
          ([] ++ '<' :: '/' :: 'i' :: '>' :: s) acc
          = (match matchITag ('<' :: '/' :: 'i' :: '>' :: s) with
             | some (g, rem) =>
               ((false, acc.reverse) ::
                 (match g with | some gp => [(true, gp)] | none => [])) ++
                   scanSplitF matchITag f rem []
             | none => scanSplitF matchITag f ('/' :: 'i' :: '>' :: s)
                 ('<' :: acc)) from rfl]
      rw [matchITag_ctag]
      simp
  | cons c w2 ih =>
    intro f acc s hf
    have hc : c ≠ '<' := hw c (by simp)
    cases f with
    | zero => simp at hf
    | succ f =>
      rw [show scanSplitF matchITag (Nat.succ f)
          ((c :: w2) ++ '<' :: '/' :: 'i' :: '>' :: s) acc
          = (match matchITag (c :: (w2 ++ '<' :: '/' :: 'i' :: '>' :: s)) with
             | some (g, rem) =>
               ((false, acc.reverse) ::
                 (match g with | some gp => [(true, gp)] | none => [])) ++
                   scanSplitF matchITag f rem []
             | none => scanSplitF matchITag f (w2 ++ '<' :: '/' :: 'i' :: '>' :: s)
                 (c :: acc)) from rfl]
      rw [matchITag_none_head c _ hc]
      obtain ⟨f2, hf2, heq⟩ := ih (fun x hx => hw x (by simp [hx])) f (c :: acc) s
        (by simp at hf ⊢; omega)
      refine ⟨f2, hf2, ?_⟩
      show scanSplitF matchITag f (w2 ++ '<' :: '/' :: 'i' :: '>' :: s) (c :: acc)
        = (false, acc.reverse ++ (c :: w2)) :: (true, '<' :: '/' :: 'i' :: '>' :: []) ::
            scanSplitF matchITag f2 s []
      rw [heq]
      simp

/-- The outside-emphasis walk preserves the italicised-piece grammar:
tags from earlier passes are skipped, emphasised words pass through,
and the substitution runs only on the markup-free runs outside. -/
theorem aoGo_wok (onlyQ : Bool) (p : TermPat) :
    ∀ (t : Str), WOk t → ∀ (f : Nat) (acc : Str), LtF acc → t.length ≤ f →
      WOk (aoGo onlyQ p (scanSplitF matchITag f t acc) false) := by
  intro t ht
  have hsingle : ∀ (u : Str), LtF u → WOk (aoGo onlyQ p [(false, u)] false) := by
    intro u hu
    rw [show aoGo onlyQ p [(false, u)] false
        = (if u = [] then []
           else (if onlyQ then applyInsideQuotes (doSub p) u none []
             else doSub p u) ++ ([] : Str)) from rfl]
    split
    · exact WOk.nil
    · rw [List.append_nil]
      split
      · exact applyInsideQuotes_wok p u none [] hu (by intro x hx; simp at hx)
      · exact doSub_wok p u hu
  induction ht with
  | nil =>
    intro f acc ha _
    have h1 : scanSplitF matchITag f [] acc = [(false, acc.reverse)] := by
      cases f <;> rfl
    rw [h1]
    exact hsingle acc.reverse (fun x hx => ha x (by rwa [List.mem_reverse] at hx))
  | ch c s hc _ ih =>
    intro f acc ha hf
    cases f with
    | zero => simp at hf
    | succ f =>
      rw [show scanSplitF matchITag (Nat.succ f) (c :: s) acc
          = (match matchITag (c :: s) with
             | some (g, rem) =>
               ((false, acc.reverse) ::
                 (match g with | some gp => [(true, gp)] | none => [])) ++
                   scanSplitF matchITag f rem []
             | none => scanSplitF matchITag f s (c :: acc)) from rfl]
      rw [matchITag_none_head c s hc]
      exact ih f (c :: acc)
        (fun x hx => by
          rcases List.mem_cons.mp hx with h | h
          · rw [h]; exact hc
          · exact ha x h)
        (by simp at hf; omega)
  | itag w s hw _ ih =>
    intro f acc ha hf
    cases f with
    | zero => simp at hf
    | succ f =>
      rw [show scanSplitF matchITag (Nat.succ f)
          ('<' :: 'i' :: '>' :: (w ++ '<' :: '/' :: 'i' :: '>' :: s)) acc
          = (match matchITag ('<' :: 'i' :: '>' :: (w ++ '<' :: '/' :: 'i' :: '>' :: s)) with
             | some (g, rem) =>
               ((false, acc.reverse) ::
                 (match g with | some gp => [(true, gp)] | none => [])) ++
                   scanSplitF matchITag f rem []
             | none => scanSplitF matchITag f
                 ('i' :: '>' :: (w ++ '<' :: '/' :: 'i' :: '>' :: s)) ('<' :: acc)) from rfl]
      rw [matchITag_itag]
      obtain ⟨f2, hf2, heq⟩ := scanSplitF_wrun w hw f [] s
        (by simp at hf ⊢; omega)
      show WOk (aoGo onlyQ p ((false, acc.reverse) :: (true, '<' :: 'i' :: '>' :: []) ::
        scanSplitF matchITag f (w ++ '<' :: '/' :: 'i' :: '>' :: s) []) false)
      rw [heq]
      have hrec := ih f2 [] (by intro x hx; simp at hx) hf2
      have hcore : WOk (aoGo onlyQ p ((true, '<' :: 'i' :: '>' :: []) ::
          (false, List.reverse ([] : Str) ++ w) :: (true, '<' :: '/' :: 'i' :: '>' :: []) ::
          scanSplitF matchITag f2 s []) false) := by
        rw [show aoGo onlyQ p ((true, '<' :: 'i' :: '>' :: []) ::
            (false, List.reverse ([] : Str) ++ w) :: (true, '<' :: '/' :: 'i' :: '>' :: []) ::
            scanSplitF matchITag f2 s []) false
            = '<' :: 'i' :: '>' :: aoGo onlyQ p
                ((false, w) :: (true, '<' :: '/' :: 'i' :: '>' :: []) ::
                  scanSplitF matchITag f2 s []) true from rfl]
        rw [show aoGo onlyQ p ((false, w) :: (true, '<' :: '/' :: 'i' :: '>' :: []) ::
            scanSplitF matchITag f2 s []) true
            = (if w = [] then
                aoGo onlyQ p ((true, '<' :: '/' :: 'i' :: '>' :: []) ::
                  scanSplitF matchITag f2 s []) true
              else w ++ aoGo onlyQ p ((true, '<' :: '/' :: 'i' :: '>' :: []) ::
                  scanSplitF matchITag f2 s []) true) from rfl]
        rw [show aoGo onlyQ p ((true, '<' :: '/' :: 'i' :: '>' :: []) ::
            scanSplitF matchITag f2 s []) true
            = '<' :: '/' :: 'i' :: '>' :: aoGo onlyQ p
                (scanSplitF matchITag f2 s []) false from rfl]
        split
        · exact WOk.itag [] _ (by intro x hx; simp at hx) hrec
        · exact WOk.itag w _ hw hrec
      rw [show aoGo onlyQ p ((false, acc.reverse) :: (true, '<' :: 'i' :: '>' :: []) ::
          (false, List.reverse ([] : Str) ++ w) :: (true, '<' :: '/' :: 'i' :: '>' :: []) ::
          scanSplitF matchITag f2 s []) false
          = (if acc.reverse = [] then
              aoGo onlyQ p ((true, '<' :: 'i' :: '>' :: []) ::
                (false, List.reverse ([] : Str) ++ w) :: (true, '<' :: '/' :: 'i' :: '>' :: []) ::
                scanSplitF matchITag f2 s []) false
            else (if onlyQ then applyInsideQuotes (doSub p) acc.reverse none []
              else doSub p acc.reverse) ++
                aoGo onlyQ p ((true, '<' :: 'i' :: '>' :: []) ::
                  (false, List.reverse ([] : Str) ++ w) :: (true, '<' :: '/' :: 'i' :: '>' :: []) ::
                  scanSplitF matchITag f2 s []) false) from rfl]
      split
      · exact hcore
      · refine WOk_app _ _ ?_ hcore
        have hacc : LtF acc.reverse := fun x hx => ha x (by rwa [List.mem_reverse] at hx)
        split
        · exact applyInsideQuotes_wok p acc.reverse none [] hacc (by intro x hx; simp at hx)
        · exact doSub_wok p acc.reverse hacc

/-- One italicisation pass preserves the italicised-piece grammar. -/
theorem applyOutsideI_wok (onlyQ : Bool) (p : TermPat) (t : Str) (ht : WOk t) :
    WOk (applyOutsideI onlyQ p t) := by
  unfold applyOutsideI
  exact aoGo_wok onlyQ p t ht t.length [] (by intro x hx; simp at hx) le_rfl

/-- The whole term fold preserves the italicised-piece grammar. -/
theorem termsFoldl_wok (art : Option Str) (l : List (Str × Bool)) :
    ∀ (x : Str), WOk x →
      WOk (l.foldl (fun tp t =>
        if t.1 = [] then tp
        else applyOutsideI (art = some (sl "att"))
          (termPatOf art t.1 t.2) tp) x) := by
  induction l with
  | nil => intro x hx; exact hx
  | cons t rest ih =>
    intro x hx
    rw [List.foldl_cons]
    refine ih _ ?_
    split
    · exact hx
    · exact applyOutsideI_wok _ _ x hx

/-- The per-part term loop produces an italicised piece from a
markup-free part, for any number of headword candidates. -/
theorem applyTermsTo_wok (ctx : ItalicCtx) (piece : Str) (hp : LtF piece) :
    WOk (applyTermsTo ctx piece) := by
  unfold applyTermsTo
  exact termsFoldl_wok ctx.article ctx.terms piece (WOk_of_LtF piece hp)

/-- The per-part term loop produces a nesting-free text from a
markup-free part. -/
theorem applyTermsTo_gok (ctx : ItalicCtx)
    (piece : Str) (hp : LtF piece) (r : Str) (hr : GOk r) :
    GOk (applyTermsTo ctx piece ++ r) :=
  GOk_wok_app _ (applyTermsTo_wok ctx piece hp) r hr

/-- A lone plain piece through the tag-walk worker. -/
theorem itGo_single (ctx : ItalicCtx)
    (u r : Str) (hu : LtF u) (hr : GOk r) :
    GOk (itGo ctx [(false, u)] false ++ r) := by
  rw [show itGo ctx [(false, u)] false
      = (if u = [] then [] else applyTermsTo ctx u ++ ([] : Str)) from rfl]
  split
  · exact hr
  · rw [List.append_nil]
    exact applyTermsTo_gok ctx u hu r hr

/-- The tag-walk worker over a pre-italic text produces a nesting-free
text. -/
theorem itGo_scan_gok (ctx : ItalicCtx) :
    ∀ (t : Str), BrS t → ∀ (f : Nat) (acc r : Str), LtF acc → GOk r →
      GOk (itGo ctx (scanSplitF matchTag f t acc) false ++ r) := by
  intro t ht
  induction ht with
  | nil =>
    intro f acc r ha hr
    have h1 : scanSplitF matchTag f [] acc = [(false, acc.reverse)] := by
      cases f <;> rfl
    rw [h1]
    exact itGo_single ctx acc.reverse r
      (fun x hx => ha x (by rwa [List.mem_reverse] at hx)) hr
  | ch c s hc _ ih =>
    intro f acc r ha hr
    cases f with
    | zero =>
      rw [show scanSplitF matchTag 0 (c :: s) acc = [(false, acc.reverse)] from rfl]
      exact itGo_single ctx acc.reverse r
        (fun x hx => ha x (by rwa [List.mem_reverse] at hx)) hr
    | succ f =>
      rw [show scanSplitF matchTag (Nat.succ f) (c :: s) acc
          = (match matchTag (c :: s) with
             | some (g, rem) =>
               (false, acc.reverse) ::
                 (match g with | some gp => [(true, gp)] | none => []) ++
                   scanSplitF matchTag f rem []
             | none => scanSplitF matchTag f s (c :: acc)) from rfl]
      rw [matchTag_none_head c s hc]
      exact ih f (c :: acc) r
        (fun x hx => by
          rcases List.mem_cons.mp hx with h | h
          · rw [h]; exact hc
          · exact ha x h) hr
  | br s _ ih =>
    intro f acc r ha hr
    cases f with
    | zero =>
      rw [show scanSplitF matchTag 0 ('<' :: 'b' :: 'r' :: '>' :: s) acc
          = [(false, acc.reverse)] from rfl]
      exact itGo_single ctx acc.reverse r
        (fun x hx => ha x (by rwa [List.mem_reverse] at hx)) hr
    | succ f =>
      have hstep : scanSplitF matchTag (Nat.succ f) ('<' :: 'b' :: 'r' :: '>' :: s) acc
          = (false, acc.reverse) :: (true, '<' :: 'b' :: 'r' :: '>' :: []) ::
              scanSplitF matchTag f s [] := by
        rw [show scanSplitF matchTag (Nat.succ f) ('<' :: 'b' :: 'r' :: '>' :: s) acc
            = (match matchTag ('<' :: 'b' :: 'r' :: '>' :: s) with
               | some (g, rem) =>
                 (false, acc.reverse) ::
                   (match g with | some gp => [(true, gp)] | none => []) ++
                     scanSplitF matchTag f rem []
               | none => scanSplitF matchTag f ('b' :: 'r' :: '>' :: s) ('<' :: acc)) from rfl]
        rw [matchTag_br]
        rfl
      rw [hstep]
      rw [show itGo ctx ((false, acc.reverse) :: (true, '<' :: 'b' :: 'r' :: '>' :: []) ::
            scanSplitF matchTag f s []) false
          = (if acc.reverse = [] then
              '<' :: 'b' :: 'r' :: '>' :: itGo ctx (scanSplitF matchTag f s []) false
             else applyTermsTo ctx acc.reverse ++
              ('<' :: 'b' :: 'r' :: '>' :: itGo ctx (scanSplitF matchTag f s []) false)) from rfl]
      split
      · exact GOk_br _ (ih f [] r (by intro x hx; simp at hx) hr)
      · simp only [List.append_assoc]
        exact applyTermsTo_gok ctx acc.reverse
          (fun x hx => ha x (by rwa [List.mem_reverse] at hx)) _
          (GOk_br _ (ih f [] r (by intro x hx; simp at hx) hr))

/-- The headword italiciser on a pre-italic text produces a
nesting-free text. -/
theorem italicize_gok (ctx : ItalicCtx)
    (t r : Str) (ht : BrS t) (hr : GOk r) :
    GOk (italicizeCurrentTerms ctx t ++ r) := by
  unfold italicizeCurrentTerms
  split
  · exact GOk_brs_app t ht r hr
  · exact itGo_scan_gok ctx t ht t.length [] r (by intro x hx; simp at hx) hr

/-- A pre-italic text never starts with a span tag. -/
theorem brs_span_false (E : Str) (h : BrS E) :
    startsWithL (sl "<span") E = false := by
  rw [show sl "<span" = '<' :: 's' :: 'p' :: 'a' :: 'n' :: [] from rfl]
  cases h with
  | nil => rfl
  | ch c s hc _ => exact sw_head_false '<' _ c s (fun he => hc he.symm)
  | br s _ => simp [startsWithL]

/-- Definition-role lines pass through colour styling unchanged. -/
theorem acs_false (ctx : ItalicCtx) (line : Str) :
    applyColorStyling ctx line false = line := rfl

/-- Colour styling of an example-role pre-italic line: normalised,
italicised, wrapped in the gray span. -/
theorem acs_true_brs (ctx : ItalicCtx) (line : Str) (h : BrS line) :
    applyColorStyling ctx line true
      = wrapGraySpan (italicizeCurrentTerms ctx
          (normalizeQuotedExampleLines line)) := by
  unfold applyColorStyling
  rw [brs_span_false line h]
  rfl

/-- The closing span tag prepends to any grammar string. -/
theorem GOk_spanClose (r : Str) (hr : GOk r) : GOk (sl "</span>" ++ r) := by
  rw [show sl "</span>" = '<' :: ('/' :: 's' :: 'p' :: 'a' :: 'n' :: '>' :: []) from rfl,
    List.cons_append]
  refine GOk.lt _ ?_ (GOk_ltf_app _ (by decide) r hr)
  unfold ltSafe
  rw [show sl "i>" = 'i' :: '>' :: [] from rfl,
    show sl "/i>" = '/' :: 'i' :: '>' :: [] from rfl]
  simp [startsWithL, List.cons_append]

/-- The gray wrapping of an italicised pre-italic line is
nesting-free. -/
theorem graywrap_gok (ctx : ItalicCtx)
    (y r : Str) (hy : BrS y) (hr : GOk r) :
    GOk (wrapGraySpan (italicizeCurrentTerms ctx
      (normalizeQuotedExampleLines y)) ++ r) := by
  unfold wrapGraySpan
  simp only [List.append_assoc]
  have hital : GOk (italicizeCurrentTerms ctx (normalizeQuotedExampleLines y)
      ++ (sl "</span>" ++ r)) :=
    italicize_gok ctx _ _ (nQEL_brs y hy) (GOk_spanClose r hr)
  rw [show sl "<span style=\"color: rgb(194, 194, 194)\">"
      = '<' :: sl "span style=\"color: rgb(194, 194, 194)\">" from rfl,
    List.cons_append]
  refine GOk.lt _ ?_ (GOk_ltf_app _ (by decide) _ hital)
  exact ltSafe_of_head 's' _ (by decide) (by decide)

/-- Markup-free trimming. -/
theorem LtF_trim (s : Str) (h : LtF s) : LtF (trim s) :=
  LtF_sub s _ (fun c hc => trim_subset s c hc) h

/-- Line classification and styling of a markup-free line is
nesting-free. -/
theorem processLine_gok (ctx : ItalicCtx)
    (line : Str) (hl : LtF line) (b : Bool) (r : Str) (hr : GOk r) :
    GOk (processLine ctx line b ++ r) := by
  unfold processLine
  dsimp only
  split
  · rw [acs_true_brs ctx line (BrS_of_LtF line hl)]
    exact graywrap_gok ctx line r (BrS_of_LtF line hl) hr
  · split
    · rw [acs_true_brs ctx _ (nQEL_brs line (BrS_of_LtF line hl))]
      exact graywrap_gok ctx _ r (nQEL_brs line (BrS_of_LtF line hl)) hr
    · have hmu : LtF (removeWrappingParens line) :=
        LtF_sub line _ (fun c hc => rwp_sub line c hc) hl
      split
      · rw [acs_true_brs ctx _ (nQEL_brs _ (BrS_of_LtF _ hmu))]
        exact graywrap_gok ctx _ r (nQEL_brs _ (BrS_of_LtF _ hmu)) hr
      · split
        · rw [acs_true_brs ctx line (BrS_of_LtF line hl)]
          exact graywrap_gok ctx line r (BrS_of_LtF line hl) hr
        · rw [acs_false]
          exact GOk_ltf_app line hl r hr

/-- The group of `quoteAfterParen` stays markup-free. -/
theorem quoteAfterParen_ltf (x g : Str) (hx : LtF x)
    (h : quoteAfterParen x = some g) : LtF g := by
  unfold quoteAfterParen at h
  dsimp only at h
  have hrest : LtF (x.dropWhile isSpaceC) :=
    LtF_sub x _ (fun c hc =>
      (List.dropWhile_sublist (l := x) (p := isSpaceC)).subset hc) hx
  have hsp : LtF (x.takeWhile isSpaceC) :=
    LtF_sub x _ (fun c hc =>
      (List.takeWhile_sublist (l := x) (p := isSpaceC)).subset hc) hx
  have htab : ∀ after rest2 : Str, LtF rest2 →
      (∀ c ∈ after, c ∈ x.takeWhile isSpaceC) →
      LtF ('\t' :: after.reverse ++ rest2) := by
    intro after rest2 hr2 hsub c hc
    rcases List.mem_cons.mp (by
        rw [List.cons_append] at hc; exact hc) with h1 | h1
    · rw [h1]; decide
    · rcases List.mem_append.mp h1 with h2 | h2
      · exact hsp c (hsub c (by rwa [List.mem_reverse] at h2))
      · exact hr2 c h2
  split at h
  · split at h
    · injection h with h
      rw [← h]
      exact hrest
    · split at h
      · rename_i after rest2 heq2
        injection h with h
        rw [← h]
        refine htab _ _ hrest ?_
        intro c hc
        have h3 := (List.takeWhile_sublist
            (l := (x.takeWhile isSpaceC).reverse)
            (p := fun x => decide (x ≠ '\t'))).subset hc
        rwa [List.mem_reverse] at h3
      · exact absurd h (by simp)
  · split at h
    · rename_i after rest2 heq2
      injection h with h
      rw [← h]
      have := htab (List.takeWhile (fun x => decide (x ≠ '\t'))
          ((x.takeWhile isSpaceC).reverse)) [] (by intro c hc; simp at hc) ?_
      · intro c hc
        rw [List.append_nil] at this
        exact this c (by simpa using hc)
      · intro c hc
        have h3 := (List.takeWhile_sublist
            (l := (x.takeWhile isSpaceC).reverse)
            (p := fun x => decide (x ≠ '\t'))).subset hc
        rwa [List.mem_reverse] at h3
    · exact absurd h (by simp)

/-- The groups of the definition-with-quote match stay markup-free. -/
theorem mdqTry_ltf (line : Str) (hl : LtF line) :
    ∀ (idxs : List Nat) (g1 g2 : Str), mdqTry line idxs = some (g1, g2) →
      LtF g1 ∧ LtF g2 := by
  intro idxs
  induction idxs with
  | nil => intro g1 g2 h; simp [mdqTry] at h
  | cons i is ih =>
    intro g1 g2 h
    unfold mdqTry at h
    split at h
    · rename_i g2' heq
      simp only [Option.some.injEq, Prod.mk.injEq] at h
      obtain ⟨h1, h2⟩ := h
      constructor
      · rw [← h1]
        exact LtF_sub line _ (fun c hc => List.mem_of_mem_take hc) hl
      · rw [← h2]
        exact quoteAfterParen_ltf _ _
          (LtF_sub line _ (fun c hc => List.mem_of_mem_drop hc) hl) heq
    · exact ih g1 g2 h

/-- The groups of `matchDefQuote` stay markup-free. -/
theorem matchDefQuote_ltf (line g1 g2 : Str) (hl : LtF line)
    (h : matchDefQuote line = some (g1, g2)) : LtF g1 ∧ LtF g2 := by
  unfold matchDefQuote at h
  split at h
  · exact absurd h (by simp)
  · exact mdqTry_ltf line hl _ g1 g2 h

/-- The close-search of the `t.ex.` line match stays markup-free. -/
theorem m2FindClose_ltf :
    ∀ (s acc g : Str), LtF acc → LtF s → m2FindClose acc s = some g → LtF g := by
  intro s
  induction s with
  | nil => intro acc g _ _ h; simp [m2FindClose] at h
  | cons c cs ih =>
    intro acc g ha hs h
    unfold m2FindClose at h
    split at h
    · injection h with h
      rw [← h]
      intro x hx
      rw [List.mem_reverse] at hx
      exact ha x hx
    · split at h
      · exact absurd h (by simp)
      · exact ih (c :: acc) g
          (by
            intro x hx
            rcases List.mem_cons.mp hx with h1 | h1
            · rw [h1]; exact hs c (by simp)
            · exact ha x h1)
          (fun x hx => hs x (by simp [hx])) h

/-- The groups of the `t.ex.` line match stay markup-free. -/
theorem m2go_ltf :
    ∀ (s pre g1 g2 : Str), LtF pre → LtF s → m2go pre s = some (g1, g2) →
      LtF g1 ∧ LtF g2 := by
  intro s
  induction s with
  | nil => intro pre g1 g2 _ _ h; simp [m2go] at h
  | cons c cs ih =>
    intro pre g1 g2 hp hs h
    have hcs : LtF cs := fun x hx => hs x (by simp [hx])
    have hcp : LtF (c :: pre) := by
      intro x hx
      rcases List.mem_cons.mp hx with h1 | h1
      · rw [h1]; exact hs c (by simp)
      · exact hp x h1
    unfold m2go at h
    split at h
    · split at h
      · rename_i r2 heq
        split at h
        · rename_i g2' heq2
          simp only [Option.some.injEq, Prod.mk.injEq] at h
          obtain ⟨h1, h2⟩ := h
          have hr2 : LtF r2 := by
            intro x hx
            have h3 := eatCI_mem _ _ _ heq x hx
            exact hcs x ((List.dropWhile_sublist (l := cs) (p := isSpaceC)).subset h3)
          constructor
          · rw [← h1]
            intro x hx
            rw [List.mem_reverse] at hx
            exact hp x hx
          · rw [← h2]
            exact m2FindClose_ltf _ [] g2' (by intro x hx; simp at hx)
              (LtF_sub r2 _ (fun x hx =>
                (List.dropWhile_sublist (l := r2) (p := isSpaceC)).subset hx) hr2)
              heq2
        · exact ih (c :: pre) g1 g2 hcp hcs h
      · exact ih (c :: pre) g1 g2 hcp hcs h
    · split at h
      · exact absurd h (by simp)
      · exact ih (c :: pre) g1 g2 hcp hcs h

/-- The groups of the whole-line `t.ex.` match stay markup-free. -/
theorem matchM2_ltf (line g1 g2 : Str) (hl : LtF line)
    (h : matchM2 line = some (g1, g2)) : LtF g1 ∧ LtF g2 :=
  m2go_ltf _ [] g1 g2 (by intro x hx; simp at hx)
    (LtF_sub line _ (fun x hx =>
      (List.dropWhile_sublist (l := line) (p := isSpaceC)).subset hx) hl) h

/-- The `t.ex.`-quote substitution replaces with a bare quote. -/
theorem matchTexQuote_out (s o : Str) (k : Nat)
    (h : matchTexQuote s = some (o, k)) : o = '"' :: [] := by
  unfold matchTexQuote at h
  split at h
  · exact absurd h (by simp)
  · dsimp only at h
    split at h
    · simp only [Option.some.injEq, Prod.mk.injEq] at h
      rw [← h.1]
      rfl
    · exact absurd h (by simp)

/-- Dropping a final parenthesis stays markup-free. -/
theorem subCloseParenEnd_ltf (s : Str) (h : LtF s) : LtF (subCloseParenEnd s) := by
  unfold subCloseParenEnd
  split
  · exact LtF_sub s _ (fun c hc => List.mem_of_mem_take hc) h
  · exact h

/-- The characters of a `(t.ex. "…")` split match come from the
input. -/
theorem matchTexParen_mem (P : Char → Prop) (s : Str) (g : Option Str) (rem : Str)
    (h : matchTexParen s = some (g, rem)) (hs : ∀ c ∈ s, P c) :
    (∀ c ∈ rem, P c) ∧ ∀ gp, g = some gp → ∀ c ∈ gp, P c := by
  unfold matchTexParen at h
  split at h
  · exact absurd h (by simp)
  · rename_i r heq
    have hr : ∀ c ∈ r, P c := fun c hc => hs c (eatCI_mem _ _ _ heq c hc)
    split at h
    · rename_i r2 heq2
      have hr2 : ∀ c ∈ r2, P c := by
        intro c hc
        have h2 : c ∈ r.dropWhile isSpaceC := by
          rw [heq2]; exact List.mem_cons_of_mem '"' hc
        exact hr c ((List.dropWhile_sublist (l := r) (p := isSpaceC)).subset h2)
      dsimp only at h
      split at h
      · rename_i tail heq3
        simp only [Option.some.injEq, Prod.mk.injEq] at h
        constructor
        · intro c hc
          rw [← h.2] at hc
          have h3 : c ∈ r2.dropWhile (fun c => decide (c ≠ '"')) := by
            rw [heq3]; simp [hc]
          exact hr2 c ((List.dropWhile_sublist (l := r2)
              (p := fun c => decide (c ≠ '"'))).subset h3)
        · intro gp hgp c hc
          rw [← h.1] at hgp
          injection hgp with hgp
          rw [← hgp] at hc
          exact hr2 c ((List.takeWhile_sublist (l := r2)
              (p := fun c => decide (c ≠ '"'))).subset hc)
      · exact absurd h (by simp)
    · exact absurd h (by simp)

/-- Markup-freeness of right-stripping. -/
theorem LtF_trimR (s : Str) (h : LtF s) : LtF (trimR s) :=
  LtF_sub s _ (fun c hc => trimR_sub s c hc) h

/-- Markup-freeness of left-stripping. -/
theorem LtF_trimL (s : Str) (h : LtF s) : LtF (trimL s) :=
  LtF_sub s _ (fun c hc => trimL_sub s c hc) h

/-- Every piece the `t.ex.`-and-quote branches emit is nesting-free. -/
theorem pcosStepTex_gok (ctx : ItalicCtx)
    (isMain : Bool) (line : Str) (hl : LtF line) :
    ∀ o ∈ (pcosStepTex ctx isMain line []).1, ∀ r, GOk r → GOk (o ++ r) := by
  intro o ho r hr
  unfold pcosStepTex at ho
  dsimp only at ho
  split at ho
  · split at ho
    · rename_i b0 p0 b1 g1cap restParts heq
      have hpieces : ∀ pr ∈ scanSplit matchTexParen line [], LtF pr.2 :=
        fun pr hpr => scanSplitF_mem matchTexParen (fun c => c ≠ '<')
          (matchTexParen_mem (fun c => c ≠ '<')) line.length line []
          hl (by intro c hc; simp at hc) pr hpr
      have hp0 : LtF p0 := hpieces (b0, p0) (by rw [heq]; simp)
      have hg1 : LtF g1cap := hpieces (b1, g1cap) (by rw [heq]; simp)
      have hex : LtF ('"' :: g1cap ++ '"' :: []) := by
        intro c hc
        rcases List.mem_cons.mp (by rw [List.cons_append] at hc; exact hc) with h1 | h1
        · rw [h1]; decide
        · rcases List.mem_append.mp h1 with h2 | h2
          · exact hg1 c h2
          · simp at h2; rw [h2]; decide
      split at ho
      · rename_i hcond
        exact absurd hcond (by simp)
      · rcases List.mem_append.mp ho with h1 | h1
        · rcases List.mem_append.mp h1 with h2 | h2
          · split at h2
            · simp only [List.mem_singleton] at h2
              rw [h2, acs_false]
              exact GOk_ltf_app _ (LtF_trim p0 hp0) r hr
            · simp at h2
          · simp only [List.mem_singleton] at h2
            rw [h2, acs_true_brs ctx _ (BrS_of_LtF _ hex)]
            exact graywrap_gok ctx _ r (BrS_of_LtF _ hex) hr
        · split at h1
          · rename_i rp0 fstb p2 tail2
            have hp2 : LtF p2 := by
              refine hpieces (fstb, p2) ?_
              rw [heq]
              simp
            split at h1
            · simp only [List.mem_singleton] at h1
              rw [h1, acs_true_brs ctx _ (BrS_of_LtF _ (LtF_trim p2 hp2))]
              exact graywrap_gok ctx _ r (BrS_of_LtF _ (LtF_trim p2 hp2)) hr
            · simp at h1
          · simp at h1
    · split at ho
      · rename_i g1 g2 heq
        obtain ⟨hg1, hg2⟩ := matchM2_ltf line g1 g2 hl heq
        split at ho
        · rename_i hcond
          exact absurd hcond (by simp)
        · rcases List.mem_append.mp ho with h1 | h1
          · split at h1
            · simp only [List.mem_singleton] at h1
              rw [h1, acs_false]
              exact GOk_ltf_app _ (LtF_trim g1 hg1) r hr
            · simp at h1
          · simp only [List.mem_singleton] at h1
            rw [h1, acs_true_brs ctx _ (BrS_of_LtF _ (LtF_trim g2 hg2))]
            exact graywrap_gok ctx _ r (BrS_of_LtF _ (LtF_trim g2 hg2)) hr
      · simp only [List.mem_singleton] at ho
        have hline2 : LtF (subCloseParenEnd (scanSub matchTexQuote line)) := by
          refine subCloseParenEnd_ltf _ ?_
          intro c hc
          refine scanSubF_mem matchTexQuote (fun x => x ≠ '<')
            (by
              intro t o2 k hmk x hx
              rw [matchTexQuote_out t o2 k hmk] at hx
              simp at hx
              rw [hx]
              decide)
            line.length line hl c hc
        rw [ho]
        exact processLine_gok ctx _ hline2 isMain r hr
  · split at ho
    · simp only [List.mem_singleton] at ho
      rw [ho, acs_true_brs ctx _ (BrS_of_LtF _ (LtF_trim _
        (LtF_sub line _ (fun c hc => List.mem_of_mem_drop hc) hl)))]
      exact graywrap_gok ctx _ r (BrS_of_LtF _ (LtF_trim _
        (LtF_sub line _ (fun c hc => List.mem_of_mem_drop hc) hl))) hr
    · split at ho
      · simp only [List.mem_singleton] at ho
        rw [ho, acs_true_brs ctx _ (BrS_of_LtF _ (LtF_trim _
          (LtF_sub line _ (fun c hc => List.mem_of_mem_drop hc) hl)))]
        exact graywrap_gok ctx _ r (BrS_of_LtF _ (LtF_trim _
          (LtF_sub line _ (fun c hc => List.mem_of_mem_drop hc) hl))) hr
      · split at ho
        · split at ho
          · rename_i hcond
            exact absurd hcond (by simp)
          · simp only [List.mem_singleton] at ho
            rw [ho]
            exact processLine_gok ctx line hl isMain r hr
        · simp only [List.mem_singleton] at ho
          rw [ho]
          exact processLine_gok ctx line hl isMain r hr

/-- The bracket-trimming chain over the example group stays
markup-free. -/
theorem exTrims_ltf (e0 : Str) (h0 : LtF e0) :
    LtF (if endsWithL (sl ")") (trimR (if startsWithL (sl "(") e0 then
        trimL (e0.drop 1) else e0))
      then trimR ((trimR (if startsWithL (sl "(") e0 then
          trimL (e0.drop 1) else e0)).take
        ((trimR (if startsWithL (sl "(") e0 then
          trimL (e0.drop 1) else e0)).length - 1))
      else (if startsWithL (sl "(") e0 then trimL (e0.drop 1) else e0)) := by
  have h1 : LtF (if startsWithL (sl "(") e0 then trimL (e0.drop 1) else e0) := by
    split
    · exact LtF_trimL _ (LtF_sub _ _ (fun c hc => List.mem_of_mem_drop hc) h0)
    · exact h0
  generalize hE : (if startsWithL (sl "(") e0 then trimL (e0.drop 1) else e0) = e1 at h1 ⊢
  split
  · exact LtF_trimR _ (LtF_sub _ _ (fun c hc => List.mem_of_mem_take hc)
      (LtF_trimR _ h1))
  · exact h1

/-- Every piece one loop step of the outside-span processing emits is
nesting-free. -/
theorem pcosStep_gok (ctx : ItalicCtx)
    (isMain : Bool) (line : Str) (hl : LtF line) :
    ∀ o ∈ (pcosStep ctx isMain line []).1, ∀ r, GOk r → GOk (o ++ r) := by
  intro o ho r hr
  unfold pcosStep at ho
  split at ho
  · rename_i g1 g2 heq
    obtain ⟨hg1, hg2⟩ := matchDefQuote_ltf line g1 g2 hl heq
    dsimp only [collectQuoteLines] at ho
    split at ho
    · have hex0 : LtF (trim (List.intercalate (sl "<br>") (trim g2 :: []))) := by
        rw [show List.intercalate (sl "<br>") (trim g2 :: []) = trim g2 ++ [] from rfl]
        exact LtF_trim _ (LtF_app _ [] (LtF_trim g2 hg2) (by intro c hc; simp at hc))
      have hex2 := exTrims_ltf _ hex0
      rcases List.mem_cons.mp ho with h1 | h1
      · rw [h1, acs_false]
        exact GOk_ltf_app _ (LtF_trimR g1 hg1) r hr
      · rcases List.mem_cons.mp h1 with h2 | h2
        · rw [h2, acs_true_brs ctx _ (nQEL_brs _ (BrS_of_LtF _ hex2))]
          exact graywrap_gok ctx _ r (nQEL_brs _ (BrS_of_LtF _ hex2)) hr
        · simp at h2
    · exact pcosStepTex_gok ctx isMain line hl o ho r hr
  · exact pcosStepTex_gok ctx isMain line hl o ho r hr

/-- Joining nesting-free pieces with `<br>` stays nesting-free. -/
theorem GOk_intercalate (l : List Str)
    (hl : ∀ o ∈ l, ∀ r, GOk r → GOk (o ++ r)) :
    GOk (List.intercalate (sl "<br>") l) := by
  induction l with
  | nil => exact GOk.nil
  | cons a l ih =>
    cases l with
    | nil =>
      rw [show List.intercalate (sl "<br>") [a] = a ++ [] from rfl]
      exact hl a (by simp) [] GOk.nil
    | cons b l2 =>
      rw [show List.intercalate (sl "<br>") (a :: b :: l2)
          = a ++ sl "<br>" ++ List.intercalate (sl "<br>") (b :: l2) by
        simp [List.intercalate, List.intersperse]]
      rw [List.append_assoc]
      refine hl a (by simp) _ ?_
      rw [show sl "<br>" = '<' :: 'b' :: 'r' :: '>' :: [] from rfl, List.cons_append,
        List.cons_append, List.cons_append, List.cons_append, List.nil_append]
      exact GOk_br _ (ih (fun o hop => hl o (by simp [hop])))

/-- The outside-span processing of a markup-free text is
nesting-free. -/
theorem pcos_gok (ctx : ItalicCtx)
    (d : Str) (hd : LtF d) (isMain : Bool) :
    GOk (processContentOutsideSpans ctx d isMain) := by
  unfold processContentOutsideSpans
  refine GOk_intercalate _ ?_
  intro o ho r hr
  rw [splitOnSub_ltf d hd] at ho
  unfold pcosGo at ho
  rw [show pcosGoF ctx isMain ([d] : List Str).length [d]
      = (if trim d = [] then
          trim d :: pcosGoF ctx isMain 0 []
        else (pcosStep ctx isMain (trim d) []).1
          ++ pcosGoF ctx isMain 0 (([] : List Str).drop
              (pcosStep ctx isMain (trim d) []).2)) from rfl] at ho
  split at ho
  · rename_i h0
    rw [show pcosGoF ctx isMain 0 ([] : List Str) = [] from rfl] at ho
    simp only [List.mem_singleton] at ho
    rw [ho, h0]
    exact hr
  · rw [List.drop_nil] at ho
    rw [show pcosGoF ctx isMain 0 ([] : List Str) = [] from rfl,
      List.append_nil] at ho
    exact pcosStep_gok ctx isMain (trim d) (LtF_trim d hd) o ho r hr

/-- A case-insensitive `<`-headed pattern never consumes from a
markup-free text. -/
theorem eatCI_ltpat_none (ps s : Str) (hs : LtF s) :
    eatCI ('<' :: ps) s = none := by
  cases s with
  | nil => rfl
  | cons c cs =>
    rw [show eatCI ('<' :: ps) (c :: cs)
        = (if ciEq '<' c then eatCI ps cs else none) from rfl]
    rw [ciEq_lt_false c (hs c (by simp))]
    rfl

/-- The span-style matcher never fires on markup-free text. -/
theorem matchSpanStyle_none_ltf (q : Char) (s : Str) (hs : LtF s) :
    matchSpanStyle q s = none := by
  unfold matchSpanStyle
  rw [show sl "<span" = '<' :: sl "span" from rfl]
  rw [eatCI_ltpat_none _ s hs]

/-- Gray-span normalisation of markup-free text changes nothing. -/
theorem nGSS_id_ltf (s : Str) (hs : LtF s) : normalizeGraySpanStyles s = s := by
  unfold normalizeGraySpanStyles
  rw [scanSub_id _ s (fun n => matchSpanStyle_none_ltf '"' _
    (LtF_sub s _ (fun c hc => List.mem_of_mem_drop hc) hs))]
  exact scanSub_id _ s (fun n => matchSpanStyle_none_ltf '\'' _
    (LtF_sub s _ (fun c hc => List.mem_of_mem_drop hc) hs))

/-- The in-span `t.ex.` substitution never fires on markup-free
text. -/
theorem matchTexInSpan_none_ltf (s : Str) (hs : LtF s) :
    matchTexInSpan s = none := by
  unfold matchTexInSpan
  rw [show sl "<span" = '<' :: sl "span" from rfl]
  rw [eatCI_ltpat_none _ s hs]

/-- The span-token splitter never fires on markup-free text. -/
theorem matchSpanToken_none_ltf (s : Str) (hs : LtF s) :
    matchSpanToken s = none := by
  unfold matchSpanToken
  rw [show sl "<span" = '<' :: sl "span" from rfl]
  rw [eatCI_ltpat_none _ s hs]

/-- Cleaning a markup-free definition yields a nesting-free text. -/
theorem cleanDefinition_gok (ctx : ItalicCtx)
    (d : Str) (hd : LtF d) (isMain : Bool) :
    GOk (cleanDefinition ctx d isMain) := by
  unfold cleanDefinition
  dsimp only
  rw [nGSS_id_ltf d hd]
  rw [scanSub_id _ d (fun n => matchTexInSpan_none_ltf _
    (LtF_sub d _ (fun c hc => List.mem_of_mem_drop hc) hd))]
  rw [nGSS_id_ltf d hd]
  have h1 : scanSplit matchSpanToken d [] = [(false, d)] := by
    unfold scanSplit
    rw [scanSplitF_one matchSpanToken d.length d [] le_rfl
      (fun n => matchSpanToken_none_ltf _
        (LtF_sub d _ (fun c hc => List.mem_of_mem_drop hc) hd))]
    rfl
  rw [h1]
  rw [show cdGo ctx isMain [(false, d)] []
      = (if d = [] then cdGo ctx isMain [] []
         else cdGo ctx isMain []
           ([] ++ processContentOutsideSpans ctx d isMain)) from rfl]
  split
  · exact GOk.nil
  · rw [show cdGo ctx isMain []
        ([] ++ processContentOutsideSpans ctx d isMain)
        = [] ++ processContentOutsideSpans ctx d isMain from rfl,
      List.nil_append]
    exact pcos_gok ctx d hd isMain

/-- The numbered-break splitter never fires on markup-free text. -/
theorem matchNumBreak_none_ltf (s : Str) (hs : LtF s) :
    matchNumBreak s = none := by
  unfold matchNumBreak
  rw [show sl "<br><br>" = '<' :: sl "br><br>" from rfl]
  cases s with
  | nil => rfl
  | cons c cs =>
    rw [eatL_none_head '<' _ c cs (fun he => hs c (by simp) he.symm)]

/-- The legacy `Or,` splitter never fires on markup-free text. -/
theorem matchOrSep_none_ltf (s : Str) (hs : LtF s) :
    matchOrSep s = none := by
  unfold matchOrSep
  rw [show sl "<br>" = '<' :: sl "br>" from rfl]
  rw [eatCI_ltpat_none _ s hs]

/-- Segment extraction of a markup-free back field yields the single
stripped definition. -/
theorem extractDefinitions_ltf (b : Str) (hb : LtF b) :
    extractDefinitions b = [trim b] := by
  unfold extractDefinitions
  dsimp only
  have h1 : scanSplit matchNumBreak b [] = [(false, b)] := by
    unfold scanSplit
    rw [scanSplitF_one matchNumBreak b.length b [] le_rfl
      (fun n => matchNumBreak_none_ltf _
        (LtF_sub b _ (fun c hc => List.mem_of_mem_drop hc) hb))]
    rfl
  have h2 : scanSplit matchOrSep b [] = [(false, b)] := by
    unfold scanSplit
    rw [scanSplitF_one matchOrSep b.length b [] le_rfl
      (fun n => matchOrSep_none_ltf _
        (LtF_sub b _ (fun c hc => List.mem_of_mem_drop hc) hb))]
    rfl
  rw [h1, h2]
  rfl

/-- The first component of `clean_card` on markup-free fields. -/
theorem cleanCard_fst_ltf (front back : Str) (hb : LtF (normalizeField back)) :
    (cleanCard front back).1 = normalizeField front := by
  unfold cleanCard
  dsimp only
  rw [extractDefinitions_ltf _ hb]
  rfl

/-- The back component of `clean_card` on markup-free fields. -/
theorem cleanCard_back_ltf (front back : Str) (hb : LtF (normalizeField back)) :
    (cleanCard front back).2.1
      = cleanDefinition (setItalicTermsFromFront (normalizeField front))
          (trim (normalizeField back)) true := by
  unfold cleanCard
  dsimp only
  rw [extractDefinitions_ltf _ hb]
  rw [show (List.enum [trim (normalizeField back)]).map (fun p =>
      cleanDefinition (setItalicTermsFromFront (normalizeField front)) p.2 (p.1 = 0))
    = [cleanDefinition (setItalicTermsFromFront (normalizeField front))
        (trim (normalizeField back)) true] from rfl]
  split
  · rename_i hlt
    simp at hlt
  · rfl

/-- A markup-free text passes the nested-emphasis scan. -/
theorem hasNestedI_ltf (s : Str) (hs : LtF s) : hasNestedI s = false := by
  unfold hasNestedI
  rw [← List.append_nil s, hGo_run s hs [] false]
  rfl

/-- C6, amended: on a card whose decoded fields contain no markup at
all (no `<` character after entity decoding and whitespace
replacement), neither output field of `clean_card` contains an emphasis open tag
inside an already-open emphasis region: the emphasis pairs the
italiciser inserts are always balanced and never nested. -/
theorem C6_amended_no_nested_emphasis_on_plain_input (front back : Str)
    (hf : LtF (normalizeField front)) (hb : LtF (normalizeField back)) :
    hasNestedI (cleanCard front back).1 = false ∧
    hasNestedI (cleanCard front back).2.1 = false := by
  constructor
  · rw [cleanCard_fst_ltf front back hb]
    exact hasNestedI_ltf _ hf
  · rw [cleanCard_back_ltf front back hb]
    exact GOk_scan _ (cleanDefinition_gok _ _ (LtF_trim _ hb) true)

/-- Witness for the amended C6: a card whose front yields two headword
patterns is italicised by two passes without ever nesting emphasis. -/
theorem C6_amended_witness :
    LtF (normalizeField (sl "Att springa")) ∧
    LtF (normalizeField (sl "\"han springer fort\"")) ∧
    (hasNestedI (cleanCard (sl "Att springa") (sl "\"han springer fort\"")).1 = false ∧
     hasNestedI (cleanCard (sl "Att springa") (sl "\"han springer fort\"")).2.1 = false) :=
  ⟨by decide, by decide,
    C6_amended_no_nested_emphasis_on_plain_input (sl "Att springa")
      (sl "\"han springer fort\"") (by decide) (by decide)⟩
